import Mathlib

/-!
# go-serverci: the document validator and the LaTeX compilation

A shallow embedding of the validator of the configuration-item document
(`pkg/validation.go`, `pkg/data.go`) with proofs of its field rules, and of the
compilation of a LaTeX source (`pkg/latex.go`) with proofs about the selection
of the engine, the calls it makes and the files it removes.

Conventions of the embedding:

* a Go `string` is a `Str` (a list of Unicode characters); `len(s)` is the
  number of bytes of the UTF-8 encoding, `goLen s`;
* a Go pointer `*T` is an `Option T`, a slice `[]*T` is a `List (Option T)`;
* a Go `int` is an `Int`;
* a Go `error` is an `Option GoError` (`none` is `nil`);
* the Go standard library functions the validator calls (`strings.TrimSpace`,
  `strings.Split`, `regexp.MatchString`, `net.ParseIP`, `IP.To4`, `time.Parse`,
  `strconv.Atoi`, `%d` of `fmt`) are modelled by the definitions of the first
  sections; `%q` of `fmt` is a parameter `quote` of the functions that render
  an error as text;
* for `latex.go`: the source `tex []byte` is a list of bytes; the search of
  the directive pattern is the scanner `findDirective`, which is proved to find
  the leftmost text of the form `DirectiveAt`; the file system, `exec.LookPath`
  and the run of a process are the functions of a `World`, and the state of
  the files and the log of the calls are passed along in a `Sys`.
-/

namespace ServerCI

/-! ## Strings -/

/-- A Go string, as the list of its characters. -/
abbrev Str := List Char

/-- Number of bytes of the UTF-8 encoding of one character. -/
def utf8Len (c : Char) : Nat :=
  if c.toNat < 0x80 then 1
  else if c.toNat < 0x800 then 2
  else if c.toNat < 0x10000 then 3
  else 4

/-- Go `len(s)`: the length of the string in bytes. -/
def goLen (s : Str) : Nat := (s.map utf8Len).sum

/-- Go `unicode.IsSpace`. -/
def isSpace (c : Char) : Bool :=
  let n := c.toNat
  (9 ≤ n && n ≤ 13) || n == 0x20 || n == 0x85 || n == 0xA0 || n == 0x1680 ||
  (0x2000 ≤ n && n ≤ 0x200A) || n == 0x2028 || n == 0x2029 || n == 0x202F ||
  n == 0x205F || n == 0x3000

/-- Go `strings.TrimSpace`: leading and trailing white space removed. -/
def TrimSpace (s : Str) : Str := (s.dropWhile isSpace).rdropWhile isSpace

/-- Go `strings.Split(s, ".")`. -/
def SplitDot (s : Str) : List Str := s.splitOn '.'

/-- ASCII decimal digit, `'0' <= c && c <= '9'`. -/
def isDigit (c : Char) : Bool := 48 ≤ c.toNat && c.toNat ≤ 57

/-- ASCII letter, `[a-zA-Z]`. -/
def isAlpha (c : Char) : Bool :=
  (97 ≤ c.toNat && c.toNat ≤ 122) || (65 ≤ c.toNat && c.toNat ≤ 90)

/-- The class `[a-zA-Z0-9]`. -/
def isAlnum (c : Char) : Bool := isAlpha c || isDigit c

/-- The class `[a-zA-Z0-9-]`. -/
def isAlnumHyphen (c : Char) : Bool := isAlnum c || c == '-'

/-- Value of an ASCII decimal digit, `c - '0'`. -/
def digitVal (c : Char) : Nat := c.toNat - 48

/-- The decimal digit character of a number below ten. -/
def digitChar (d : Nat) : Char := Char.ofNat (48 + d)

/-- Worker of `itoa`: the digits of `n`, most significant first, pushed in
front of `acc`; `fuel` bounds the number of digits. -/
def itoaAux : Nat → Nat → Str → Str
  | 0, _, acc => acc
  | fuel + 1, n, acc =>
    if n / 10 = 0 then digitChar (n % 10) :: acc
    else itoaAux fuel (n / 10) (digitChar (n % 10) :: acc)

/-- Go `%d` of a non-negative integer. -/
def itoa (n : Nat) : Str := itoaAux (n + 1) n []

/-- Go `%d` of an `int`. -/
def itoaInt : Int → Str
  | Int.ofNat n => itoa n
  | Int.negSucc n => '-' :: itoa (n + 1)

/-! ## Regular expressions

The three patterns of `validation.go` are anchored (`^…$`), so
`MatchString` decides membership of the whole string in the language of the
pattern. `RE` holds the constructs those patterns use; `RE.rmatch` decides
membership by derivatives. -/

/-- Regular expressions over characters. -/
inductive RE where
  /-- no string -/
  | nothing
  /-- the empty string -/
  | eps
  /-- one character of a class -/
  | cls (p : Char → Bool)
  /-- concatenation -/
  | seq (a b : RE)
  /-- alternation `a|b` -/
  | alt (a b : RE)
  /-- repetition `a*` -/
  | star (a : RE)
  /-- bounded repetition of a class, `[…]{0,n}` -/
  | upto (n : Nat) (p : Char → Bool)

namespace RE

/-- One given character. -/
def chr (c : Char) : RE := cls (fun x => x == c)

/-- Repetition `a+`. -/
def plus (a : RE) : RE := seq a (star a)

/-- Option `a?`. -/
def opt (a : RE) : RE := alt a eps

/-- Does the expression match the empty string. -/
def nullable : RE → Bool
  | nothing => false
  | eps => true
  | cls _ => false
  | seq a b => a.nullable && b.nullable
  | alt a b => a.nullable || b.nullable
  | star _ => true
  | upto _ _ => true

/-- Derivative of an expression by a character. -/
def deriv : RE → Char → RE
  | nothing, _ => nothing
  | eps, _ => nothing
  | cls p, c => if p c then eps else nothing
  | seq a b, c =>
    if a.nullable then alt (seq (a.deriv c) b) (b.deriv c) else seq (a.deriv c) b
  | alt a b, c => alt (a.deriv c) (b.deriv c)
  | star a, c => seq (a.deriv c) (star a)
  | upto 0 _, _ => nothing
  | upto (n + 1) p, c => if p c then upto n p else nothing

/-- Whole-string match, as `MatchString` of an anchored pattern. -/
def rmatch : RE → Str → Bool
  | r, [] => r.nullable
  | r, c :: cs => (r.deriv c).rmatch cs

/-- The language of an expression. -/
def lang : RE → Language Char
  | nothing => 0
  | eps => 1
  | cls p => {x | ∃ c, p c = true ∧ x = [c]}
  | seq a b => a.lang * b.lang
  | alt a b => a.lang + b.lang
  | star a => KStar.kstar a.lang
  | upto n p => {x | x.length ≤ n ∧ ∀ c ∈ x, p c = true}

end RE

/-- The pattern `^\d+(?:\.\d+)*$`. -/
def reVersionNumber : RE :=
  .seq (.plus (.cls isDigit)) (.star (.seq (.chr '.') (.plus (.cls isDigit))))

/-- The pattern `^[a-zA-Z0-9]([a-zA-Z0-9-]{0,61}[a-zA-Z0-9])?$`. -/
def reHostnameLabel : RE :=
  .seq (.cls isAlnum) (.opt (.seq (.upto 61 isAlnumHyphen) (.cls isAlnum)))

/-- The pattern `^/(?:[0-9]|[12][0-9]|3[0-2])$`. -/
def reSubnetPrefixOnly : RE :=
  .seq (.chr '/')
    (.alt (.cls isDigit)
      (.alt (.seq (.cls (fun c => c == '1' || c == '2')) (.cls isDigit))
        (.seq (.chr '3') (.cls (fun c => c == '0' || c == '1' || c == '2')))))

/-! ## `net.ParseIP` and `IP.To4` -/

/-- The loop of `parseIPv4Fields` of `net/netip`: `prev` is the previous
character (`none` at the start), `val` the value of the current octet, `pos`
the number of octets stored, `digLen` the number of digits of the current
octet, `fields` the octets stored so far. The result is the four octets. -/
def parseIPv4Fields : Option Char → Str → Nat → Nat → Nat → List Nat → Option (List Nat)
  | _, [], val, pos, _, fields => if pos < 3 then none else some (fields ++ [val])
  | prev, c :: cs, val, pos, digLen, fields =>
    if isDigit c then
      if digLen = 1 ∧ val = 0 then none
      else if val * 10 + digitVal c > 255 then none
      else parseIPv4Fields (some c) cs (val * 10 + digitVal c) pos (digLen + 1) fields
    else if c = '.' then
      if prev = none ∨ cs = [] ∨ prev = some '.' then none
      else if pos = 3 then none
      else parseIPv4Fields (some c) cs 0 (pos + 1) 0 (fields ++ [val])
    else none

/-- Dotted-quad parser `parseIPv4`: four octets, or `none`. -/
def parseIPv4 (s : Str) : Option (List Nat) := parseIPv4Fields none s 0 0 0 []

/-- Value of a hexadecimal digit, or `none`. -/
def hexVal (c : Char) : Option Nat :=
  if isDigit c then some (c.toNat - 48)
  else if 97 ≤ c.toNat ∧ c.toNat ≤ 102 then some (c.toNat - 97 + 10)
  else if 65 ≤ c.toNat ∧ c.toNat ≤ 70 then some (c.toNat - 65 + 10)
  else none

/-- The hexadecimal group scan of `parseIPv6`: the number `off` of digits read,
their value `acc` and the rest of the string; `none` for a group of more than
four digits. -/
def scanHex : Str → Nat → Nat → Option (Nat × Nat × Str)
  | [], off, acc => some (off, acc, [])
  | c :: cs, off, acc =>
    match hexVal c with
    | none => some (off, acc, c :: cs)
    | some d =>
      if off > 3 then none
      else if acc * 16 + d > 0xFFFF then none
      else scanHex cs (off + 1) (acc * 16 + d)

/-- The main loop of `parseIPv6`, `for i < 16`, where `i` is the length of
`ip` and `slots` counts the two-byte groups still free (`i = 16 - 2 * slots`).
The result is the unread rest of the string, the bytes read and the position
of the ellipsis `::`. -/
def parseIPv6Loop : Nat → Str → List Nat → Option Nat → Option (Str × List Nat × Option Nat)
  | 0, s, ip, ell => some (s, ip, ell)
  | slots + 1, s, ip, ell =>
    match scanHex s 0 0 with
    | none => none
    | some (off, acc, rest) =>
      if off = 0 then none
      else if rest.head? = some '.' then
        if ell = none ∧ ip.length ≠ 12 then none
        else if ip.length + 4 > 16 then none
        else
          match parseIPv4Fields none s 0 0 0 [] with
          | none => none
          | some f => some ([], ip ++ f, ell)
      else
        match rest with
        | [] => some ([], ip ++ [acc / 256, acc % 256], ell)
        | c :: rest1 =>
          if c ≠ ':' then none
          else
            match rest1 with
            | [] => none
            | c1 :: rest2 =>
              if c1 = ':' then
                if ell.isSome then none
                else if rest2 = [] then
                  some ([], ip ++ [acc / 256, acc % 256], some (ip.length + 2))
                else
                  parseIPv6Loop slots rest2 (ip ++ [acc / 256, acc % 256]) (some (ip.length + 2))
              else
                parseIPv6Loop slots (c1 :: rest2) (ip ++ [acc / 256, acc % 256]) ell

/-- The end of `parseIPv6`: the whole string must be used, and an address
shorter than sixteen bytes needs an ellipsis, which is filled with zeros. -/
def parseIPv6Finish : Str × List Nat × Option Nat → Option (List Nat)
  | (rest, ip, ell) =>
    if rest ≠ [] then none
    else if ip.length < 16 then
      match ell with
      | none => none
      | some e => some (ip.take e ++ List.replicate (16 - ip.length) 0 ++ ip.drop e)
    else if ell.isSome then none
    else some ip

/-- Colon-hex parser `parseIPv6`, as `net.ParseIP` uses it: an address with a
zone (`%`) is never an IP, so the zone is rejected here. -/
def parseIPv6 (s : Str) : Option (List Nat) :=
  if '%' ∈ s then none
  else
    match s with
    | ':' :: ':' :: rest =>
      if rest = [] then some (List.replicate 16 0)
      else (parseIPv6Loop 8 rest [] (some 0)).bind parseIPv6Finish
    | _ => (parseIPv6Loop 8 s [] none).bind parseIPv6Finish

/-- Go `net.ParseIP`: the sixteen bytes of the address (an IPv4 address in its
IPv4-in-IPv6 form), or `none` for Go `nil`. The first of `.`, `:` and `%`
chooses the parser. -/
def ParseIP (s : Str) : Option (List Nat) :=
  match s.find? (fun c => c == '.' || c == ':' || c == '%') with
  | some '.' => (parseIPv4 s).map (fun f => List.replicate 10 0 ++ [0xff, 0xff] ++ f)
  | some ':' => parseIPv6 s
  | _ => none

/-- Go `IP.To4`: the four bytes of an IPv4 address, or `none` for Go `nil`. -/
def To4 (ip : List Nat) : Option (List Nat) :=
  if ip.length = 4 then some ip
  else if ip.length = 16 ∧ (ip.take 10).all (fun b => b == 0) ∧
      ip.get? 10 = some 0xff ∧ ip.get? 11 = some 0xff then some (ip.drop 12)
  else none

/-! ## `time.Parse` with the layout `02.01.2006` -/

/-- The layout constant `dateLayout`. -/
def dateLayout : Str := "02.01.2006".toList

/-- Go `getnum(s, true)`: exactly two leading digits. -/
def getnum2 : Str → Option (Nat × Str)
  | a :: b :: rest =>
    if isDigit a ∧ isDigit b then some (digitVal a * 10 + digitVal b, rest) else none
  | _ => none

/-- The year of the layout element `2006`: exactly four leading digits. -/
def getyear4 : Str → Option (Nat × Str)
  | a :: b :: c :: d :: rest =>
    if isDigit a ∧ isDigit b ∧ isDigit c ∧ isDigit d then
      some (digitVal a * 1000 + digitVal b * 100 + digitVal c * 10 + digitVal d, rest)
    else none
  | _ => none

/-- Go `skip(value, ".")`: one literal dot. -/
def skipDot : Str → Option Str
  | c :: rest => if c = '.' then some rest else none
  | [] => none

/-- Go `isLeap`. -/
def isLeap (year : Nat) : Bool := year % 4 == 0 && (year % 100 != 0 || year % 400 == 0)

/-- Go `daysIn`. -/
def daysIn (month year : Nat) : Nat :=
  if month = 2 then (if isLeap year then 29 else 28)
  else if month = 4 ∨ month = 6 ∨ month = 9 ∨ month = 11 then 30
  else 31

/-- Go `time.Parse("02.01.2006", s)`: day, month and year, or `none` for an
error. The month is range-checked when it is read, the day once the year is
known, and trailing text is an error. -/
def parseDate (s : Str) : Option (Nat × Nat × Nat) :=
  match getnum2 s with
  | none => none
  | some (day, s1) =>
    match skipDot s1 with
    | none => none
    | some s2 =>
      match getnum2 s2 with
      | none => none
      | some (month, s3) =>
        if month = 0 ∨ 12 < month then none
        else
          match skipDot s3 with
          | none => none
          | some s4 =>
            match getyear4 s4 with
            | none => none
            | some (year, s5) =>
              if s5 ≠ [] then none
              else if day < 1 ∨ day > daysIn month year then none
              else some (day, month, year)

/-! ## `strconv.Atoi` -/

/-- Value of a string of decimal digits, or `none` when it is empty or holds
another character. -/
def parseDigits (s : Str) : Option Nat :=
  if s ≠ [] ∧ s.all isDigit then some (s.foldl (fun n c => n * 10 + digitVal c) 0) else none

/-- Go `strconv.Atoi` on a 64-bit platform: an optional sign and decimal
digits, in the range of `int`; `none` for an error. -/
def Atoi (s : Str) : Option Int :=
  match s with
  | '-' :: rest =>
    match parseDigits rest with
    | some n => if n ≤ 2 ^ 63 then some (-(n : Int)) else none
    | none => none
  | '+' :: rest =>
    match parseDigits rest with
    | some n => if n < 2 ^ 63 then some (n : Int) else none
    | none => none
  | _ =>
    match parseDigits s with
    | some n => if n < 2 ^ 63 then some (n : Int) else none
    | none => none

/-! ## Errors (`validation.go`) -/

/-- The calls of `fmt.Errorf` of the validator: one constructor per format
string, holding the arguments of the call. -/
inductive Msg where
  /-- `invalid date %q (expected %s)`, the second argument being `dateLayout` -/
  | invalidDate (s : Str)
  /-- `invalid version number %q (expected digits with optional dots, e.g. 1.2.3)` -/
  | invalidVersionNumber (s : Str)
  /-- `must be ≥ 0, got %d` -/
  | negative (n : Int)
  /-- `VLAN must be in [1..4094], got %d` -/
  | vlanRange (n : Int)
  /-- `invalid IP address %q` -/
  | invalidIP (s : Str)
  /-- `duplicate IP %q` -/
  | duplicateIP (s : Str)
  /-- `invalid FQDN %q (need at least one dot)` -/
  | fqdnNoDot (s : Str)
  /-- `invalid FQDN %q (bad label %q)` -/
  | fqdnBadLabel (s lbl : Str)
  /-- `invalid FQDN %q (too long)` -/
  | fqdnTooLong (s : Str)
  /-- `invalid subnet %q (use /N or dotted mask)` -/
  | subnetInvalid (s : Str)
  /-- `invalid IPv4 mask %q` -/
  | subnetNotIPv4 (s : Str)
  /-- `invalid dotted netmask %q (must be contiguous)` -/
  | subnetNotContiguous (s : Str)
  /-- `invalid host or IP %q` -/
  | hostInvalid (s : Str)
  /-- `invalid host %q (too long)` -/
  | hostTooLong (s : Str)
  /-- `subnet prefix out of range /%d` -/
  | prefixOutOfRange (n : Int)
  deriving DecidableEq

/-- The text of a `fmt.Errorf` error; `quote` is `%q`. -/
def Msg.text (quote : Str → Str) : Msg → Str
  | .invalidDate s =>
    "invalid date ".toList ++ quote s ++ " (expected ".toList ++ dateLayout ++ ")".toList
  | .invalidVersionNumber s =>
    "invalid version number ".toList ++ quote s ++
      " (expected digits with optional dots, e.g. 1.2.3)".toList
  | .negative n => "must be ≥ 0, got ".toList ++ itoaInt n
  | .vlanRange n => "VLAN must be in [1..4094], got ".toList ++ itoaInt n
  | .invalidIP s => "invalid IP address ".toList ++ quote s
  | .duplicateIP s => "duplicate IP ".toList ++ quote s
  | .fqdnNoDot s => "invalid FQDN ".toList ++ quote s ++ " (need at least one dot)".toList
  | .fqdnBadLabel s lbl =>
    "invalid FQDN ".toList ++ quote s ++ " (bad label ".toList ++ quote lbl ++ ")".toList
  | .fqdnTooLong s => "invalid FQDN ".toList ++ quote s ++ " (too long)".toList
  | .subnetInvalid s =>
    "invalid subnet ".toList ++ quote s ++ " (use /N or dotted mask)".toList
  | .subnetNotIPv4 s => "invalid IPv4 mask ".toList ++ quote s
  | .subnetNotContiguous s =>
    "invalid dotted netmask ".toList ++ quote s ++ " (must be contiguous)".toList
  | .hostInvalid s => "invalid host or IP ".toList ++ quote s
  | .hostTooLong s => "invalid host ".toList ++ quote s ++ " (too long)".toList
  | .prefixOutOfRange n => "subnet prefix out of range /".toList ++ itoaInt n

mutual
/-- The struct `ValidationError`. -/
inductive ValidationError where
  | mk (Path : Str) (Err : GoError)
/-- The non-nil values of the interface `error` that the validator builds: the
result of a `fmt.Errorf`, or a `MultiError`. -/
inductive GoError where
  | errorf (m : Msg)
  | multi (m : List ValidationError)
end

mutual
/-- Equality of two `ValidationError` values is decidable. -/
def ValidationError.decEq : (a b : ValidationError) → Decidable (a = b)
  | .mk p e, .mk p1 e1 =>
    if hp : p = p1 then
      match GoError.decEq e e1 with
      | isTrue he => isTrue (by rw [hp, he])
      | isFalse he => isFalse (by intro h; cases h; exact he rfl)
    else isFalse (by intro h; cases h; exact hp rfl)
/-- Equality of two `error` values is decidable. -/
def GoError.decEq : (a b : GoError) → Decidable (a = b)
  | .errorf m, .errorf m1 =>
    if h : m = m1 then isTrue (by rw [h]) else isFalse (by intro h1; cases h1; exact h rfl)
  | .multi l, .multi l1 =>
    match decEqErrors l l1 with
    | isTrue h => isTrue (by rw [h])
    | isFalse h => isFalse (by intro h1; cases h1; exact h rfl)
  | .errorf _, .multi _ => isFalse (by intro h; cases h)
  | .multi _, .errorf _ => isFalse (by intro h; cases h)
/-- Equality of two lists of `ValidationError` values is decidable. -/
def decEqErrors : (a b : List ValidationError) → Decidable (a = b)
  | [], [] => isTrue rfl
  | [], _ :: _ => isFalse (by intro h; cases h)
  | _ :: _, [] => isFalse (by intro h; cases h)
  | a :: as, b :: bs =>
    match ValidationError.decEq a b with
    | isTrue h =>
      match decEqErrors as bs with
      | isTrue h1 => isTrue (by rw [h, h1])
      | isFalse h1 => isFalse (by intro h2; cases h2; exact h1 rfl)
    | isFalse h => isFalse (by intro h1; cases h1; exact h rfl)
end

instance : DecidableEq GoError := GoError.decEq

instance : DecidableEq ValidationError := ValidationError.decEq

/-- The type `MultiError`, `[]ValidationError`. -/
abbrev MultiError := List ValidationError

/-- The field `Path`. -/
def ValidationError.Path : ValidationError → Str
  | .mk p _ => p

/-- The field `Err`. -/
def ValidationError.Err : ValidationError → GoError
  | .mk _ e => e

mutual
/-- The method `ValidationError.Error`. -/
def ValidationError.Error (quote : Str → Str) : ValidationError → Str
  | .mk p e => if p = [] then e.Error quote else p ++ ": ".toList ++ e.Error quote
/-- The method `Error` of an `error` value; for a `MultiError` it is
`MultiError.Error`. -/
def GoError.Error (quote : Str → Str) : GoError → Str
  | .errorf m => m.text quote
  | .multi m => joinErrors quote m
/-- The loop of `MultiError.Error`: the texts of the entries with a newline
between two of them. -/
def joinErrors (quote : Str → Str) : List ValidationError → Str
  | [] => []
  | [e] => e.Error quote
  | e :: e1 :: es => e.Error quote ++ "\n".toList ++ joinErrors quote (e1 :: es)
end

/-- The method `MultiError.add`: a nil error adds nothing. -/
def MultiError.add (m : MultiError) (path : Str) (err : Option GoError) : MultiError :=
  match err with
  | none => m
  | some e => m ++ [.mk path e]

/-- The method `MultiError.ToError`: nil for an empty list. -/
def MultiError.ToError (m : MultiError) : Option GoError :=
  if m = [] then none else some (.multi m)

/-- A Go loop `for i, v := range xs`, started at index `i`, with the state `st`
that its body updates. -/
def rangeLoop {α σ : Type} (body : Nat → α → σ → σ) : Nat → List α → σ → σ
  | _, [], st => st
  | i, v :: vs, st => rangeLoop body (i + 1) vs (body i v st)

/-! ## Field rules (`validation.go`) -/

/-- `strOrEmpty`. -/
def strOrEmpty (p : Option Str) : Str :=
  match p with
  | none => []
  | some s => TrimSpace s

/-- `boolOrFalse`. -/
def boolOrFalse (p : Option Bool) : Bool :=
  match p with
  | none => false
  | some b => b

/-- `isEmpty`. -/
def isEmpty (p : Option Str) : Bool :=
  match p with
  | none => true
  | some s => TrimSpace s = []

/-- `validateDate`. -/
def validateDate (_path : Str) (p : Option Str) : Option GoError :=
  let s := strOrEmpty p
  if s = [] then none
  else if parseDate s = none then some (.errorf (.invalidDate s))
  else none

/-- `validateVersionNumber`. -/
def validateVersionNumber (_path : Str) (p : Option Str) : Option GoError :=
  let s := strOrEmpty p
  if s = [] then none
  else if !reVersionNumber.rmatch s then some (.errorf (.invalidVersionNumber s))
  else none

/-- `validateNonNegativeInt`. -/
def validateNonNegativeInt (_path : Str) (p : Option Int) : Option GoError :=
  match p with
  | none => none
  | some n => if n < 0 then some (.errorf (.negative n)) else none

/-- `validateVLAN`. -/
def validateVLAN (_path : Str) (p : Option Int) : Option GoError :=
  match p with
  | none => none
  | some n => if n < 1 ∨ n > 4094 then some (.errorf (.vlanRange n)) else none

/-- `validateIP`. -/
def validateIP (_path : Str) (p : Option Str) : Option GoError :=
  let s := strOrEmpty p
  if s = [] then none
  else if ParseIP s = none then some (.errorf (.invalidIP s))
  else none

/-- The path `fmt.Sprintf("%s[%d]", path, i)`. -/
def indexPath (path : Str) (i : Nat) : Str := path ++ "[".toList ++ itoa i ++ "]".toList

/-- The body of the loop of `validateIPList`; the state is the `MultiError` and
the set `seen`. -/
def validateIPListBody (path : Str) (i : Nat) (sp : Option Str)
    (st : MultiError × List Str) : MultiError × List Str :=
  match sp with
  | none => st
  | some s =>
    if TrimSpace s = [] then st
    else
      let v := TrimSpace s
      if ParseIP v = none then
        (st.1.add (indexPath path i) (some (.errorf (.invalidIP v))), st.2)
      else if v ∈ st.2 then
        (st.1.add (indexPath path i) (some (.errorf (.duplicateIP v))), st.2)
      else (st.1, v :: st.2)

/-- `validateIPList`. -/
def validateIPList (path : Str) (list : List (Option Str)) : Option GoError :=
  (rangeLoop (validateIPListBody path) 0 list ([], [])).1.ToError

/-- The first label of `labels` that fails
`len(lbl) == 0 || len(lbl) > 63 || !reHostnameLabel.MatchString(lbl)`. -/
def firstBadLabel (labels : List Str) : Option Str :=
  labels.find? (fun lbl => goLen lbl == 0 || decide (goLen lbl > 63) || !reHostnameLabel.rmatch lbl)

/-- `validateFQDN`. -/
def validateFQDN (_path : Str) (p : Option Str) : Option GoError :=
  let s := strOrEmpty p
  if s = [] then none
  else
    let labels := SplitDot s
    if labels.length < 2 then some (.errorf (.fqdnNoDot s))
    else
      match firstBadLabel labels with
      | some lbl => some (.errorf (.fqdnBadLabel s lbl))
      | none => if goLen s > 253 then some (.errorf (.fqdnTooLong s)) else none

/-- `isContiguousIPv4Mask`, in 32-bit unsigned arithmetic. -/
def isContiguousIPv4Mask (m : List Nat) : Bool :=
  match m with
  | [m0, m1, m2, m3] =>
    let v := (m0 <<< 24 ||| m1 <<< 16 ||| m2 <<< 8 ||| m3) % 2 ^ 32
    if v = 0 then true
    else
      let inv := 2 ^ 32 - 1 - v
      inv &&& ((inv + 1) % 2 ^ 32) == 0
  | _ => false

/-- `validateSubnetMask`. -/
def validateSubnetMask (_path : Str) (p : Option Str) : Option GoError :=
  let s := strOrEmpty p
  if s = [] then none
  else if reSubnetPrefixOnly.rmatch s then none
  else
    match ParseIP s with
    | none => some (.errorf (.subnetInvalid s))
    | some ip =>
      match To4 ip with
      | none => some (.errorf (.subnetNotIPv4 s))
      | some mask =>
        if !isContiguousIPv4Mask mask then some (.errorf (.subnetNotContiguous s)) else none

/-- `validateHostnameOrIP`. -/
def validateHostnameOrIP (_path : Str) (p : Option Str) : Option GoError :=
  let s := strOrEmpty p
  if s = [] then none
  else if ParseIP s ≠ none then none
  else
    match firstBadLabel (SplitDot s) with
    | some _ => some (.errorf (.hostInvalid s))
    | none => if goLen s > 253 then some (.errorf (.hostTooLong s)) else none

/-! ## The document (`data.go`) -/

/-- The struct `Version`. -/
structure Version where
  Number : Option Str
  Date : Option Str
  User : Option Str
  Description : Option Str

/-- The struct `AuditVersion`. -/
structure AuditVersion where
  Number : Option Str
  Date : Option Str
  Authority : Option Str
  Remarks : Option Str

/-- The struct `ReleaseVersion`. -/
structure ReleaseVersion where
  Number : Option Str
  Date : Option Str
  Authority : Option Str
  Remarks : Option Str

/-- The struct `Requirement`. -/
structure Requirement where
  Type_ : Option Str
  Name : Option Str

/-- The struct `SurroundingSystem`. -/
structure SurroundingSystem where
  Type_ : Option Str
  Name : Option Str
  Address : Option Str
  Description : Option Str

/-- The struct `Description`. -/
structure Description where
  ServiceCode : Option Str
  Customer : Option Str
  Descr : Option Str
  Supplier : Option Str
  DisasterLvl : Option Int

/-- The struct `Configuration`. -/
structure Configuration where
  Name : Option Str
  FQDN : Option Str
  OS : Option Str
  RAM : Option Int
  CPU : Option Int
  Domain : Option Str
  NTP : List (Option Str)
  SNMP : Option Str

/-- The struct `Interface`. -/
structure Interface where
  Name : Option Str
  Zone : Option Str
  VLAN : Option Int
  DHCP : Option Bool
  IP : Option Str
  Subnet : Option Str
  DNS : List (Option Str)

/-- The struct `Account`. -/
structure Account where
  Type_ : Option Str
  Name : Option Str
  Usage : Option Str

/-- The struct `CI`. -/
structure CI where
  AuthorCompany : Option Str
  AuthorDepartment : Option Str
  Classification : Option Str
  Versions : List (Option Version)
  AuditVersions : List (Option AuditVersion)
  ReleaseVersions : List (Option ReleaseVersion)
  Requirements : List (Option Requirement)
  SurroundingSystems : List (Option SurroundingSystem)
  Description : Option Description
  Configuration : Option Configuration
  Interfaces : List (Option Interface)
  Accounts : List (Option Account)

/-- The struct `Root`. -/
structure Root where
  CI : Option CI

/-- `(*Version).Validate`. -/
def Version.Validate (v : Version) (path : Str) : Option GoError :=
  let me : MultiError := []
  let me := me.add (path ++ ".number".toList)
    (validateVersionNumber (path ++ ".number".toList) v.Number)
  let me := me.add (path ++ ".date".toList) (validateDate (path ++ ".date".toList) v.Date)
  me.ToError

/-- `(*AuditVersion).Validate`. -/
def AuditVersion.Validate (v : AuditVersion) (path : Str) : Option GoError :=
  let me : MultiError := []
  let me := me.add (path ++ ".number".toList)
    (validateVersionNumber (path ++ ".number".toList) v.Number)
  let me := me.add (path ++ ".date".toList) (validateDate (path ++ ".date".toList) v.Date)
  me.ToError

/-- `(*ReleaseVersion).Validate`. -/
def ReleaseVersion.Validate (v : ReleaseVersion) (path : Str) : Option GoError :=
  let me : MultiError := []
  let me := me.add (path ++ ".number".toList)
    (validateVersionNumber (path ++ ".number".toList) v.Number)
  let me := me.add (path ++ ".date".toList) (validateDate (path ++ ".date".toList) v.Date)
  me.ToError

/-- `(*Requirement).Validate`. -/
def Requirement.Validate (_r : Requirement) (_path : Str) : Option GoError := none

/-- `(*SurroundingSystem).Validate`. -/
def SurroundingSystem.Validate (s : SurroundingSystem) (path : Str) : Option GoError :=
  let me : MultiError := []
  let me := me.add (path ++ ".address".toList)
    (validateHostnameOrIP (path ++ ".address".toList) s.Address)
  me.ToError

/-- `(*Description).Validate`. -/
def Description.Validate (d : Description) (path : Str) : Option GoError :=
  let me : MultiError := []
  let me := me.add (path ++ ".disaster_lvl".toList)
    (validateNonNegativeInt (path ++ ".disaster_lvl".toList) d.DisasterLvl)
  me.ToError

/-- `(*Configuration).Validate`. -/
def Configuration.Validate (c : Configuration) (path : Str) : Option GoError :=
  let me : MultiError := []
  let me := me.add (path ++ ".fqdn".toList) (validateFQDN (path ++ ".fqdn".toList) c.FQDN)
  let me := me.add (path ++ ".ram".toList) (validateNonNegativeInt (path ++ ".ram".toList) c.RAM)
  let me := me.add (path ++ ".cpu".toList) (validateNonNegativeInt (path ++ ".cpu".toList) c.CPU)
  let me := me.add (path ++ ".ntp".toList) (validateIPList (path ++ ".ntp".toList) c.NTP)
  me.ToError

/-- The last check of `(*Interface).Validate`: for a subnet `/…` of more than
one byte whose rest `strconv.Atoi` reads as `n`, the error
`subnet prefix out of range` when `n < 0 || n > 32`. -/
def prefixRangeCheck (subnet : Option Str) : Option GoError :=
  match strOrEmpty subnet with
  | '/' :: rest =>
    if goLen ('/' :: rest) > 1 then
      match Atoi rest with
      | some n => if n < 0 ∨ n > 32 then some (.errorf (.prefixOutOfRange n)) else none
      | none => none
    else none
  | _ => none

/-- `(*Interface).Validate`. The error value built when `dhcp` is false and
neither `ip` nor `subnet` is given is assigned to `_`: that branch leaves the
`MultiError` as it is. -/
def Interface.Validate (i : Interface) (path : Str) : Option GoError :=
  let me : MultiError := []
  let me := me.add (path ++ ".vlan".toList) (validateVLAN (path ++ ".vlan".toList) i.VLAN)
  let me := me.add (path ++ ".ip".toList) (validateIP (path ++ ".ip".toList) i.IP)
  let me := me.add (path ++ ".subnet".toList)
    (validateSubnetMask (path ++ ".subnet".toList) i.Subnet)
  let me := me.add (path ++ ".dns".toList) (validateIPList (path ++ ".dns".toList) i.DNS)
  let me :=
    if i.DHCP ≠ none ∧ !boolOrFalse i.DHCP then
      if isEmpty i.IP ∧ isEmpty i.Subnet then me else me
    else me
  let me := me.add (path ++ ".subnet".toList) (prefixRangeCheck i.Subnet)
  me.ToError

/-- The body of the loops of `(*CI).Validate`: a nil element is skipped, and
the error of an element, when there is one, is added under the empty path.
`validate` is the method `Validate` of the element and `pre` the path before
the index. -/
def elementBody {α : Type} (validate : α → Str → Option GoError) (pre : Str)
    (i : Nat) (v : Option α) (me : MultiError) : MultiError :=
  match v with
  | none => me
  | some x =>
    match validate x (indexPath pre i) with
    | some err => me.add [] (some err)
    | none => me

/-- The two blocks of `(*CI).Validate` for an element behind a pointer
(`if c.Description != nil { … }`): a nil pointer is skipped, and the error of
the element, when there is one, is added under the empty path. -/
def pointerBody {α : Type} (validate : α → Str → Option GoError) (path : Str)
    (v : Option α) (me : MultiError) : MultiError :=
  match v with
  | none => me
  | some x =>
    match validate x path with
    | some err => me.add [] (some err)
    | none => me

/-- `(*CI).Validate`. -/
def CI.Validate (c : CI) : Option GoError :=
  let me : MultiError := []
  let me := rangeLoop (elementBody Version.Validate "ci.versions".toList) 0 c.Versions me
  let me := rangeLoop (elementBody AuditVersion.Validate "ci.audit_versions".toList) 0
    c.AuditVersions me
  let me := rangeLoop (elementBody ReleaseVersion.Validate "ci.release_versions".toList) 0
    c.ReleaseVersions me
  let me := rangeLoop (elementBody Requirement.Validate "ci.requirements".toList) 0
    c.Requirements me
  let me := rangeLoop (elementBody SurroundingSystem.Validate "ci.surrounding_systems".toList) 0
    c.SurroundingSystems me
  let me := pointerBody Description.Validate "ci.description".toList c.Description me
  let me := pointerBody Configuration.Validate "ci.configuration".toList c.Configuration me
  let me := rangeLoop (elementBody Interface.Validate "ci.interfaces".toList) 0 c.Interfaces me
  me.ToError

/-- `(*Root).Validate`; the receiver `r` is `none` for a nil pointer. -/
def Root.Validate (r : Option Root) : Option GoError :=
  match r with
  | none => none
  | some root =>
    match root.CI with
    | none => none
    | some c => c.Validate

/-! ## Forms the specification names -/

/-- The form `digits(.digits)*`: one or more ASCII digits, followed by zero or
more groups of a dot and one or more ASCII digits. -/
def IsDottedDigits (n : Str) : Prop :=
  ∃ (d : Str) (gs : List Str), d ≠ [] ∧ (∀ c ∈ d, isDigit c = true) ∧
    (∀ g ∈ gs, g ≠ [] ∧ ∀ c ∈ g, isDigit c = true) ∧
    n = d ++ (gs.map (fun g => '.' :: g)).flatten

/-- The zero-padded form `DD.MM.YYYY`: two digits, a dot, two digits, a dot,
four digits, and nothing else. -/
def IsDDMMYYYY (s : Str) : Prop :=
  ∃ d1 d2 m1 m2 y1 y2 y3 y4 : Char,
    isDigit d1 = true ∧ isDigit d2 = true ∧ isDigit m1 = true ∧ isDigit m2 = true ∧
    isDigit y1 = true ∧ isDigit y2 = true ∧ isDigit y3 = true ∧ isDigit y4 = true ∧
    s = [d1, d2, '.', m1, m2, '.', y1, y2, y3, y4]

/-- The finding of one entry `e` of an IP list, given the entries `pre` before
it: none for an absent or blank entry, an invalid-literal message when the
trimmed text is no IP literal, a duplicate message when an earlier entry has
the same trimmed text, none otherwise. -/
def ipEntryFinding (pre : List (Option Str)) (e : Option Str) : Option Msg :=
  let v := strOrEmpty e
  if v = [] then none
  else if ParseIP v = none then some (.invalidIP v)
  else if pre.any (fun e1 => strOrEmpty e1 == v) then some (.duplicateIP v)
  else none

/-- The findings of the entries `l` of an IP list that follow the entries
`pre`, each with the index of its entry. -/
def ipFindingsFrom : List (Option Str) → List (Option Str) → List (Nat × Msg)
  | _, [] => []
  | pre, e :: l =>
    (match ipEntryFinding pre e with
      | some m => [(pre.length, m)]
      | none => []) ++ ipFindingsFrom (pre ++ [e]) l

/-- The `ValidationError` of a finding of an IP list at `path`. -/
def ipFindingError (path : Str) (f : Nat × Msg) : ValidationError :=
  .mk (indexPath path f.1) (.errorf f.2)

/-- The label pattern of the specification,
`[A-Za-z0-9]([A-Za-z0-9-]*[A-Za-z0-9])?`. -/
def specHostnameLabel : RE :=
  .seq (.cls isAlnum) (.opt (.seq (.star (.cls isAlnumHyphen)) (.cls isAlnum)))

/-- The label rules in words: 1 to 63 characters, alphanumeric at both ends,
alphanumerics and hyphens inside. -/
def IsHostLabel (lbl : Str) : Prop :=
  1 ≤ lbl.length ∧ lbl.length ≤ 63 ∧ (∃ c, lbl.head? = some c ∧ isAlnum c = true) ∧
    (∃ c, lbl.getLast? = some c ∧ isAlnum c = true) ∧ ∀ c ∈ lbl, isAlnumHyphen c = true

/-- The 32 bits of four bytes, read as a big-endian value. -/
def be32 (a b c d : Nat) : Nat := a * 2 ^ 24 + b * 2 ^ 16 + c * 2 ^ 8 + d

/-- A 32-bit value whose bits are contiguous ones followed by contiguous
zeros: `k` ones on top and `32 - k` zeros below. -/
def IsOnesThenZeros (v : Nat) : Prop := ∃ k, k ≤ 32 ∧ v = 2 ^ 32 - 2 ^ (32 - k)

/-! ## Findings of a result -/

mutual
/-- The paths that a `ValidationError` carries: its own and those of the
errors under it. -/
def ValidationError.paths : ValidationError → List Str
  | .mk p e => p :: e.paths
/-- The paths that an `error` value carries. -/
def GoError.paths : GoError → List Str
  | .errorf _ => []
  | .multi m => pathsOfErrors m
/-- The paths that the entries of a `MultiError` carry. -/
def pathsOfErrors : List ValidationError → List Str
  | [] => []
  | e :: es => e.paths ++ pathsOfErrors es
end

/-- The result `r` of a validation reports a finding for the path `p`: a
`ValidationError` of the returned error carries that path. -/
def reportsAt (r : Option GoError) (p : Str) : Prop := ∃ e, r = some e ∧ p ∈ e.paths

/-- The elements of a configuration item that `(*CI).Validate` validates. -/
inductive Elem where
  | version (i : Nat)
  | auditVersion (i : Nat)
  | releaseVersion (i : Nat)
  | requirement (i : Nat)
  | surroundingSystem (i : Nat)
  | description
  | configuration
  | interface (i : Nat)

/-- The path that `(*CI).Validate` gives to an element. -/
def Elem.path : Elem → Str
  | .version i => indexPath "ci.versions".toList i
  | .auditVersion i => indexPath "ci.audit_versions".toList i
  | .releaseVersion i => indexPath "ci.release_versions".toList i
  | .requirement i => indexPath "ci.requirements".toList i
  | .surroundingSystem i => indexPath "ci.surrounding_systems".toList i
  | .description => "ci.description".toList
  | .configuration => "ci.configuration".toList
  | .interface i => indexPath "ci.interfaces".toList i

/-- The error of one element of a configuration item: the result of its method
`Validate` at its path, nil for an element that is absent. -/
def Elem.error (c : CI) : Elem → Option GoError
  | .version i =>
    match c.Versions.get? i with
    | some (some v) => v.Validate (Elem.path (.version i))
    | _ => none
  | .auditVersion i =>
    match c.AuditVersions.get? i with
    | some (some v) => v.Validate (Elem.path (.auditVersion i))
    | _ => none
  | .releaseVersion i =>
    match c.ReleaseVersions.get? i with
    | some (some v) => v.Validate (Elem.path (.releaseVersion i))
    | _ => none
  | .requirement i =>
    match c.Requirements.get? i with
    | some (some v) => v.Validate (Elem.path (.requirement i))
    | _ => none
  | .surroundingSystem i =>
    match c.SurroundingSystems.get? i with
    | some (some v) => v.Validate (Elem.path (.surroundingSystem i))
    | _ => none
  | .description =>
    match c.Description with
    | some d => d.Validate (Elem.path .description)
    | none => none
  | .configuration =>
    match c.Configuration with
    | some g => g.Validate (Elem.path .configuration)
    | none => none
  | .interface i =>
    match c.Interfaces.get? i with
    | some (some v) => v.Validate (Elem.path (.interface i))
    | _ => none

/-- A version of number `v1`, which is no valid version number. -/
def sampleVersion : Version := ⟨some "v1".toList, some "29.02.2024".toList, none, none⟩

/-- An audit version with a date that is no date of the calendar. -/
def sampleAuditVersion : AuditVersion := ⟨some "1.0".toList, some "31.02.2024".toList, none, none⟩

/-- A release version with no finding. -/
def sampleReleaseVersion : ReleaseVersion := ⟨some "2.1".toList, none, none, none⟩

/-- A surrounding system at the address `backup-host`. -/
def sampleSystem : SurroundingSystem := ⟨none, none, some "backup-host".toList, none⟩

/-- A description with a negative disaster level. -/
def sampleDescription : Description := ⟨none, none, none, none, some (-1)⟩

/-- A configuration with a one-label FQDN and a repeated NTP server. -/
def sampleConfiguration : Configuration :=
  { Name := none, FQDN := some "db".toList, OS := none, RAM := some 16, CPU := some 4,
    Domain := none, NTP := [some "10.0.0.1".toList, some "10.0.0.1".toList], SNMP := none }

/-- An interface with the vlan 4095 and the subnet `/33`. -/
def sampleInterface : Interface :=
  { Name := none, Zone := none, VLAN := some 4095, DHCP := some false,
    IP := some "10.0.0.7".toList, Subnet := some "/33".toList, DNS := [] }

/-- A configuration item with one element of each kind. -/
def sampleCI : CI :=
  { AuthorCompany := none, AuthorDepartment := none, Classification := none,
    Versions := [some sampleVersion],
    AuditVersions := [none, some sampleAuditVersion],
    ReleaseVersions := [some sampleReleaseVersion],
    Requirements := [],
    SurroundingSystems := [some sampleSystem],
    Description := some sampleDescription,
    Configuration := some sampleConfiguration,
    Interfaces := [some sampleInterface],
    Accounts := [] }

/-- A configuration item whose only content is a configuration with the NTP
servers `ntp`. -/
def ntpCI (ntp : List (Option Str)) : CI :=
  { AuthorCompany := none, AuthorDepartment := none, Classification := none,
    Versions := [], AuditVersions := [], ReleaseVersions := [], Requirements := [],
    SurroundingSystems := [], Description := none,
    Configuration := some
      { Name := none, FQDN := none, OS := none, RAM := none, CPU := none, Domain := none,
        NTP := ntp, SNMP := none },
    Interfaces := [], Accounts := [] }

/-! ## Documents without content -/

/-- A text field that is absent, or whose text is white space only. -/
def IsBlank (p : Option Str) : Prop := ∀ s, p = some s → ∀ c ∈ s, isSpace c = true

/-- An IP list that is empty or holds only absent or blank entries. -/
def IsBlankList (l : List (Option Str)) : Prop := ∀ e ∈ l, IsBlank e

/-- A configuration item in which every field that has a rule is absent or
empty: the numbers and dates of the versions, the addresses of the
surrounding systems, the disaster level, the FQDN, RAM, CPU and NTP list of
the configuration, and the VLAN, IP, subnet and DNS list of the interfaces.
Fields without a rule, and the number of elements of each list, are free. -/
def CI.Unfilled (c : CI) : Prop :=
  (∀ v, some v ∈ c.Versions → IsBlank v.Number ∧ IsBlank v.Date) ∧
  (∀ v, some v ∈ c.AuditVersions → IsBlank v.Number ∧ IsBlank v.Date) ∧
  (∀ v, some v ∈ c.ReleaseVersions → IsBlank v.Number ∧ IsBlank v.Date) ∧
  (∀ s, some s ∈ c.SurroundingSystems → IsBlank s.Address) ∧
  (∀ d, c.Description = some d → d.DisasterLvl = none) ∧
  (∀ g, c.Configuration = some g →
    IsBlank g.FQDN ∧ g.RAM = none ∧ g.CPU = none ∧ IsBlankList g.NTP) ∧
  (∀ i, some i ∈ c.Interfaces →
    i.VLAN = none ∧ IsBlank i.IP ∧ IsBlank i.Subnet ∧ IsBlankList i.DNS)

/-- A document whose fields with a rule are absent, blank, or lists of absent
and blank entries, next to fields without a rule that are filled. -/
def unfilledRoot : Root :=
  ⟨some
    { AuthorCompany := some "ACME".toList
      AuthorDepartment := none
      Classification := none
      Versions := [some ⟨some " ".toList, none, some "ann".toList, none⟩, none]
      AuditVersions := [some ⟨none, some "\t".toList, none, none⟩]
      ReleaseVersions := []
      Requirements := [some ⟨some "os".toList, none⟩]
      SurroundingSystems := [some ⟨none, some "backup".toList, some "  ".toList, none⟩]
      Description := some ⟨none, none, none, none, none⟩
      Configuration := some ⟨some "srv".toList, none, none, none, none, none,
        [none, some " ".toList], none⟩
      Interfaces := [some ⟨some "eth0".toList, none, none, some false, some "".toList, none,
        [some "\n".toList]⟩]
      Accounts := [] }⟩

/-- An interface with `dhcp: false` and neither `ip` nor `subnet`, a valid
VLAN and a valid DNS list. -/
def staticInterfaceWithoutAddress : Interface :=
  ⟨some "eth1".toList, none, some 10, some false, none, some " ".toList,
    [some "8.8.8.8".toList, none]⟩

/-! ## LaTeX compilation (`pkg/latex.go`)

Conventions of this part: the source text `tex []byte`, and a Go string whose
bytes matter, is a list of bytes (`Bytes`); the output of a process and the
texts of paths, names and messages are `Str`, the runes that `[]rune(s)`
gives; what the standard library takes from outside the program (the file
system, `exec.LookPath`, the run of a process) is a `World` of functions, and
the state of the output directory and the calls made so far are passed
explicitly (`Sys`). -/

/-- A Go `[]byte`, or a Go string seen as its bytes. -/
abbrev Bytes := List Nat

/-- The UTF-8 encoding of one character. -/
def utf8Encode (c : Char) : Bytes :=
  let n := c.toNat
  if n < 0x80 then [n]
  else if n < 0x800 then [0xC0 + n / 64, 0x80 + n % 64]
  else if n < 0x10000 then [0xE0 + n / 4096, 0x80 + n / 64 % 64, 0x80 + n % 64]
  else [0xF0 + n / 262144, 0x80 + n / 4096 % 64, 0x80 + n / 64 % 64, 0x80 + n % 64]

/-- The bytes of a Go string given by its characters. -/
def bytesOf (s : Str) : Bytes := s.flatMap utf8Encode

/-- The class `\s` of Go regular expressions: `[\t\n\f\r ]`. -/
def reSpace (b : Nat) : Bool := b == 9 || b == 10 || b == 12 || b == 13 || b == 32

/-- The class `\S`: every byte that is not in `\s`. A character that is not
ASCII, and a byte that is not valid UTF-8, consist of such bytes only. -/
def reNonSpace (b : Nat) : Bool := !reSpace b

/-- The texts that one ASCII character of a literal matches under the flag
`(?i)`: a letter matches its two cases, and `s` and `k` match also the
characters U+017F and U+212A that `unicode.SimpleFold` puts in their orbits;
any other character matches itself. -/
def foldForms (c : Char) : List Bytes :=
  let n := c.toNat
  let u := if 97 ≤ n ∧ n ≤ 122 then n - 32 else n
  if 65 ≤ u ∧ u ≤ 90 then
    [[u], [u + 32]] ++
      (if u = 83 then [[0xC5, 0xBF]] else if u = 75 then [[0xE2, 0x84, 0xAA]] else [])
  else [utf8Encode c]

/-- The rest of `s` after the first of `forms` that `s` begins with. -/
def stripForm : List Bytes → Bytes → Option Bytes
  | [], _ => none
  | f :: fs, s => if f.isPrefixOf s then some (s.drop f.length) else stripForm fs s

/-- The rest of `s` after a literal of the pattern, matched under `(?i)`. -/
def matchLit : Str → Bytes → Option Bytes
  | [], s => some s
  | c :: cs, s =>
    match stripForm (foldForms c) s with
    | none => none
    | some r => matchLit cs r

/-- A match of `\s*%!TEX\s+TS-program\s*=\s*(\S+)\s*$` (flags `m`, `i`) that
starts at the head of `s`: the text of the group, when there is a match. Each
`\s*` and `\s+` is followed by a character that is not in `\s`, and `\S+` by
`\s*$`, so a match takes every run whole; `$` holds at the end of the text and
before a line feed, so the white space after the group has to reach the end
of the text or to hold a line feed. -/
def matchDirectiveHere (s : Bytes) : Option Bytes :=
  match matchLit "%!TEX".toList (s.dropWhile reSpace) with
  | none => none
  | some s1 =>
    if s1.takeWhile reSpace = [] then none
    else
      match matchLit "TS-program".toList (s1.dropWhile reSpace) with
      | none => none
      | some s2 =>
        match s2.dropWhile reSpace with
        | 61 :: s3 =>
          let s4 := s3.dropWhile reSpace
          let name := s4.takeWhile reNonSpace
          let rest := s4.dropWhile reNonSpace
          if name = [] then none
          else if rest.dropWhile reSpace = [] ∨ 10 ∈ rest.takeWhile reSpace then some name
          else none
        | _ => none

/-- The search of the pattern from left to right: `^` (flag `m`) holds at the
start of the text and after a line feed; `atLineStart` tells whether it holds
at the head of the text that is left. -/
def findDirectiveFrom : Bool → Bytes → Option Bytes
  | _, [] => none
  | atLineStart, b :: s =>
    match (if atLineStart then matchDirectiveHere (b :: s) else none) with
    | some name => some name
    | none => findDirectiveFrom (b == 10) s

/-- The element `m[1]` of
`regexp.MustCompile("(?mi)^\\s*%!TEX\\s+TS-program\\s*=\\s*(\\S+)\\s*$").FindStringSubmatch(s)`:
the group of the leftmost match, `none` when there is no match (`len(m) < 2`). -/
def findDirective (s : Bytes) : Option Bytes := findDirectiveFrom true s

/-- The lower case of an ASCII byte. -/
def asciiLower (b : Nat) : Nat := if 65 ≤ b ∧ b ≤ 90 then b + 32 else b

/-- Go `strings.ToLower`: a string of ASCII bytes is mapped byte by byte;
for any other string the result is `strings.Map(unicode.ToLower, s)`, the
parameter `unicodeLower`. -/
def ToLower (unicodeLower : Bytes → Bytes) (s : Bytes) : Bytes :=
  if s.all (fun b => b < 128) then s.map asciiLower else unicodeLower s

/-- The type `Engine`, a Go string. -/
abbrev Engine := Str

/-- `EnginePDFLaTeX`. -/
def EnginePDFLaTeX : Engine := "pdflatex".toList

/-- `EngineXeLaTeX`. -/
def EngineXeLaTeX : Engine := "xelatex".toList

/-- `EngineLuaLaTeX`. -/
def EngineLuaLaTeX : Engine := "lualatex".toList

/-- `detectMagicEngine`; the empty engine is the Go value `""`. -/
def detectMagicEngine (unicodeLower : Bytes → Bytes) (tex : Bytes) : Engine :=
  let s := if tex.length > 8192 then tex.take 8192 else tex
  match findDirective s with
  | none => []
  | some m1 =>
    let prog := ToLower unicodeLower m1
    if prog = bytesOf "xelatex".toList then EngineXeLaTeX
    else if prog = bytesOf "lualatex".toList then EngineLuaLaTeX
    else if prog = bytesOf "pdflatex".toList then EnginePDFLaTeX
    else []

/-- The engine selection of `CompileTeX`:
`engine := detectMagicEngine(tex); if engine == "" { engine = EnginePDFLaTeX }`. -/
def selectEngine (unicodeLower : Bytes → Bytes) (tex : Bytes) : Engine :=
  let engine := detectMagicEngine unicodeLower tex
  if engine = [] then EnginePDFLaTeX else engine

/-- `tail`: the last `n` runes of `s`, and `s` itself when it has no more than
`n` runes. -/
def tail (s : Str) (n : Nat) : Str :=
  if s.length ≤ n then s else s.drop (s.length - n)

/-! ### The world of `CompileTeX` -/

/-- The error of a call of the standard library, kept as its message. -/
abbrev OSError := Str

/-- An error that `CompileTeX` returns: one constructor for each `fmt.Errorf`
of `latex.go`; a `%w` keeps the error of the call that failed, and `out` is
the text that follows it in the message. -/
inductive CompileError where
  | emptyOutPath
  | mkdirFailed (err : OSError)
  | createTempFailed (err : OSError)
  | writeFailed (err : OSError)
  | closeFailed (err : OSError)
  | notFound (engine : Engine)
  | latexmkFailed (err : OSError) (out : Str)
  | passFailed (engine : Engine) (pass : Nat) (err : OSError) (out : Str)
  deriving DecidableEq

/-- The message of a `CompileError`. -/
def CompileError.Error : CompileError → Str
  | .emptyOutPath => "output path cannot be empty".toList
  | .mkdirFailed err => "creating output directory: ".toList ++ err
  | .createTempFailed err => "creating temp tex file: ".toList ++ err
  | .writeFailed err => "writing tex: ".toList ++ err
  | .closeFailed err => "closing temp tex file: ".toList ++ err
  | .notFound engine => engine ++ " not found in PATH and latexmk is unavailable".toList
  | .latexmkFailed err out => "latexmk failed: ".toList ++ err ++ "\n".toList ++ out
  | .passFailed engine pass err out =>
    engine ++ " pass ".toList ++ itoa pass ++ " failed: ".toList ++ err ++ "\n".toList ++ out

/-- A call that `CompileTeX` makes to the outside. A file is named by its
directory and its entry in it: `filepath.Join(dir, name)` and the name of the
file that `os.CreateTemp(dir, …)` creates are both the entry `name` of `dir`. -/
inductive Event where
  | mkdirAll (dir : Str)
  | createTemp (dir pattern : Str)
  | write (dir name : Str) (data : Bytes)
  | close (dir name : Str)
  | remove (dir name : Str)
  | lookPath (file : Str)
  | run (wd bin : Str) (args : List Str)
  deriving DecidableEq

/-- The state that is passed along: the files that exist, each as the pair of
its directory and its entry, and the calls made so far. -/
structure Sys where
  files : List (Str × Str)
  log : List Event
  deriving DecidableEq

/-- The outcome of the run of a process: its output (stdout and stderr in one
buffer), the error of `cmd.Run`, and the files that exist afterwards. -/
structure RunResult where
  out : Str
  err : Option OSError
  files : List (Str × Str)

/-- What `latex.go` takes from outside: the functions of `path/filepath` and
`unicode` that it calls, and the answers of the operating system, each a
function of the state. `createTemp dir pre suf` answers with the random text
that `os.CreateTemp` puts between the prefix and the suffix of the name;
`run wd bin args` is a process run to its end under the context of the call. -/
structure World where
  Dir : Str → Str
  Base : Str → Str
  Ext : Str → Str
  unicodeLower : Bytes → Bytes
  mkdirAll : Sys → Str → Option OSError
  createTemp : Sys → Str → Str → Str → Except OSError Str
  write : Sys → Str → Str → Bytes → Option OSError
  close : Sys → Str → Str → Option OSError
  lookPath : Sys → Str → Bool
  run : Sys → Str → Str → List Str → RunResult

/-- The state with one more call in its log. -/
def Sys.logged (st : Sys) (e : Event) : Sys := ⟨st.files, st.log ++ [e]⟩

/-- Go `strings.TrimSuffix`. -/
def TrimSuffix (s suffix : Str) : Str :=
  if suffix.isSuffixOf s then s.take (s.length - suffix.length) else s

/-- `joinPath` of package `os`: the path of the entry `name` of `dir`. -/
def joinPath (dir name : Str) : Str :=
  if dir.getLast? = some '/' then dir ++ name else dir ++ "/".toList ++ name

/-- `prefixAndSuffix` of package `os`: the pattern is split at its last `*`;
a pattern with a path separator is an error (`none`). -/
def prefixAndSuffix (pattern : Str) : Option (Str × Str) :=
  if '/' ∈ pattern then none
  else
    match pattern.reverse.span (fun c => c != '*') with
    | (_, []) => some (pattern, [])
    | (suf, _ :: pre) => some (pre.reverse, suf.reverse)

/-- `os.MkdirAll`. -/
def osMkdirAll (w : World) (st : Sys) (dir : Str) : Sys × Option OSError :=
  (st.logged (.mkdirAll dir), w.mkdirAll st dir)

/-- `os.CreateTemp`: the entry `prefix ++ random ++ suffix` of `dir` is
created, and its name is the answer. -/
def osCreateTemp (w : World) (st : Sys) (dir pattern : Str) : Sys × Except OSError Str :=
  match prefixAndSuffix pattern with
  | none =>
    (st.logged (.createTemp dir pattern),
      .error ("createtemp ".toList ++ pattern ++ ": pattern contains path separator".toList))
  | some (pre, suf) =>
    match w.createTemp st dir pre suf with
    | .error err => (st.logged (.createTemp dir pattern), .error err)
    | .ok r =>
      (⟨st.files ++ [(dir, pre ++ r ++ suf)], st.log ++ [.createTemp dir pattern]⟩,
        .ok (pre ++ r ++ suf))

/-- `(*os.File).Write` on the file `name` of `dir`. -/
def osWrite (w : World) (st : Sys) (dir name : Str) (data : Bytes) : Sys × Option OSError :=
  (st.logged (.write dir name data), w.write st dir name data)

/-- `(*os.File).Close`. -/
def osClose (w : World) (st : Sys) (dir name : Str) : Sys × Option OSError :=
  (st.logged (.close dir name), w.close st dir name)

/-- `os.Remove` of the entry `name` of `dir`, with its error dropped as every
call of `latex.go` drops it: the entry, when it is there, is gone. -/
def osRemove (st : Sys) (dir name : Str) : Sys :=
  ⟨st.files.filter (fun f => f ≠ (dir, name)), st.log ++ [.remove dir name]⟩

/-- `hasBinary`: `exec.LookPath(name)` without error. -/
def hasBinary (w : World) (st : Sys) (name : Str) : Sys × Bool :=
  (st.logged (.lookPath name), w.lookPath st name)

/-- `runCmd`: the process `bin args` run in `wd`; its output and its error. -/
def runCmd (w : World) (st : Sys) (wd bin : Str) (args : List Str) :
    Sys × Str × Option OSError :=
  let r := w.run st wd bin args
  (⟨r.files, st.log ++ [.run wd bin args]⟩, r.out, r.err)

/-- The extensions `exts` of `cleanupAuxFiles`. -/
def auxExts : List Str :=
  [".aux".toList, ".log".toList, ".out".toList, ".toc".toList, ".synctex.gz".toList,
    ".nav".toList, ".snm".toList, ".fls".toList, ".fdb_latexmk".toList, ".bbl".toList,
    ".blg".toList]

/-- `cleanupAuxFiles`. -/
def cleanupAuxFiles (st : Sys) (dir jobName : Str) : Sys :=
  rangeLoop (fun _ ext st => osRemove st dir (jobName ++ ext)) 0 auxExts st

/-- The variable `mode` of `compileWithLatexmk`. -/
def latexmkMode (engine : Engine) : Str :=
  if engine = EngineXeLaTeX then "-pdfxe".toList
  else if engine = EngineLuaLaTeX then "-pdflua".toList
  else "-pdf".toList

/-- The arguments `args` of `compileWithLatexmk`. -/
def latexmkArgs (outDir jobName : Str) (engine : Engine) (mainTexPath : Str) : List Str :=
  [latexmkMode engine, "-synctex=1".toList, "-interaction=nonstopmode".toList,
    "-file-line-error".toList, "-halt-on-error".toList, "-outdir=".toList ++ outDir,
    "-jobname=".toList ++ jobName, mainTexPath]

/-- `compileWithLatexmk`. -/
def compileWithLatexmk (w : World) (st : Sys) (workDir outDir jobName : Str)
    (engine : Engine) (mainTexPath : Str) : Sys × Option CompileError :=
  let r := runCmd w st workDir "latexmk".toList (latexmkArgs outDir jobName engine mainTexPath)
  match r.2.2 with
  | some err => (r.1, some (.latexmkFailed err (tail r.2.1 2000)))
  | none => (r.1, none)

/-- The arguments `args` of `compileRawEngine`. -/
def rawEngineArgs (outDir jobName mainTexPath : Str) : List Str :=
  ["-synctex=1".toList, "-interaction=nonstopmode".toList, "-file-line-error".toList,
    "-recorder".toList, "-halt-on-error".toList, "-jobname".toList, jobName,
    "-output-directory".toList, outDir, mainTexPath]

/-- The loop `for i := 0; i < 3; i++` of `compileRawEngine`, with `n` passes
left to make, from the counter `i`, the state `st` and the text `combined`. -/
def rawPasses (w : World) (workDir : Str) (engine : Engine) (args : List Str) :
    Nat → Nat → Sys → Str → Sys × Option CompileError
  | 0, _, st, _ => (st, none)
  | n + 1, i, st, combined =>
    let r := runCmd w st workDir engine args
    let combined := combined ++ r.2.1
    match r.2.2 with
    | some err => (r.1, some (.passFailed engine (i + 1) err (tail combined 2000)))
    | none => rawPasses w workDir engine args n (i + 1) r.1 combined

/-- `compileRawEngine`. -/
def compileRawEngine (w : World) (st : Sys) (workDir outDir jobName : Str)
    (engine : Engine) (mainTexPath : Str) : Sys × Option CompileError :=
  rawPasses w workDir engine (rawEngineArgs outDir jobName mainTexPath) 3 0 st []

/-- The first part of `CompileTeX`, up to the `defer`: the output directory
and the temporary source file are made. The answer is the error that
`CompileTeX` returns from this part, or the name of the source file. -/
def prepareSource (w : World) (st : Sys) (tex : Bytes) (outPath : Str) :
    Sys × Except CompileError Str :=
  if outPath = [] then (st, .error .emptyOutPath)
  else
    let outDir := w.Dir outPath
    let jobName := TrimSuffix (w.Base outPath) (w.Ext outPath)
    let r := osMkdirAll w st outDir
    match r.2 with
    | some err => (r.1, .error (.mkdirFailed err))
    | none =>
      let workDir := outDir
      let c := osCreateTemp w r.1 workDir (jobName ++ "-*.tex".toList)
      match c.2 with
      | .error err => (c.1, .error (.createTempFailed err))
      | .ok srcName =>
        let wr := osWrite w c.1 workDir srcName tex
        match wr.2 with
        | some err =>
          let cl := osClose w wr.1 workDir srcName
          (osRemove cl.1 workDir srcName, .error (.writeFailed err))
        | none =>
          let cl := osClose w wr.1 workDir srcName
          match cl.2 with
          | some err => (osRemove cl.1 workDir srcName, .error (.closeFailed err))
          | none => (cl.1, .ok srcName)

/-- The second part of `CompileTeX`, after the `defer`: the engine is
selected and the source is compiled. -/
def compileSource (w : World) (st : Sys) (tex : Bytes) (outDir jobName srcPath : Str) :
    Sys × Option CompileError :=
  let workDir := outDir
  let engine := selectEngine w.unicodeLower tex
  let h := hasBinary w st "latexmk".toList
  if h.2 then
    let r := compileWithLatexmk w h.1 workDir outDir jobName engine srcPath
    match r.2 with
    | some err => (r.1, some err)
    | none => (cleanupAuxFiles r.1 outDir jobName, none)
  else
    let h1 := hasBinary w h.1 engine
    if !h1.2 then (h1.1, some (.notFound engine))
    else
      let r := compileRawEngine w h1.1 workDir outDir jobName engine srcPath
      match r.2 with
      | some err => (r.1, some err)
      | none => (cleanupAuxFiles r.1 outDir jobName, none)

/-- `CompileTeX`: the deferred `os.Remove(srcPath)` runs when the second part
returns. -/
def CompileTeX (w : World) (st : Sys) (tex : Bytes) (outPath : Str) :
    Sys × Option CompileError :=
  let outDir := w.Dir outPath
  let jobName := TrimSuffix (w.Base outPath) (w.Ext outPath)
  let p := prepareSource w st tex outPath
  match p.2 with
  | .error err => (p.1, some err)
  | .ok srcName =>
    let r := compileSource w p.1 tex outDir jobName (joinPath outDir srcName)
    (osRemove r.1 outDir srcName, r.2)

/-! ### What a log tells -/

/-- The processes run, in order: the binary and the arguments of each `run`
of a log. -/
def invocations : List Event → List (Str × List Str)
  | [] => []
  | .run _ bin args :: l => (bin, args) :: invocations l
  | _ :: l => invocations l

/-- The files removed, in order: the directory and the entry of each `remove`
of a log. -/
def removals : List Event → List (Str × Str)
  | [] => []
  | .remove dir name :: l => (dir, name) :: removals l
  | _ :: l => removals l

/-- The calls that a run of `CompileTeX` from the state `st` has made. -/
def callsOf (st : Sys) (r : Sys × Option CompileError) : List Event :=
  r.1.log.drop st.log.length

/-- The number of processes run so far. -/
def runCount (st : Sys) : Nat := (invocations st.log).length

/-- A world in which every call succeeds: `latexmk` and the engines are
there, and a run leaves a `.aux` and a `.log` file of the job `doc` in the
directory `out`. The job of every output path is `doc` in `out`. -/
def readyWorld : World :=
  { Dir := fun _ => "out".toList
    Base := fun _ => "doc.pdf".toList
    Ext := fun _ => ".pdf".toList
    unicodeLower := fun s => s
    mkdirAll := fun _ _ => none
    createTemp := fun _ _ _ _ => .ok "123".toList
    write := fun _ _ _ _ => none
    close := fun _ _ _ => none
    lookPath := fun _ _ => true
    run := fun st _ _ _ =>
      ⟨"ok\n".toList, none,
        st.files ++ [("out".toList, "doc.aux".toList), ("out".toList, "doc.log".toList)]⟩ }

/-- A world without `latexmk` in which the pass number `failing` of the
engine exits with an error; every pass prints its number. -/
def rawWorld (failing : Nat) : World :=
  { readyWorld with
    lookPath := fun _ name => name != "latexmk".toList
    run := fun st _ _ _ =>
      ⟨"pass ".toList ++ itoa (runCount st + 1) ++ "\n".toList,
        if runCount st + 1 = failing then some "exit status 1".toList else none,
        st.files ++ [("out".toList, "doc.aux".toList)]⟩ }

/-- A world with neither `latexmk` nor an engine. -/
def bareWorld : World :=
  { readyWorld with lookPath := fun _ _ => false }

/-- A world in which `latexmk` is there and exits with an error. -/
def brokenWorld : World :=
  { readyWorld with
    run := fun st _ _ _ =>
      ⟨"! Undefined control sequence.\n".toList, some "exit status 12".toList,
        st.files ++ [("out".toList, "doc.log".toList)]⟩ }

/-- The empty state: no file, no call made. -/
def emptySys : Sys := ⟨[], []⟩

/-- The name of a temporary source file of the job `jobName`: the job name,
`-`, a text chosen by `os.CreateTemp`, and `.tex`. -/
def IsTempName (jobName name : Str) : Prop :=
  ∃ r, name = jobName ++ "-".toList ++ r ++ ".tex".toList

/-- The auxiliary files of a job: `filepath.Join(dir, jobName+ext)` for each
extension of `cleanupAuxFiles`. -/
def auxFiles (dir jobName : Str) : List (Str × Str) :=
  auxExts.map (fun ext => (dir, jobName ++ ext))

/-! ### The directive, as a form of text -/

/-- The texts that a literal of the pattern matches under `(?i)`: one of the
forms of each of its characters, in order. -/
def FoldMatches : Str → Bytes → Prop
  | [], t => t = []
  | c :: cs, t => ∃ f r, f ∈ foldForms c ∧ t = f ++ r ∧ FoldMatches cs r

/-- A text of the form of the directive with the program name `name`:
optional white space, `%!TEX`, white space, `TS-program`, optional white
space, `=`, optional white space, the name (one or more bytes that are not
white space), optional white space; the letters in either case. White space
is the class `\s`, which holds the line feed. -/
def IsDirectiveText (t name : Bytes) : Prop :=
  ∃ w0 l1 w1 l2 w2 w3 w4,
    t = w0 ++ (l1 ++ (w1 ++ (l2 ++ (w2 ++ (61 :: (w3 ++ (name ++ w4))))))) ∧
      (∀ b ∈ w0, reSpace b = true) ∧ FoldMatches "%!TEX".toList l1 ∧
      w1 ≠ [] ∧ (∀ b ∈ w1, reSpace b = true) ∧ FoldMatches "TS-program".toList l2 ∧
      (∀ b ∈ w2, reSpace b = true) ∧ (∀ b ∈ w3, reSpace b = true) ∧
      name ≠ [] ∧ (∀ b ∈ name, reSpace b = false) ∧ (∀ b ∈ w4, reSpace b = true)

/-- A directive in `s` at the offset `i`: a text of the form of the directive
that starts at the byte `i`, at the start of `s` or after a line feed, and
ends at the end of `s` or before a line feed. -/
def DirectiveAt (s : Bytes) (i : Nat) (name : Bytes) : Prop :=
  ∃ pre t post, s = pre ++ (t ++ post) ∧ pre.length = i ∧
    (pre = [] ∨ pre.getLast? = some 10) ∧ (post = [] ∨ post.head? = some 10) ∧
    IsDirectiveText t name

/-- A source with a directive line: one of its lines, the texts between its
line feeds, has the form of the directive. -/
def HasDirectiveLine (tex : Bytes) : Prop :=
  ∃ line ∈ tex.splitOn 10, ∃ name, IsDirectiveText line name

/-- Forms of which none is empty and no two begin with the same byte. -/
def DistinctHeads (forms : List Bytes) : Prop :=
  (∀ f ∈ forms, f ≠ []) ∧ forms.Pairwise (fun a b => a.head? ≠ b.head?)

instance (forms : List Bytes) : Decidable (DistinctHeads forms) := by
  unfold DistinctHeads
  infer_instance

/-- Where `^` holds in `s`, the head of `s` being a line start when
`atLineStart`: at the offset 0 then, and after each line feed. -/
def lineStartAt (atLineStart : Bool) (s : Bytes) (i : Nat) : Prop :=
  (i = 0 ∧ atLineStart = true) ∨ (0 < i ∧ s.get? (i - 1) = some 10)

/-- The line `%!TEX TS-program = xelatex`. -/
def xelatexLine : Bytes := bytesOf "%!TEX TS-program = xelatex".toList

/-- A source of two lines, of which neither is a directive: the words of the
directive are spread over both. -/
def splitDirectiveSource : Bytes := bytesOf "%!TEX\nTS-program = xelatex".toList

/-- A source of one line of 8199 bytes: 8166 spaces, the words
`%!TEX TS-program = xelatex`, which end at the byte 8192, and a remark after
them, with which the line is no directive. -/
def cutDirectiveSource : Bytes :=
  List.replicate 8166 32 ++ (xelatexLine ++ bytesOf " % note".toList)

instance (b : Bool) (s : Bytes) (i : Nat) : Decidable (lineStartAt b s i) := by
  unfold lineStartAt
  infer_instance

/-- A source whose second line is a directive in small and capital letters,
with white space around its parts and a carriage return at its end. -/
def mixedCaseSource : Bytes :=
  bytesOf "\\documentclass{article}\n  %!tex   TS-Program=\tLuaLaTeX \r\n\\begin{document}".toList

/-- The top `k` bits of the 32-bit value `v` are ones and its other `32 - k`
bits are zeros: the bit `i`, counted from the lowest, is set exactly when
`32 - k ≤ i`. -/
def TopBitsOnes (v k : Nat) : Prop := ∀ i, i < 32 → (v.testBit i = true ↔ 32 - k ≤ i)

/-- The Gregorian leap-year rule: a year that 4 divides and 100 does not, or
that 400 divides. -/
def gregorianLeap (year : Nat) : Bool :=
  decide ((year % 4 = 0 ∧ year % 100 ≠ 0) ∨ year % 400 = 0)

/-- The number of days of the month `month` (1 to 12) of the year `year` in
the Gregorian calendar; 0 when `month` is no month. -/
def gregorianDays (month year : Nat) : Nat :=
  match month with
  | 1 => 31
  | 2 => if gregorianLeap year then 29 else 28
  | 3 => 31
  | 4 => 30
  | 5 => 31
  | 6 => 30
  | 7 => 31
  | 8 => 31
  | 9 => 30
  | 10 => 31
  | 11 => 30
  | 12 => 31
  | _ => 0

/-- An all-numeric dotted name: one or more labels of 1 to 63 ASCII digits
each, with a dot between every two, of total length at most 253. -/
def IsNumericDottedName (s : Str) : Prop :=
  ∃ labels : List Str, labels ≠ [] ∧
    (∀ l ∈ labels, 1 ≤ l.length ∧ l.length ≤ 63 ∧ ∀ c ∈ l, isDigit c = true) ∧
    s = ['.'].intercalate labels ∧ s.length ≤ 253

/-- An IPv6 literal of an IPv4-mapped address: a text with a colon that
`net.ParseIP` reads and of which `IP.To4` gives four bytes, such as
`::ffff:255.255.255.0`. -/
def IsMappedIPv6 (t : Str) : Prop :=
  ':' ∈ t ∧ ∃ ip m, ParseIP t = some ip ∧ To4 ip = some m

/-- The kind of a failure of `CompileTeX`: the call of `fmt.Errorf` that
built it, with the number of the pass for a pass failure; the wrapped error
and the text after it are left out. These are all the calls of `fmt.Errorf`
of `latex.go`: none of them is for an expired deadline. -/
inductive FailureKind where
  | emptyOutPath
  | mkdirFailed
  | createTempFailed
  | writeFailed
  | closeFailed
  | notFound
  | latexmkFailed
  | passFailed (pass : Nat)
  deriving DecidableEq

/-- The kind of a `CompileError`. -/
def CompileError.kind : CompileError → FailureKind
  | .emptyOutPath => .emptyOutPath
  | .mkdirFailed _ => .mkdirFailed
  | .createTempFailed _ => .createTempFailed
  | .writeFailed _ => .writeFailed
  | .closeFailed _ => .closeFailed
  | .notFound _ => .notFound
  | .latexmkFailed _ _ => .latexmkFailed
  | .passFailed _ pass _ _ => .passFailed pass

/-- A world without `latexmk` in which the deadline of the caller expires
during the pass number `late` of the engine: the child is killed and the run
ends with the error `signal: killed` of `os/exec`. -/
def deadlineWorld (late : Nat) : World :=
  { readyWorld with
    lookPath := fun _ name => name != "latexmk".toList
    run := fun st _ _ _ =>
      ⟨"pass ".toList ++ itoa (runCount st + 1) ++ "\n".toList,
        if runCount st + 1 = late then some "signal: killed".toList else none,
        st.files ++ [("out".toList, "doc.aux".toList)]⟩ }

/-! ### A directive spread over lines -/

/-- A text of the form of the directive whose words stand on more than one
line: the white space between `%!TEX` and the program name holds a line
feed. -/
def IsSpreadDirectiveText (t name : Bytes) : Prop :=
  ∃ w0 l1 w1 l2 w2 w3 w4,
    t = w0 ++ (l1 ++ (w1 ++ (l2 ++ (w2 ++ (61 :: (w3 ++ (name ++ w4))))))) ∧
      (∀ b ∈ w0, reSpace b = true) ∧ FoldMatches "%!TEX".toList l1 ∧
      w1 ≠ [] ∧ (∀ b ∈ w1, reSpace b = true) ∧ FoldMatches "TS-program".toList l2 ∧
      (∀ b ∈ w2, reSpace b = true) ∧ (∀ b ∈ w3, reSpace b = true) ∧
      name ≠ [] ∧ (∀ b ∈ name, reSpace b = false) ∧ (∀ b ∈ w4, reSpace b = true) ∧
      (10 ∈ w1 ∨ 10 ∈ w2 ∨ 10 ∈ w3)

/-- A directive spread over lines in `s` at the offset `i`: such a text that
starts at the byte `i`, at the start of `s` or after a line feed, and ends at
the end of `s` or before a line feed. -/
def SpreadDirectiveAt (s : Bytes) (i : Nat) (name : Bytes) : Prop :=
  ∃ pre t post, s = pre ++ (t ++ post) ∧ pre.length = i ∧
    (pre = [] ∨ pre.getLast? = some 10) ∧ (post = [] ∨ post.head? = some 10) ∧
    IsSpreadDirectiveText t name

/-- The offset of the line that follows the lines `before`: each of them
takes its bytes and a line feed. -/
def lineOffset (before : List Bytes) : Nat := (before.map (fun l => l.length + 1)).sum

/-- The lines, each with a line feed after it. -/
def feedLines (lines : List Bytes) : Bytes := lines.flatMap (fun l => l ++ [10])

/-- A source of three lines: the first breaks off after the `=` of a
directive, the second is the word `foo`, the third is the directive line
`%!TEX TS-program = xelatex`. -/
def brokenDirectiveSource : Bytes :=
  bytesOf "%!TEX TS-program =\nfoo\n%!TEX TS-program = xelatex".toList

/-! # Properties -/

/-! ## Correctness of the regular-expression matcher -/

namespace RE

theorem mem_lang_cls (p : Char → Bool) (x : Str) :
    x ∈ (cls p).lang ↔ ∃ c, p c = true ∧ x = [c] := Iff.rfl

theorem mem_lang_upto (n : Nat) (p : Char → Bool) (x : Str) :
    x ∈ (upto n p).lang ↔ x.length ≤ n ∧ ∀ c ∈ x, p c = true := Iff.rfl

theorem mem_lang_seq (a b : RE) (x : Str) :
    x ∈ (seq a b).lang ↔ ∃ t u, t ∈ a.lang ∧ u ∈ b.lang ∧ t ++ u = x := by
  show x ∈ a.lang * b.lang ↔ _
  rw [Language.mem_mul]
  constructor
  · rintro ⟨t, ht, u, hu, h⟩
    exact ⟨t, u, ht, hu, h⟩
  · rintro ⟨t, u, ht, hu, h⟩
    exact ⟨t, ht, u, hu, h⟩

theorem mem_lang_alt (a b : RE) (x : Str) :
    x ∈ (alt a b).lang ↔ x ∈ a.lang ∨ x ∈ b.lang := by
  show x ∈ a.lang + b.lang ↔ _
  rw [Language.mem_add]

theorem not_mem_lang_nothing (x : Str) : x ∉ nothing.lang := by
  show x ∉ (0 : Language Char)
  exact Language.not_mem_zero x

theorem mem_lang_eps (x : Str) : x ∈ eps.lang ↔ x = [] := by
  show x ∈ (1 : Language Char) ↔ _
  exact Language.mem_one x

/-- A string of `a*` that starts with `c` is a string of `a` that starts with
`c` followed by a string of `a*`. -/
theorem cons_mem_lang_star (a : RE) (c : Char) (x : Str) :
    c :: x ∈ (star a).lang ↔ ∃ t u, c :: t ∈ a.lang ∧ u ∈ (star a).lang ∧ t ++ u = x := by
  show c :: x ∈ KStar.kstar a.lang ↔ ∃ t u, c :: t ∈ a.lang ∧ u ∈ KStar.kstar a.lang ∧ t ++ u = x
  constructor
  · intro h
    rw [Language.mem_kstar_iff_exists_nonempty] at h
    obtain ⟨S, hS, hall⟩ := h
    cases S with
    | nil => simp at hS
    | cons y S =>
      have hy := hall y (List.mem_cons_self _ _)
      cases y with
      | nil => exact absurd rfl hy.2
      | cons d t =>
        simp only [List.flatten, List.cons_append, List.cons.injEq] at hS
        obtain ⟨hcd, hx⟩ := hS
        subst hcd
        refine ⟨t, S.flatten, hy.1, ?_, hx.symm⟩
        rw [Language.mem_kstar]
        exact ⟨S, rfl, fun z hz => (hall z (List.mem_cons_of_mem _ hz)).1⟩
  · rintro ⟨t, u, ht, hu, rfl⟩
    rw [Language.mem_kstar] at hu ⊢
    obtain ⟨S, hS, hall⟩ := hu
    refine ⟨(c :: t) :: S, by simp [hS], ?_⟩
    intro z hz
    rcases List.mem_cons.1 hz with rfl | hz
    · exact ht
    · exact hall z hz

theorem nullable_iff (r : RE) : r.nullable = true ↔ [] ∈ r.lang := by
  induction r with
  | nothing => simp [nullable, not_mem_lang_nothing]
  | eps => simp [nullable, mem_lang_eps]
  | cls p => simp [nullable, mem_lang_cls]
  | seq a b iha ihb => simp [nullable, mem_lang_seq, iha, ihb]
  | alt a b iha ihb => simp [nullable, mem_lang_alt, iha, ihb]
  | star a _ =>
    simp only [nullable, true_iff]
    exact Language.nil_mem_kstar _
  | upto n p => simp [nullable, mem_lang_upto]

theorem mem_lang_deriv (r : RE) (c : Char) (x : Str) :
    x ∈ (r.deriv c).lang ↔ c :: x ∈ r.lang := by
  induction r generalizing x with
  | nothing => simp [deriv, not_mem_lang_nothing]
  | eps => simp [deriv, not_mem_lang_nothing, mem_lang_eps]
  | cls p =>
    by_cases hp : p c = true
    · simp only [deriv, hp, if_true, mem_lang_eps, mem_lang_cls, List.cons.injEq]
      constructor
      · rintro rfl
        exact ⟨c, hp, rfl, rfl⟩
      · rintro ⟨_, _, _, h⟩
        exact h
    · simp only [deriv, hp, if_false, mem_lang_cls, Bool.false_eq_true]
      constructor
      · intro h
        exact absurd h (not_mem_lang_nothing x)
      · rintro ⟨d, hd, hx⟩
        simp only [List.cons.injEq] at hx
        rw [← hx.1] at hd
        exact absurd hd hp
  | seq a b iha ihb =>
    have key : c :: x ∈ (seq a b).lang ↔
        (∃ t u, c :: t ∈ a.lang ∧ u ∈ b.lang ∧ t ++ u = x) ∨ ([] ∈ a.lang ∧ c :: x ∈ b.lang) := by
      rw [mem_lang_seq]
      constructor
      · rintro ⟨t, u, ht, hu, htu⟩
        cases t with
        | nil =>
          right
          simp only [List.nil_append] at htu
          subst htu
          exact ⟨ht, hu⟩
        | cons d t =>
          left
          simp only [List.cons_append, List.cons.injEq] at htu
          obtain ⟨rfl, rfl⟩ := htu
          exact ⟨t, u, ht, hu, rfl⟩
      · rintro (⟨t, u, ht, hu, rfl⟩ | ⟨ha, hb⟩)
        · exact ⟨c :: t, u, ht, hu, rfl⟩
        · exact ⟨[], c :: x, ha, hb, rfl⟩
    rw [key]
    by_cases hn : a.nullable = true
    · simp only [deriv, hn, if_true, mem_lang_alt, mem_lang_seq, iha, ihb]
      rw [nullable_iff] at hn
      simp [hn]
    · simp only [deriv, hn, if_false, mem_lang_seq, iha, Bool.false_eq_true]
      rw [nullable_iff] at hn
      simp [hn]
  | alt a b iha ihb => simp [deriv, mem_lang_alt, iha, ihb]
  | star a iha =>
    rw [cons_mem_lang_star]
    simp only [deriv, mem_lang_seq, iha]
  | upto n p =>
    cases n with
    | zero => simp [deriv, not_mem_lang_nothing, mem_lang_upto]
    | succ n =>
      by_cases hp : p c = true
      · simp [deriv, hp, mem_lang_upto]
      · simp only [deriv, hp, if_false, mem_lang_upto, Bool.false_eq_true]
        constructor
        · intro h
          exact absurd h (not_mem_lang_nothing x)
        · rintro ⟨_, h⟩
          exact absurd (h c (List.mem_cons_self _ _)) hp

/-- The matcher decides membership in the language of the expression. -/
theorem rmatch_iff (r : RE) (x : Str) : r.rmatch x = true ↔ x ∈ r.lang := by
  induction x generalizing r with
  | nil => simp [rmatch, nullable_iff]
  | cons c cs ih => rw [rmatch, ih, mem_lang_deriv]

end RE

/-! ## White space -/

theorem TrimSpace_eq_self (s : Str) (h1 : ∀ c, s.head? = some c → isSpace c = false)
    (h2 : ∀ c, s.getLast? = some c → isSpace c = false) : TrimSpace s = s := by
  unfold TrimSpace
  have e1 : s.dropWhile isSpace = s := by
    cases s with
    | nil => rfl
    | cons a t =>
      have := h1 a rfl
      simp [List.dropWhile, this]
  rw [e1]
  rcases List.eq_nil_or_concat s with rfl | ⟨t, a, rfl⟩
  · rfl
  · have := h2 a (by simp)
    rw [List.concat_eq_append, List.rdropWhile_concat]
    simp [this]

theorem isDigit_not_isSpace (c : Char) (h : isDigit c = true) : isSpace c = false := by
  simp only [isDigit, Bool.and_eq_true, decide_eq_true_eq] at h
  simp only [isSpace, Bool.or_eq_false_iff, Bool.and_eq_false_iff, decide_eq_false_iff_not,
    beq_eq_false_iff_ne, ne_eq]
  omega

/-! ## The VLAN rule -/

/-- C10. `validateVLAN` reports a finding exactly when the vlan of the
interface is present and lies outside the inclusive range 1..4094; the bounds 1
and 4094 are accepted, 0 and 4095 are rejected. -/
theorem validateVLAN_finding_iff (path : Str) (i : Interface) :
    (validateVLAN path i.VLAN ≠ none ↔ ∃ n, i.VLAN = some n ∧ ¬ (1 ≤ n ∧ n ≤ 4094)) ∧
    validateVLAN path (some 1) = none ∧ validateVLAN path (some 4094) = none ∧
    validateVLAN path (some 0) ≠ none ∧ validateVLAN path (some 4095) ≠ none := by
  refine ⟨?_, by simp [validateVLAN], by simp [validateVLAN], by simp [validateVLAN],
    by simp [validateVLAN]⟩
  cases h : i.VLAN with
  | none => simp [validateVLAN]
  | some n =>
    simp only [validateVLAN, Option.some.injEq, exists_eq_left']
    by_cases hn : n < 1 ∨ n > 4094
    · simp only [hn, if_true, ne_eq, reduceCtorEq, not_false_eq_true, true_iff]
      omega
    · simp only [hn, if_false, ne_eq, not_true_eq_false, false_iff]
      omega

/-! ## The version-number pattern -/

namespace RE

theorem mem_lang_star_cls (p : Char → Bool) (x : Str) :
    x ∈ (star (cls p)).lang ↔ ∀ c ∈ x, p c = true := by
  induction x with
  | nil =>
    simp only [List.not_mem_nil, false_implies, implies_true, iff_true]
    exact Language.nil_mem_kstar _
  | cons a t ih =>
    rw [cons_mem_lang_star]
    constructor
    · rintro ⟨t1, u, h1, hu, rfl⟩
      rw [mem_lang_cls] at h1
      obtain ⟨d, hd, heq⟩ := h1
      simp only [List.cons.injEq] at heq
      obtain ⟨rfl, rfl⟩ := heq
      intro c hc
      rcases List.mem_cons.1 hc with rfl | hc
      · exact hd
      · exact ih.1 (by simpa using hu) c (by simpa using hc)
    · intro h
      refine ⟨[], t, ?_, ?_, rfl⟩
      · exact ⟨a, h a (List.mem_cons_self _ _), rfl⟩
      · exact ih.2 (fun c hc => h c (List.mem_cons_of_mem _ hc))

theorem mem_lang_plus_cls (p : Char → Bool) (x : Str) :
    x ∈ (plus (cls p)).lang ↔ x ≠ [] ∧ ∀ c ∈ x, p c = true := by
  unfold plus
  rw [mem_lang_seq]
  constructor
  · rintro ⟨t, u, ht, hu, rfl⟩
    obtain ⟨d, hd, rfl⟩ := ht
    rw [mem_lang_star_cls] at hu
    refine ⟨by simp, ?_⟩
    intro c hc
    rcases List.mem_cons.1 hc with rfl | hc
    · exact hd
    · exact hu c hc
  · rintro ⟨hne, h⟩
    cases x with
    | nil => exact absurd rfl hne
    | cons a t =>
      refine ⟨[a], t, ⟨a, h a (List.mem_cons_self _ _), rfl⟩, ?_, rfl⟩
      rw [mem_lang_star_cls]
      exact fun c hc => h c (List.mem_cons_of_mem _ hc)

theorem mem_lang_chr (c : Char) (x : Str) : x ∈ (chr c).lang ↔ x = [c] := by
  unfold chr
  rw [mem_lang_cls]
  constructor
  · rintro ⟨d, hd, rfl⟩
    simp only [beq_iff_eq] at hd
    rw [hd]
  · rintro rfl
    exact ⟨c, by simp, rfl⟩

end RE

/-- The language of `reVersionNumber` is the form `digits(.digits)*`. -/
theorem mem_lang_reVersionNumber (x : Str) : x ∈ reVersionNumber.lang ↔ IsDottedDigits x := by
  unfold reVersionNumber IsDottedDigits
  rw [RE.mem_lang_seq]
  constructor
  · rintro ⟨d, u, hd, hu, rfl⟩
    rw [RE.mem_lang_plus_cls] at hd
    change u ∈ KStar.kstar _ at hu
    rw [Language.mem_kstar] at hu
    obtain ⟨S, rfl, hS⟩ := hu
    refine ⟨d, S.map List.tail, hd.1, hd.2, ?_, ?_⟩
    · intro g hg
      obtain ⟨y, hy, rfl⟩ := List.mem_map.1 hg
      have := hS y hy
      rw [RE.mem_lang_seq] at this
      obtain ⟨t1, u1, ht1, hu1, rfl⟩ := this
      rw [RE.mem_lang_chr] at ht1
      subst ht1
      rw [RE.mem_lang_plus_cls] at hu1
      simpa using hu1
    · congr 1
      have hmap : List.map (fun g => '.' :: g) (List.map List.tail S) = S := by
        rw [List.map_map]
        conv_rhs => rw [← List.map_id S]
        apply List.map_congr_left
        intro y hy
        have := hS y hy
        rw [RE.mem_lang_seq] at this
        obtain ⟨t1, u1, ht1, hu1, rfl⟩ := this
        rw [RE.mem_lang_chr] at ht1
        subst ht1
        rfl
      rw [hmap]
  · rintro ⟨d, gs, hne, hd, hgs, rfl⟩
    refine ⟨d, _, (RE.mem_lang_plus_cls _ _).2 ⟨hne, hd⟩, ?_, rfl⟩
    change _ ∈ KStar.kstar _
    rw [Language.mem_kstar]
    refine ⟨gs.map (fun g => '.' :: g), rfl, ?_⟩
    intro y hy
    obtain ⟨g, hg, rfl⟩ := List.mem_map.1 hy
    rw [RE.mem_lang_seq]
    exact ⟨['.'], g, (RE.mem_lang_chr _ _).2 rfl, (RE.mem_lang_plus_cls _ _).2 (hgs g hg), rfl⟩

theorem IsDottedDigits.chars {x : Str} (h : IsDottedDigits x) :
    ∀ c ∈ x, isDigit c = true ∨ c = '.' := by
  obtain ⟨d, gs, _, hd, hgs, rfl⟩ := h
  intro c hc
  rcases List.mem_append.1 hc with hc | hc
  · exact Or.inl (hd c hc)
  · obtain ⟨y, hy, hcy⟩ := List.mem_flatten.1 hc
    obtain ⟨g, hg, rfl⟩ := List.mem_map.1 hy
    rcases List.mem_cons.1 hcy with rfl | hcg
    · exact Or.inr rfl
    · exact Or.inl ((hgs g hg).2 c hcg)

theorem IsDottedDigits.trim {x : Str} (h : IsDottedDigits x) : TrimSpace x = x := by
  obtain ⟨d, gs, hne, hd, hgs, rfl⟩ := h
  apply TrimSpace_eq_self
  · intro c hc
    cases d with
    | nil => exact absurd rfl hne
    | cons a t =>
      simp only [List.cons_append, List.head?_cons, Option.some.injEq] at hc
      subst hc
      exact isDigit_not_isSpace _ (hd _ (List.mem_cons_self _ _))
  · intro c hc
    apply isDigit_not_isSpace
    rcases List.eq_nil_or_concat gs with rfl | ⟨gs1, g, rfl⟩
    · simp only [List.map_nil, List.flatten_nil, List.append_nil] at hc
      exact hd c (List.mem_of_getLast?_eq_some hc)
    · have hg := hgs g (by simp)
      rcases List.eq_nil_or_concat g with rfl | ⟨g1, a, rfl⟩
      · exact absurd rfl hg.1
      · simp only [List.concat_eq_append, List.map_append, List.map_cons, List.map_nil,
          List.flatten_append, List.flatten_cons, List.flatten_nil, List.append_nil] at hc
        rw [← List.cons_append, ← List.append_assoc, ← List.append_assoc,
          List.getLast?_append_of_ne_nil _ (by simp)] at hc
        simp only [List.getLast?_singleton, Option.some.injEq] at hc
        subst hc
        exact hg.2 _ (by simp)

/-! ## Version numbers and dates -/

theorem validateVersionNumber_none_iff (path : Str) (p : Option Str) :
    validateVersionNumber path p = none ↔
      strOrEmpty p = [] ∨ IsDottedDigits (strOrEmpty p) := by
  unfold validateVersionNumber
  rw [← mem_lang_reVersionNumber, ← RE.rmatch_iff]
  by_cases h : strOrEmpty p = []
  · simp [h]
  · by_cases hm : reVersionNumber.rmatch (strOrEmpty p) = true
    · simp [h, hm]
    · simp [h, hm]

theorem validateVersionNumber_of_not (path : Str) (p : Option Str)
    (h : strOrEmpty p ≠ []) (hm : ¬ IsDottedDigits (strOrEmpty p)) :
    validateVersionNumber path p = some (.errorf (.invalidVersionNumber (strOrEmpty p))) := by
  unfold validateVersionNumber
  rw [← mem_lang_reVersionNumber, ← RE.rmatch_iff] at hm
  simp [h, hm]

/-- A date that is absent or that `time.Parse` accepts has no finding. -/
theorem validateDate_valid_or_absent (path : Str) (date : Option Str)
    (h : date = none ∨ ∃ d, date = some d ∧ parseDate (TrimSpace d) ≠ none) :
    validateDate path date = none := by
  rcases h with rfl | ⟨d, rfl, hd⟩
  · simp [validateDate, strOrEmpty]
  · simp [validateDate, strOrEmpty, hd]

/-- C6. For every string `n` of the form `digits(.digits)*`,
`validateVersionNumber` reports no finding, so a version, audit version or
release version carrying that number and a valid or absent date validates with
no finding. -/
theorem validateVersionNumber_dotted_digits (path n : Str) (h : IsDottedDigits n) :
    validateVersionNumber path (some n) = none ∧
    ∀ date : Option Str, (date = none ∨ ∃ d, date = some d ∧ parseDate (TrimSpace d) ≠ none) →
      (∀ u d, Version.Validate ⟨some n, date, u, d⟩ path = none) ∧
      (∀ a r, AuditVersion.Validate ⟨some n, date, a, r⟩ path = none) ∧
      (∀ a r, ReleaseVersion.Validate ⟨some n, date, a, r⟩ path = none) := by
  have hv : ∀ q, validateVersionNumber q (some n) = none := by
    intro q
    rw [validateVersionNumber_none_iff]
    right
    simpa [strOrEmpty, h.trim] using h
  refine ⟨hv path, ?_⟩
  intro date hdate
  have hd : ∀ q, validateDate q date = none := fun q => validateDate_valid_or_absent q date hdate
  refine ⟨?_, ?_, ?_⟩ <;> intros <;>
    simp [Version.Validate, AuditVersion.Validate, ReleaseVersion.Validate, hv, hd,
      MultiError.add, MultiError.ToError]

theorem validateVersionNumber_dotted_digits_witness :
    IsDottedDigits "1.2.3".toList ∧ validateVersionNumber [] (some "1.2.3".toList) = none ∧
    Version.Validate ⟨some "1.2.3".toList, some "29.02.2024".toList, none, none⟩
      "ci.versions[0]".toList = none :=
  have h : IsDottedDigits "1.2.3".toList :=
    ⟨"1".toList, ["2".toList, "3".toList], by decide, by decide, by decide, rfl⟩
  ⟨h, (validateVersionNumber_dotted_digits [] "1.2.3".toList h).1,
    ((validateVersionNumber_dotted_digits "ci.versions[0]".toList "1.2.3".toList h).2
      (some "29.02.2024".toList) (Or.inr ⟨_, rfl, by decide⟩)).1 none none⟩

/-- C5, as the code has it. For every version, audit version or release
version whose number, once its surrounding white space is removed, contains at
least one character that is neither a digit nor a dot, and whose date is valid
or absent, validation reports exactly one finding, at the path of the number
field. -/
theorem Validate_bad_number_one_finding (path n : Str) (date : Option Str)
    (hn : ∃ c ∈ TrimSpace n, isDigit c = false ∧ c ≠ '.')
    (hdate : date = none ∨ ∃ d, date = some d ∧ parseDate (TrimSpace d) ≠ none) :
    (∀ u d, Version.Validate ⟨some n, date, u, d⟩ path =
      some (.multi [.mk (path ++ ".number".toList)
        (.errorf (.invalidVersionNumber (TrimSpace n)))])) ∧
    (∀ a r, AuditVersion.Validate ⟨some n, date, a, r⟩ path =
      some (.multi [.mk (path ++ ".number".toList)
        (.errorf (.invalidVersionNumber (TrimSpace n)))])) ∧
    (∀ a r, ReleaseVersion.Validate ⟨some n, date, a, r⟩ path =
      some (.multi [.mk (path ++ ".number".toList)
        (.errorf (.invalidVersionNumber (TrimSpace n)))])) := by
  obtain ⟨c, hc, hcd, hcdot⟩ := hn
  have hne : TrimSpace n ≠ [] := List.ne_nil_of_mem hc
  have hnot : ¬ IsDottedDigits (TrimSpace n) := by
    intro hd
    rcases hd.chars c hc with h | h
    · rw [hcd] at h
      exact absurd h (by simp)
    · exact hcdot h
  have hv : ∀ q, validateVersionNumber q (some n) =
      some (.errorf (.invalidVersionNumber (TrimSpace n))) := by
    intro q
    exact validateVersionNumber_of_not q (some n) hne hnot
  have hd : ∀ q, validateDate q date = none := fun q => validateDate_valid_or_absent q date hdate
  refine ⟨?_, ?_, ?_⟩ <;> intros <;>
    simp [Version.Validate, AuditVersion.Validate, ReleaseVersion.Validate, hv, hd,
      MultiError.add, MultiError.ToError]

theorem Validate_bad_number_one_finding_witness :
    Version.Validate ⟨some "v1".toList, none, none, none⟩ "ci.versions[0]".toList =
      some (.multi [.mk ("ci.versions[0]".toList ++ ".number".toList)
        (.errorf (.invalidVersionNumber (TrimSpace "v1".toList)))]) :=
  (Validate_bad_number_one_finding "ci.versions[0]".toList "v1".toList none
    ⟨'v', by decide, by decide, by decide⟩ (Or.inl rfl)).1 none none

/-- C5 fails as stated: the number ` 1` holds a space, which is neither a digit
nor a dot, yet the version validates with no finding, because the number is
trimmed before it is matched. -/
theorem Validate_bad_number_counterexample :
    (∃ c ∈ " 1".toList, isDigit c = false ∧ c ≠ '.') ∧
    Version.Validate ⟨some " 1".toList, none, none, none⟩ "ci.versions[0]".toList = none :=
  ⟨⟨' ', by decide, by decide, by decide⟩, by decide⟩

theorem getnum2_some {s r : Str} {n : Nat} (h : getnum2 s = some (n, r)) :
    ∃ a b, isDigit a = true ∧ isDigit b = true ∧ s = a :: b :: r := by
  match s, h with
  | a :: b :: rest, h =>
    simp only [getnum2] at h
    by_cases hd : isDigit a = true ∧ isDigit b = true
    · simp only [hd, and_self, if_true, Option.some.injEq, Prod.mk.injEq] at h
      exact ⟨a, b, hd.1, hd.2, by rw [h.2]⟩
    · simp [hd] at h
  | [], h => simp [getnum2] at h
  | [_], h => simp [getnum2] at h

theorem getyear4_some {s r : Str} {n : Nat} (h : getyear4 s = some (n, r)) :
    ∃ a b c d, isDigit a = true ∧ isDigit b = true ∧ isDigit c = true ∧ isDigit d = true ∧
      s = a :: b :: c :: d :: r := by
  match s, h with
  | a :: b :: c :: d :: rest, h =>
    simp only [getyear4] at h
    by_cases hd : isDigit a = true ∧ isDigit b = true ∧ isDigit c = true ∧ isDigit d = true
    · simp only [hd, and_self, if_true, Option.some.injEq, Prod.mk.injEq] at h
      exact ⟨a, b, c, d, hd.1, hd.2.1, hd.2.2.1, hd.2.2.2, by rw [h.2]⟩
    · simp [hd] at h
  | [], h => simp [getyear4] at h
  | [_], h => simp [getyear4] at h
  | [_, _], h => simp [getyear4] at h
  | [_, _, _], h => simp [getyear4] at h

theorem skipDot_some {s r : Str} (h : skipDot s = some r) : s = '.' :: r := by
  cases s with
  | nil => simp [skipDot] at h
  | cons c t =>
    simp only [skipDot] at h
    by_cases hc : c = '.'
    · simp only [hc, if_true, Option.some.injEq] at h
      rw [hc, h]
    · simp [hc] at h

theorem parseDate_form (s : Str) (h : parseDate s ≠ none) : IsDDMMYYYY s := by
  unfold parseDate at h
  cases h1 : getnum2 s with
  | none => simp [h1] at h
  | some p1 =>
    obtain ⟨day, s1⟩ := p1
    simp only [h1] at h
    cases h2 : skipDot s1 with
    | none => simp [h2] at h
    | some s2 =>
      simp only [h2] at h
      cases h3 : getnum2 s2 with
      | none => simp [h3] at h
      | some p3 =>
        obtain ⟨month, s3⟩ := p3
        simp only [h3] at h
        cases h4 : skipDot s3 with
        | none => simp [h4] at h
        | some s4 =>
          simp only [h4] at h
          cases h5 : getyear4 s4 with
          | none => simp [h5] at h
          | some p5 =>
            obtain ⟨year, s5⟩ := p5
            simp only [h5] at h
            by_cases h6 : s5 = []
            · obtain ⟨d1, d2, hd1, hd2, e1⟩ := getnum2_some h1
              obtain ⟨m1, m2, hm1, hm2, e3⟩ := getnum2_some h3
              obtain ⟨y1, y2, y3, y4, hy1, hy2, hy3, hy4, e5⟩ := getyear4_some h5
              have e2 := skipDot_some h2
              have e4 := skipDot_some h4
              refine ⟨d1, d2, m1, m2, y1, y2, y3, y4, hd1, hd2, hm1, hm2, hy1, hy2, hy3, hy4, ?_⟩
              rw [e1, e2, e3, e4, e5, h6]
            · simp [h6] at h

/-- C7, as the code has it. For every present date string whose value, once
its surrounding white space is removed, is not empty and is not of the
zero-padded form `DD.MM.YYYY`, `validateDate` reports a finding; `29.02.2024`
is accepted and `2024-02-29` is rejected. -/
theorem validateDate_rejects_other_forms :
    (∀ path s : Str, TrimSpace s ≠ [] → ¬ IsDDMMYYYY (TrimSpace s) →
      validateDate path (some s) ≠ none) ∧
    validateDate [] (some "29.02.2024".toList) = none ∧
    validateDate [] (some "2024-02-29".toList) ≠ none := by
  refine ⟨?_, by decide, by decide⟩
  intro path s hne hform
  have : parseDate (TrimSpace s) = none := by
    by_contra hp
    exact hform (parseDate_form _ hp)
  simp [validateDate, strOrEmpty, hne, this]

theorem not_IsDDMMYYYY_of_length {s : Str} (h : s.length ≠ 10) : ¬ IsDDMMYYYY s := by
  rintro ⟨_, _, _, _, _, _, _, _, _, _, _, _, _, _, _, _, rfl⟩
  exact h rfl

theorem validateDate_rejects_other_forms_witness :
    TrimSpace "1.2.2024".toList ≠ [] ∧ ¬ IsDDMMYYYY (TrimSpace "1.2.2024".toList) ∧
    validateDate [] (some "1.2.2024".toList) ≠ none :=
  ⟨by decide, not_IsDDMMYYYY_of_length (by decide),
    validateDate_rejects_other_forms.1 [] "1.2.2024".toList (by decide)
      (not_IsDDMMYYYY_of_length (by decide))⟩

/-- C7 fails as stated: ` 29.02.2024`, with a leading space, is present, not
blank and not of the form `DD.MM.YYYY`, yet `validateDate` reports no finding,
because the value is trimmed before it is parsed. -/
theorem validateDate_counterexample :
    TrimSpace " 29.02.2024".toList ≠ [] ∧ ¬ IsDDMMYYYY " 29.02.2024".toList ∧
    validateDate [] (some " 29.02.2024".toList) = none :=
  ⟨by decide, not_IsDDMMYYYY_of_length (by decide), by decide⟩

/-! ## IP lists -/

theorem strOrEmpty_some (s : Str) : strOrEmpty (some s) = TrimSpace s := rfl

theorem strOrEmpty_none : strOrEmpty none = [] := rfl

/-- The loop of `validateIPList`, from the entry of index `pre.length` on: when
`seen` holds the trimmed texts of the valid entries of `pre`, the loop adds
the findings of `ipFindingsFrom`. -/
theorem validateIPList_loop (path : Str) (l pre : List (Option Str)) (me : MultiError)
    (seen : List Str)
    (hseen : ∀ v, v ∈ seen ↔ v ≠ [] ∧ ParseIP v ≠ none ∧ ∃ e ∈ pre, strOrEmpty e = v) :
    (rangeLoop (validateIPListBody path) pre.length l (me, seen)).1 =
      me ++ (ipFindingsFrom pre l).map (ipFindingError path) := by
  induction l generalizing pre me seen with
  | nil => simp [rangeLoop, ipFindingsFrom]
  | cons e l ih =>
    have hlen : pre.length + 1 = (pre ++ [e]).length := by simp
    simp only [rangeLoop, ipFindingsFrom]
    rw [hlen]
    cases e with
    | none =>
      rw [show validateIPListBody path pre.length none (me, seen) = (me, seen) from rfl]
      rw [ih (pre ++ [none]) me seen]
      · simp [ipEntryFinding, strOrEmpty_none]
      · intro v
        rw [hseen v]
        constructor
        · rintro ⟨h1, h2, e1, he1, h3⟩
          exact ⟨h1, h2, e1, List.mem_append_left _ he1, h3⟩
        · rintro ⟨h1, h2, e1, he1, h3⟩
          rcases List.mem_append.1 he1 with he1 | he1
          · exact ⟨h1, h2, e1, he1, h3⟩
          · simp only [List.mem_singleton] at he1
            subst he1
            exact absurd h3.symm h1
    | some s =>
      by_cases hb : TrimSpace s = []
      · rw [show validateIPListBody path pre.length (some s) (me, seen) = (me, seen) by
          simp [validateIPListBody, hb]]
        rw [ih (pre ++ [some s]) me seen]
        · simp [ipEntryFinding, strOrEmpty_some, hb]
        · intro v
          rw [hseen v]
          constructor
          · rintro ⟨h1, h2, e1, he1, h3⟩
            exact ⟨h1, h2, e1, List.mem_append_left _ he1, h3⟩
          · rintro ⟨h1, h2, e1, he1, h3⟩
            rcases List.mem_append.1 he1 with he1 | he1
            · exact ⟨h1, h2, e1, he1, h3⟩
            · simp only [List.mem_singleton] at he1
              subst he1
              rw [strOrEmpty_some, hb] at h3
              exact absurd h3.symm h1
      · by_cases hp : ParseIP (TrimSpace s) = none
        · rw [show validateIPListBody path pre.length (some s) (me, seen) =
            (me ++ [ipFindingError path (pre.length, .invalidIP (TrimSpace s))], seen) by
            simp [validateIPListBody, hb, hp, MultiError.add, ipFindingError]]
          rw [ih (pre ++ [some s]) _ seen]
          · simp [ipEntryFinding, strOrEmpty_some, hb, hp]
          · intro v
            rw [hseen v]
            constructor
            · rintro ⟨h1, h2, e1, he1, h3⟩
              exact ⟨h1, h2, e1, List.mem_append_left _ he1, h3⟩
            · rintro ⟨h1, h2, e1, he1, h3⟩
              rcases List.mem_append.1 he1 with he1 | he1
              · exact ⟨h1, h2, e1, he1, h3⟩
              · simp only [List.mem_singleton] at he1
                subst he1
                rw [strOrEmpty_some] at h3
                rw [← h3] at h2
                exact absurd hp h2
        · have hany : (pre.any (fun e1 => strOrEmpty e1 == TrimSpace s)) = true ↔
              TrimSpace s ∈ seen := by
            rw [hseen, List.any_eq_true]
            constructor
            · rintro ⟨e1, he1, h⟩
              exact ⟨hb, hp, e1, he1, by simpa using h⟩
            · rintro ⟨_, _, e1, he1, h⟩
              exact ⟨e1, he1, by simpa using h⟩
          by_cases hs : TrimSpace s ∈ seen
          · rw [show validateIPListBody path pre.length (some s) (me, seen) =
              (me ++ [ipFindingError path (pre.length, .duplicateIP (TrimSpace s))], seen) by
              simp [validateIPListBody, hb, hp, hs, MultiError.add, ipFindingError]]
            rw [ih (pre ++ [some s]) _ seen]
            · simp [ipEntryFinding, strOrEmpty_some, hb, hp, hany.2 hs]
            · intro v
              rw [hseen v]
              constructor
              · rintro ⟨h1, h2, e1, he1, h3⟩
                exact ⟨h1, h2, e1, List.mem_append_left _ he1, h3⟩
              · rintro ⟨h1, h2, e1, he1, h3⟩
                rcases List.mem_append.1 he1 with he1 | he1
                · exact ⟨h1, h2, e1, he1, h3⟩
                · simp only [List.mem_singleton] at he1
                  subst he1
                  rw [strOrEmpty_some] at h3
                  subst h3
                  exact (hseen _).1 hs
          · rw [show validateIPListBody path pre.length (some s) (me, seen) =
              (me, TrimSpace s :: seen) by
              simp [validateIPListBody, hb, hp, hs]]
            have hany' : (pre.any (fun e1 => strOrEmpty e1 == TrimSpace s)) = false := by
              rw [Bool.eq_false_iff]
              exact fun h => hs (hany.1 h)
            rw [ih (pre ++ [some s]) _ (TrimSpace s :: seen)]
            · simp [ipEntryFinding, strOrEmpty_some, hb, hp, hany']
            · intro v
              rw [List.mem_cons, hseen v]
              constructor
              · rintro (rfl | ⟨h1, h2, e1, he1, h3⟩)
                · exact ⟨hb, hp, some s, by simp, rfl⟩
                · exact ⟨h1, h2, e1, List.mem_append_left _ he1, h3⟩
              · rintro ⟨h1, h2, e1, he1, h3⟩
                rcases List.mem_append.1 he1 with he1 | he1
                · exact Or.inr ⟨h1, h2, e1, he1, h3⟩
                · simp only [List.mem_singleton] at he1
                  subst he1
                  exact Or.inl h3.symm

theorem validateIPList_eq (path : Str) (list : List (Option Str)) :
    validateIPList path list =
      MultiError.ToError ((ipFindingsFrom [] list).map (ipFindingError path)) := by
  unfold validateIPList
  have := validateIPList_loop path list [] [] [] (by simp)
  simp only [List.length_nil, List.nil_append] at this
  rw [this]

theorem ipFindingsFrom_mem (l pre : List (Option Str)) (i : Nat) (m : Msg) :
    (i, m) ∈ ipFindingsFrom pre l ↔
      pre.length ≤ i ∧ ∃ e, (pre ++ l).get? i = some e ∧
        ipEntryFinding ((pre ++ l).take i) e = some m := by
  induction l generalizing pre with
  | nil =>
    simp only [ipFindingsFrom, List.not_mem_nil, List.append_nil, false_iff, not_and,
      not_exists]
    intro h e he
    have := List.get?_eq_some.1 he
    obtain ⟨hlt, _⟩ := this
    omega
  | cons e l ih =>
    simp only [ipFindingsFrom, List.mem_append]
    rw [ih (pre ++ [e])]
    simp only [List.append_assoc, List.singleton_append, List.length_append, List.length_singleton]
    constructor
    · rintro (h | ⟨h1, h2⟩)
      · cases hf : ipEntryFinding pre e with
        | none => simp [hf] at h
        | some m1 =>
          simp only [hf, List.mem_singleton, Prod.mk.injEq] at h
          obtain ⟨rfl, rfl⟩ := h
          refine ⟨le_refl _, e, ?_, ?_⟩
          · rw [List.get?_eq_getElem?, List.getElem?_append_right (le_refl _)]
            simp
          · simpa using hf
      · exact ⟨by omega, h2⟩
    · rintro ⟨h1, e1, he1, hf⟩
      rcases Nat.eq_or_lt_of_le h1 with heq | hlt
      · left
        subst heq
        simp only [List.get?_eq_getElem?, List.getElem?_append_right (le_refl _), Nat.sub_self,
          List.getElem?_cons_zero, Option.some.injEq] at he1
        subst he1
        simp only [List.take_left'] at hf
        simp [hf]
      · right
        exact ⟨hlt, e1, he1, hf⟩

theorem ipFindingsFrom_sorted (l pre : List (Option Str)) :
    ((ipFindingsFrom pre l).map Prod.fst).Pairwise (· < ·) := by
  induction l generalizing pre with
  | nil => simp [ipFindingsFrom]
  | cons e l ih =>
    simp only [ipFindingsFrom, List.map_append]
    rw [List.pairwise_append]
    refine ⟨?_, ih _, ?_⟩
    · cases ipEntryFinding pre e <;> simp
    · intro a ha b hb
      obtain ⟨⟨j, m⟩, hjm, rfl⟩ := List.mem_map.1 hb
      have := ((ipFindingsFrom_mem l (pre ++ [e]) j m).1 hjm).1
      simp only [List.length_append, List.length_singleton] at this
      cases hf : ipEntryFinding pre e with
      | none => simp [hf] at ha
      | some m1 =>
        simp only [hf, List.map_cons, List.map_nil, List.mem_singleton] at ha
        subst ha
        show pre.length < j
        omega
theorem ipEntryFinding_iff (pre : List (Option Str)) (e : Option Str) (m : Msg) :
    ipEntryFinding pre e = some m ↔
      ∃ s, e = some s ∧ TrimSpace s ≠ [] ∧
        ((ParseIP (TrimSpace s) = none ∧ m = .invalidIP (TrimSpace s)) ∨
          (ParseIP (TrimSpace s) ≠ none ∧ m = .duplicateIP (TrimSpace s) ∧
            ∃ s1, some s1 ∈ pre ∧ ParseIP (TrimSpace s1) ≠ none ∧ TrimSpace s1 = TrimSpace s)) := by
  cases e with
  | none => simp [ipEntryFinding, strOrEmpty_none]
  | some s =>
    simp only [ipEntryFinding, strOrEmpty_some, Option.some.injEq, exists_eq_left']
    by_cases hb : TrimSpace s = []
    · simp [hb]
    · by_cases hp : ParseIP (TrimSpace s) = none
      · simp only [hb, hp, if_false, if_true, Option.some.injEq, ne_eq, not_false_eq_true,
          true_and, not_true_eq_false, false_and, or_false]
        exact eq_comm
      · simp only [hb, hp, if_false, ne_eq, not_false_eq_true, true_and, false_and, false_or]
        by_cases hany : (pre.any (fun e1 => strOrEmpty e1 == TrimSpace s)) = true
        · simp only [hany, if_true, Option.some.injEq]
          constructor
          · rintro rfl
            refine ⟨rfl, ?_⟩
            obtain ⟨e1, he1, h⟩ := List.any_eq_true.1 hany
            simp only [beq_iff_eq] at h
            cases e1 with
            | none =>
              rw [strOrEmpty_none] at h
              exact absurd h.symm hb
            | some s1 =>
              rw [strOrEmpty_some] at h
              exact ⟨s1, he1, by rw [h]; exact hp, h⟩
          · rintro ⟨rfl, _⟩
            rfl
        · simp only [hany, Bool.false_eq_true, if_false, reduceCtorEq, false_iff, not_and,
            not_exists]
          intro _ s1 hs1 _ h
          apply hany
          rw [List.any_eq_true]
          exact ⟨some s1, hs1, by simpa [strOrEmpty_some] using h⟩

/-- C3. `validateIPList` produces at most one finding per index, in increasing
index order (the indices of its findings `fs` are strictly increasing), and it
has a finding at index `i` exactly when entry `i` is given and not blank and
either its trimmed text is no valid IP literal (an invalid-literal finding) or
it is a valid literal whose trimmed text equals the trimmed text of an earlier
valid entry (a duplicate finding). The list `10.0.0.1`, `10.0.0.1`, `bad-ip`
gives exactly a duplicate at index 1 and an invalid literal at index 2. -/
theorem validateIPList_findings (path : Str) (list : List (Option Str)) :
    (∃ fs : List (Nat × Msg),
      validateIPList path list = MultiError.ToError (fs.map (ipFindingError path)) ∧
      (fs.map Prod.fst).Pairwise (· < ·) ∧
      ∀ i m, (i, m) ∈ fs ↔ ∃ s, list.get? i = some (some s) ∧ TrimSpace s ≠ [] ∧
        ((ParseIP (TrimSpace s) = none ∧ m = .invalidIP (TrimSpace s)) ∨
          (ParseIP (TrimSpace s) ≠ none ∧ m = .duplicateIP (TrimSpace s) ∧
            ∃ j, j < i ∧ ∃ s1, list.get? j = some (some s1) ∧
              ParseIP (TrimSpace s1) ≠ none ∧ TrimSpace s1 = TrimSpace s))) ∧
    validateIPList path
        [some "10.0.0.1".toList, some "10.0.0.1".toList, some "bad-ip".toList] =
      some (.multi [.mk (indexPath path 1) (.errorf (.duplicateIP "10.0.0.1".toList)),
        .mk (indexPath path 2) (.errorf (.invalidIP "bad-ip".toList))]) := by
  constructor
  · refine ⟨ipFindingsFrom [] list, validateIPList_eq path list, ipFindingsFrom_sorted list [], ?_⟩
    intro i m
    rw [ipFindingsFrom_mem]
    simp only [List.length_nil, Nat.zero_le, List.nil_append, true_and]
    constructor
    · rintro ⟨e, he, hf⟩
      obtain ⟨s, rfl, hb, h⟩ := (ipEntryFinding_iff _ _ _).1 hf
      refine ⟨s, he, hb, ?_⟩
      rcases h with h | ⟨h1, h2, s1, hs1, h3, h4⟩
      · exact Or.inl h
      · refine Or.inr ⟨h1, h2, ?_⟩
        obtain ⟨j, hj⟩ := List.mem_iff_get?.1 hs1
        have hlt : j < i := by
          by_contra hge
          rw [List.get?_eq_getElem?, List.getElem?_take_eq_none (by omega)] at hj
          exact absurd hj (by simp)
        rw [List.get?_eq_getElem?, List.getElem?_take_of_lt hlt] at hj
        exact ⟨j, hlt, s1, by rw [List.get?_eq_getElem?]; exact hj, h3, h4⟩
    · rintro ⟨s, he, hb, h⟩
      refine ⟨some s, he, (ipEntryFinding_iff _ _ _).2 ⟨s, rfl, hb, ?_⟩⟩
      rcases h with h | ⟨h1, h2, j, hj, s1, hs1, h3, h4⟩
      · exact Or.inl h
      · refine Or.inr ⟨h1, h2, s1, ?_, h3, h4⟩
        rw [List.mem_iff_get?]
        refine ⟨j, ?_⟩
        rw [List.get?_eq_getElem?, List.getElem?_take_of_lt hj, ← List.get?_eq_getElem?]
        exact hs1
  · rw [validateIPList_eq]
    have : ipFindingsFrom []
        [some "10.0.0.1".toList, some "10.0.0.1".toList, some "bad-ip".toList] =
        [(1, .duplicateIP "10.0.0.1".toList), (2, .invalidIP "bad-ip".toList)] := by decide
    rw [this]
    simp [MultiError.ToError, ipFindingError]

/-! ## Host names -/

theorem mem_of_mem_intersperse {α : Type} (sep : α) (l : List α) (x : α)
    (h : x ∈ l.intersperse sep) : x = sep ∨ x ∈ l := by
  induction l with
  | nil => simp at h
  | cons a t ih =>
    cases t with
    | nil => exact Or.inr (by simpa using h)
    | cons b t =>
      simp only [List.intersperse_cons₂, List.mem_cons] at h
      rcases h with h | h | h
      · exact Or.inr (by simp [h])
      · exact Or.inl h
      · rcases ih h with h | h
        · exact Or.inl h
        · exact Or.inr (List.mem_cons_of_mem _ h)

/-- A character of a string is a dot or lies in one of the labels of
`strings.Split(s, ".")`. -/
theorem mem_SplitDot (s : Str) (c : Char) (h : c ∈ s) :
    c = '.' ∨ ∃ lbl ∈ SplitDot s, c ∈ lbl := by
  have hs : ['.'].intercalate (s.splitOn '.') = s := @List.intercalate_splitOn Char s '.' _
  rw [← hs] at h
  unfold List.intercalate at h
  obtain ⟨l, hl, hc⟩ := List.mem_flatten.1 h
  rcases mem_of_mem_intersperse _ _ _ hl with rfl | hl
  · left
    simpa using hc
  · exact Or.inr ⟨l, hl, hc⟩

theorem utf8Len_ascii (c : Char) (h : isAlnumHyphen c = true ∨ c = '.') : utf8Len c = 1 := by
  have : c.toNat < 0x80 := by
    rcases h with h | rfl
    · simp only [isAlnumHyphen, isAlnum, isAlpha, isDigit, Bool.or_eq_true, Bool.and_eq_true,
        decide_eq_true_eq, beq_iff_eq] at h
      rcases h with h | rfl
      · omega
      · decide
    · decide
  simp [utf8Len, this]

theorem goLen_ascii (s : Str) (h : ∀ c ∈ s, isAlnumHyphen c = true ∨ c = '.') :
    goLen s = s.length := by
  induction s with
  | nil => rfl
  | cons a t ih =>
    have ha := utf8Len_ascii a (h a (List.mem_cons_self _ _))
    have ht := ih (fun c hc => h c (List.mem_cons_of_mem _ hc))
    simp only [goLen, List.map_cons, List.sum_cons, List.length_cons] at ht ⊢
    omega

theorem goLen_eq_zero (s : Str) : goLen s = 0 ↔ s = [] := by
  cases s with
  | nil => simp [goLen]
  | cons a t =>
    simp only [goLen, List.map_cons, List.sum_cons, reduceCtorEq, iff_false]
    have : 1 ≤ utf8Len a := by
      unfold utf8Len
      split_ifs <;> omega
    omega

theorem isAlnum_isAlnumHyphen (c : Char) (h : isAlnum c = true) : isAlnumHyphen c = true := by
  simp [isAlnumHyphen, h]

/-- The strings of the label pattern of the specification. -/
theorem mem_lang_specHostnameLabel (x : Str) :
    x ∈ specHostnameLabel.lang ↔
      (∃ c, x.head? = some c ∧ isAlnum c = true) ∧
      (∃ c, x.getLast? = some c ∧ isAlnum c = true) ∧ ∀ c ∈ x, isAlnumHyphen c = true := by
  unfold specHostnameLabel RE.opt
  rw [RE.mem_lang_seq]
  constructor
  · rintro ⟨t, u, ht, hu, rfl⟩
    obtain ⟨a, ha, rfl⟩ := ht
    rw [RE.mem_lang_alt, RE.mem_lang_seq, RE.mem_lang_eps] at hu
    rcases hu with ⟨mid, l, hmid, hl, rfl⟩ | rfl
    · obtain ⟨b, hb, rfl⟩ := hl
      rw [RE.mem_lang_star_cls] at hmid
      refine ⟨⟨a, rfl, ha⟩, ⟨b, ?_, hb⟩, ?_⟩
      · rw [← List.append_assoc, List.getLast?_append_of_ne_nil _ (by simp)]
        rfl
      · intro c hc
        simp only [List.singleton_append, List.mem_cons, List.mem_append, List.mem_singleton,
          List.not_mem_nil, or_false] at hc
        rcases hc with rfl | hc | rfl
        · exact isAlnum_isAlnumHyphen _ ha
        · exact hmid c hc
        · exact isAlnum_isAlnumHyphen _ hb
    · refine ⟨⟨a, rfl, ha⟩, ⟨a, rfl, ha⟩, ?_⟩
      intro c hc
      simp only [List.append_nil, List.mem_singleton] at hc
      subst hc
      exact isAlnum_isAlnumHyphen _ ha
  · rintro ⟨⟨a, ha, haa⟩, ⟨b, hb, hbb⟩, hall⟩
    cases x with
    | nil => simp at ha
    | cons a1 t =>
      simp only [List.head?_cons, Option.some.injEq] at ha
      subst ha
      refine ⟨[a1], t, ⟨a1, haa, rfl⟩, ?_, rfl⟩
      rw [RE.mem_lang_alt, RE.mem_lang_seq, RE.mem_lang_eps]
      rcases List.eq_nil_or_concat t with rfl | ⟨mid, l, rfl⟩
      · exact Or.inr rfl
      · left
        rw [List.concat_eq_append] at hb hall ⊢
        rw [← List.cons_append, List.getLast?_append_of_ne_nil _ (by simp)] at hb
        simp only [List.getLast?_singleton, Option.some.injEq] at hb
        subst hb
        refine ⟨mid, [l], ?_, ⟨l, hbb, rfl⟩, rfl⟩
        rw [RE.mem_lang_star_cls]
        intro c hc
        exact hall c (by simp [hc])

/-- The pattern of the code bounds the middle of the label by 61 characters:
its strings are those of the pattern of the specification of length at most 63. -/
theorem mem_lang_reHostnameLabel (x : Str) :
    x ∈ reHostnameLabel.lang ↔ x ∈ specHostnameLabel.lang ∧ x.length ≤ 63 := by
  unfold reHostnameLabel specHostnameLabel RE.opt
  simp only [RE.mem_lang_seq, RE.mem_lang_alt, RE.mem_lang_eps, RE.mem_lang_upto,
    RE.mem_lang_star_cls, RE.mem_lang_cls]
  constructor
  · rintro ⟨t, u, ⟨a, ha, rfl⟩, hu, rfl⟩
    rcases hu with ⟨mid, l, ⟨hlen, hmid⟩, ⟨b, hb, rfl⟩, rfl⟩ | rfl
    · refine ⟨⟨[a], mid ++ [b], ⟨a, ha, rfl⟩, Or.inl ⟨mid, [b], hmid, ⟨b, hb, rfl⟩, rfl⟩, rfl⟩, ?_⟩
      simp only [List.singleton_append, List.length_cons, List.length_append, List.length_singleton,
        List.length_nil]
      omega
    · exact ⟨⟨[a], [], ⟨a, ha, rfl⟩, Or.inr rfl, rfl⟩, by simp⟩
  · rintro ⟨⟨t, u, ⟨a, ha, rfl⟩, hu, rfl⟩, hlen⟩
    rcases hu with ⟨mid, l, hmid, ⟨b, hb, rfl⟩, rfl⟩ | rfl
    · refine ⟨[a], mid ++ [b], ⟨a, ha, rfl⟩, Or.inl ⟨mid, [b], ⟨?_, hmid⟩, ⟨b, hb, rfl⟩, rfl⟩, rfl⟩
      simp only [List.singleton_append, List.length_cons, List.length_append, List.length_singleton,
        List.length_nil] at hlen
      omega
    · exact ⟨[a], [], ⟨a, ha, rfl⟩, Or.inr rfl, rfl⟩

/-- The label test of `validateFQDN` and `validateHostnameOrIP`,
`len(lbl) == 0 || len(lbl) > 63 || !reHostnameLabel.MatchString(lbl)`, fails
exactly for the labels of 1 to 63 characters that match the pattern of the
specification. -/
theorem label_ok_iff (lbl : Str) :
    (goLen lbl == 0 || decide (goLen lbl > 63) || !reHostnameLabel.rmatch lbl) = false ↔
      1 ≤ lbl.length ∧ lbl.length ≤ 63 ∧ lbl ∈ specHostnameLabel.lang := by
  simp only [Bool.or_eq_false_iff, beq_eq_false_iff_ne, ne_eq, decide_eq_false_iff_not,
    Bool.not_eq_false', RE.rmatch_iff, mem_lang_reHostnameLabel, goLen_eq_zero]
  constructor
  · rintro ⟨⟨hne, _⟩, hspec, hlen⟩
    refine ⟨?_, hlen, hspec⟩
    cases lbl with
    | nil => exact absurd rfl hne
    | cons a t => simp
  · rintro ⟨h1, h2, hspec⟩
    have hasc : goLen lbl = lbl.length :=
      goLen_ascii lbl (fun c hc => Or.inl (((mem_lang_specHostnameLabel lbl).1 hspec).2.2 c hc))
    refine ⟨⟨?_, by omega⟩, hspec, h2⟩
    rintro rfl
    simp at h1

theorem firstBadLabel_none_iff (labels : List Str) :
    firstBadLabel labels = none ↔
      ∀ lbl ∈ labels, 1 ≤ lbl.length ∧ lbl.length ≤ 63 ∧ lbl ∈ specHostnameLabel.lang := by
  unfold firstBadLabel
  rw [List.find?_eq_none]
  constructor
  · intro h lbl hl
    exact (label_ok_iff lbl).1 (by simpa using h lbl hl)
  · intro h lbl hl
    have := (label_ok_iff lbl).2 (h lbl hl)
    simp [this]

/-- A string whose labels all pass the label test is ASCII: its length in bytes
is its number of characters. -/
theorem goLen_of_labels (s : Str)
    (h : ∀ lbl ∈ SplitDot s, 1 ≤ lbl.length ∧ lbl.length ≤ 63 ∧ lbl ∈ specHostnameLabel.lang) :
    goLen s = s.length := by
  apply goLen_ascii
  intro c hc
  rcases mem_SplitDot s c hc with rfl | ⟨lbl, hl, hcl⟩
  · exact Or.inr rfl
  · exact Or.inl (((mem_lang_specHostnameLabel lbl).1 (h lbl hl).2.2).2.2 c hcl)

/-- C8, as the code has it. For every string `s` whose value `t`, once its
surrounding white space is removed, is not empty, `validateFQDN` reports no
finding if and only if `t` splits on dots into at least two labels, every label
has 1 to 63 characters and matches `[A-Za-z0-9]([A-Za-z0-9-]*[A-Za-z0-9])?`,
and the total length of `t` is at most 253; such a label is not empty and
neither starts nor ends with a hyphen. -/
theorem validateFQDN_none_iff :
    (∀ path s : Str, TrimSpace s ≠ [] →
      (validateFQDN path (some s) = none ↔
        2 ≤ (SplitDot (TrimSpace s)).length ∧
        (∀ lbl ∈ SplitDot (TrimSpace s),
          1 ≤ lbl.length ∧ lbl.length ≤ 63 ∧ lbl ∈ specHostnameLabel.lang) ∧
        (TrimSpace s).length ≤ 253)) ∧
    ∀ lbl : Str, lbl ∈ specHostnameLabel.lang →
      lbl ≠ [] ∧ lbl.head? ≠ some '-' ∧ lbl.getLast? ≠ some '-' := by
  constructor
  · intro path s hne
    simp only [validateFQDN, strOrEmpty_some, hne, if_false]
    by_cases h2 : (SplitDot (TrimSpace s)).length < 2
    · simp only [h2, if_true, reduceCtorEq, false_iff, not_and]
      intro h
      omega
    · simp only [h2, if_false]
      cases hf : firstBadLabel (SplitDot (TrimSpace s)) with
      | some lbl =>
        simp only [reduceCtorEq, false_iff, not_and]
        intro _ hall
        rw [(firstBadLabel_none_iff _).2 hall] at hf
        exact absurd hf (by simp)
      | none =>
        have hall := (firstBadLabel_none_iff _).1 hf
        rw [goLen_of_labels _ hall]
        by_cases hlen : (TrimSpace s).length > 253
        · rw [if_pos hlen]
          simp only [reduceCtorEq, false_iff, not_and, not_le]
          intro _ _
          exact hlen
        · simp only [hlen, if_false, true_iff]
          exact ⟨by omega, hall, by omega⟩
  · intro lbl h
    obtain ⟨⟨a, ha, haa⟩, ⟨b, hb, hbb⟩, _⟩ := (mem_lang_specHostnameLabel lbl).1 h
    refine ⟨?_, ?_, ?_⟩
    · rintro rfl
      simp at ha
    · rw [ha]
      intro heq
      simp only [Option.some.injEq] at heq
      subst heq
      exact absurd haa (by decide)
    · rw [hb]
      intro heq
      simp only [Option.some.injEq] at heq
      subst heq
      exact absurd hbb (by decide)

theorem validateFQDN_none_iff_witness :
    TrimSpace "db-1.example.org".toList ≠ [] ∧
    validateFQDN [] (some "db-1.example.org".toList) = none ∧
    "db-1".toList ∈ specHostnameLabel.lang ∧
    ("db-1".toList ≠ [] ∧ "db-1".toList.head? ≠ some '-' ∧
      "db-1".toList.getLast? ≠ some '-') :=
  have hl : ∀ lbl ∈ SplitDot (TrimSpace "db-1.example.org".toList),
      1 ≤ lbl.length ∧ lbl.length ≤ 63 ∧ lbl ∈ specHostnameLabel.lang := by
    intro lbl h
    have hs : SplitDot (TrimSpace "db-1.example.org".toList) =
        ["db-1".toList, "example".toList, "org".toList] := by decide
    rw [hs] at h
    simp only [List.mem_cons, List.mem_singleton, List.not_mem_nil, or_false] at h
    rcases h with rfl | rfl | rfl <;>
      exact ⟨by decide, by decide, (RE.rmatch_iff _ _).1 (by decide)⟩
  have hd : "db-1".toList ∈ specHostnameLabel.lang := (RE.rmatch_iff _ _).1 (by decide)
  ⟨by decide,
    (validateFQDN_none_iff.1 [] "db-1.example.org".toList (by decide)).2
      ⟨by decide, hl, by decide⟩,
    hd, validateFQDN_none_iff.2 "db-1".toList hd⟩

/-- C8 fails as stated: ` a.b`, with a leading space, is not blank and
`validateFQDN` reports no finding, yet its first label ` a` does not match the
label pattern; the value is trimmed before it is split. -/
theorem validateFQDN_counterexample :
    TrimSpace " a.b".toList ≠ [] ∧ validateFQDN [] (some " a.b".toList) = none ∧
    ¬ (2 ≤ (SplitDot " a.b".toList).length ∧
      (∀ lbl ∈ SplitDot " a.b".toList,
        1 ≤ lbl.length ∧ lbl.length ≤ 63 ∧ lbl ∈ specHostnameLabel.lang) ∧
      " a.b".toList.length ≤ 253) := by
  refine ⟨by decide, by decide, ?_⟩
  rintro ⟨_, h, _⟩
  have := (h " a".toList (by decide)).2.2
  rw [← RE.rmatch_iff] at this
  exact absurd this (by decide)

theorem IsHostLabel_iff (lbl : Str) :
    IsHostLabel lbl ↔ 1 ≤ lbl.length ∧ lbl.length ≤ 63 ∧ lbl ∈ specHostnameLabel.lang := by
  unfold IsHostLabel
  rw [mem_lang_specHostnameLabel]

/-- C9, as the code has it. For every string `s` whose value `t`, once its
surrounding white space is removed, is not empty, `validateHostnameOrIP`
reports no finding if and only if `t` is a valid IP literal, or `t` is a
syntactically valid hostname: one or more dot-separated labels that each
satisfy the label rules (1 to 63 characters, alphanumeric at both ends,
alphanumerics and hyphens inside), of total length at most 253. -/
theorem validateHostnameOrIP_none_iff (path s : Str) (hne : TrimSpace s ≠ []) :
    validateHostnameOrIP path (some s) = none ↔
      ParseIP (TrimSpace s) ≠ none ∨
      (1 ≤ (SplitDot (TrimSpace s)).length ∧
        (∀ lbl ∈ SplitDot (TrimSpace s), IsHostLabel lbl) ∧
        (TrimSpace s).length ≤ 253) := by
  simp only [validateHostnameOrIP, strOrEmpty_some, hne, if_false, IsHostLabel_iff]
  by_cases hip : ParseIP (TrimSpace s) = none
  · simp only [hip, ne_eq, not_true_eq_false, if_false, false_or]
    cases hf : firstBadLabel (SplitDot (TrimSpace s)) with
    | some lbl =>
      simp only [reduceCtorEq, false_iff, not_and]
      intro _ hall
      rw [(firstBadLabel_none_iff _).2 hall] at hf
      exact absurd hf (by simp)
    | none =>
      have hall := (firstBadLabel_none_iff _).1 hf
      rw [goLen_of_labels _ hall]
      have h1 : 1 ≤ (SplitDot (TrimSpace s)).length := by
        have : SplitDot (TrimSpace s) ≠ [] := List.splitOnP_ne_nil _ _
        cases hs : SplitDot (TrimSpace s) with
        | nil => exact absurd hs this
        | cons a t => simp
      by_cases hlen : (TrimSpace s).length > 253
      · rw [if_pos hlen]
        simp only [reduceCtorEq, false_iff, not_and, not_le]
        intro _ _
        exact hlen
      · simp only [hlen, if_false, true_iff]
        exact ⟨h1, hall, by omega⟩
  · simp [hip]

theorem validateHostnameOrIP_none_iff_witness :
    TrimSpace "backup-host".toList ≠ [] ∧
    validateHostnameOrIP [] (some "backup-host".toList) = none :=
  have hl : ∀ lbl ∈ SplitDot (TrimSpace "backup-host".toList), IsHostLabel lbl := by
    intro lbl h
    have hs : SplitDot (TrimSpace "backup-host".toList) = ["backup-host".toList] := by decide
    rw [hs] at h
    simp only [List.mem_singleton] at h
    subst h
    exact ⟨by decide, by decide, ⟨'b', rfl, by decide⟩, ⟨'t', rfl, by decide⟩, by decide⟩
  ⟨by decide,
    (validateHostnameOrIP_none_iff [] "backup-host".toList (by decide)).2
      (Or.inr ⟨by decide, hl, by decide⟩)⟩

/-- C9 fails as stated: ` a`, with a leading space, is not blank and
`validateHostnameOrIP` reports no finding, yet ` a` is neither a valid IP
literal nor a valid hostname; the value is trimmed before it is checked. -/
theorem validateHostnameOrIP_counterexample :
    TrimSpace " a".toList ≠ [] ∧ validateHostnameOrIP [] (some " a".toList) = none ∧
    ¬ (ParseIP " a".toList ≠ none ∨
      (1 ≤ (SplitDot " a".toList).length ∧
        (∀ lbl ∈ SplitDot " a".toList, IsHostLabel lbl) ∧ " a".toList.length ≤ 253)) := by
  refine ⟨by decide, by decide, ?_⟩
  rintro (h | ⟨_, h, _⟩)
  · exact h (by decide)
  · obtain ⟨_, _, ⟨c, hc, hcc⟩, _⟩ := h " a".toList (by decide)
    simp only [String.toList, List.head?_cons, Option.some.injEq] at hc
    subst hc
    exact absurd hcc (by decide)

/-! ## Bytes of a parsed address -/

theorem parseIPv4Fields_bytes (s : Str) :
    ∀ (prev : Option Char) (val pos digLen : Nat) (fields r : List Nat),
      parseIPv4Fields prev s val pos digLen fields = some r → val < 256 →
      (∀ b ∈ fields, b < 256) → ∀ b ∈ r, b < 256 := by
  induction s with
  | nil =>
    intro prev val pos digLen fields r h hval hf b hb
    simp only [parseIPv4Fields] at h
    split_ifs at h
    simp only [Option.some.injEq] at h
    subst h
    rcases List.mem_append.1 hb with hb | hb
    · exact hf b hb
    · simp only [List.mem_singleton] at hb
      omega
  | cons c cs ih =>
    intro prev val pos digLen fields r h hval hf
    simp only [parseIPv4Fields] at h
    split_ifs at h with h1 h2 h3 h4 h5 h6
    · exact ih _ _ _ _ _ _ h (by omega) hf
    · refine ih _ _ _ _ _ _ h (by omega) ?_
      intro b hb
      rcases List.mem_append.1 hb with hb | hb
      · exact hf b hb
      · simp only [List.mem_singleton] at hb
        omega

theorem scanHex_acc (s : Str) :
    ∀ (off acc off1 acc1 : Nat) (rest : Str),
      scanHex s off acc = some (off1, acc1, rest) → acc ≤ 0xFFFF → acc1 ≤ 0xFFFF := by
  induction s with
  | nil =>
    intro off acc off1 acc1 rest h hacc
    simp only [scanHex, Option.some.injEq, Prod.mk.injEq] at h
    omega
  | cons c cs ih =>
    intro off acc off1 acc1 rest h hacc
    simp only [scanHex] at h
    cases hh : hexVal c with
    | none =>
      simp only [hh, Option.some.injEq, Prod.mk.injEq] at h
      omega
    | some d =>
      simp only [hh] at h
      split_ifs at h with h1 h2
      exact ih _ _ _ _ _ h (by omega)

theorem bytes_append_pair (ip : List Nat) (acc : Nat) (hip : ∀ b ∈ ip, b < 256)
    (hacc : acc ≤ 0xFFFF) : ∀ b ∈ ip ++ [acc / 256, acc % 256], b < 256 := by
  intro b hb
  rcases List.mem_append.1 hb with hb | hb
  · exact hip b hb
  · simp only [List.mem_cons, List.mem_singleton, List.not_mem_nil, or_false] at hb
    rcases hb with rfl | rfl <;> omega

theorem parseIPv6Loop_bytes (slots : Nat) :
    ∀ (s : Str) (ip : List Nat) (ell : Option Nat) (rest : Str) (ip1 : List Nat)
      (ell1 : Option Nat),
      parseIPv6Loop slots s ip ell = some (rest, ip1, ell1) →
      (∀ b ∈ ip, b < 256) → ∀ b ∈ ip1, b < 256 := by
  induction slots with
  | zero =>
    intro s ip ell rest ip1 ell1 h hip
    simp only [parseIPv6Loop, Option.some.injEq, Prod.mk.injEq] at h
    obtain ⟨_, rfl, _⟩ := h
    exact hip
  | succ n ih =>
    intro s ip ell rest ip1 ell1 h hip
    simp only [parseIPv6Loop] at h
    cases hs : scanHex s 0 0 with
    | none => simp [hs] at h
    | some p =>
      obtain ⟨off, acc, r⟩ := p
      have hacc := scanHex_acc s 0 0 off acc r hs (by omega)
      have hpair := bytes_append_pair ip acc hip hacc
      simp only [hs] at h
      by_cases h1 : off = 0
      · rw [if_pos h1] at h
        exact absurd h (by simp)
      rw [if_neg h1] at h
      by_cases h2 : r.head? = some '.'
      · rw [if_pos h2] at h
        by_cases h3 : ell = none ∧ ip.length ≠ 12
        · rw [if_pos h3] at h
          exact absurd h (by simp)
        rw [if_neg h3] at h
        by_cases h4 : ip.length + 4 > 16
        · rw [if_pos h4] at h
          exact absurd h (by simp)
        rw [if_neg h4] at h
        cases h4f : parseIPv4Fields none s 0 0 0 [] with
        | none => simp [h4f] at h
        | some f =>
          simp only [h4f, Option.some.injEq, Prod.mk.injEq] at h
          obtain ⟨_, rfl, _⟩ := h
          intro b hb
          rcases List.mem_append.1 hb with hb | hb
          · exact hip b hb
          · exact parseIPv4Fields_bytes s none 0 0 0 [] f h4f (by omega) (by simp) b hb
      rw [if_neg h2] at h
      cases r with
      | nil =>
        simp only [Option.some.injEq, Prod.mk.injEq] at h
        obtain ⟨_, rfl, _⟩ := h
        exact hpair
      | cons c r1 =>
        simp only at h
        by_cases h5 : c ≠ ':'
        · rw [if_pos h5] at h
          exact absurd h (by simp)
        rw [if_neg h5] at h
        cases r1 with
        | nil => simp at h
        | cons c1 r2 =>
          simp only at h
          by_cases h6 : c1 = ':'
          · rw [if_pos h6] at h
            by_cases h7 : ell.isSome = true
            · rw [if_pos h7] at h
              exact absurd h (by simp)
            rw [if_neg h7] at h
            by_cases h8 : r2 = []
            · rw [if_pos h8] at h
              simp only [Option.some.injEq, Prod.mk.injEq] at h
              obtain ⟨_, rfl, _⟩ := h
              exact hpair
            · rw [if_neg h8] at h
              exact ih _ _ _ _ _ _ h hpair
          · rw [if_neg h6] at h
            exact ih _ _ _ _ _ _ h hpair

theorem parseIPv6Finish_bytes (p : Str × List Nat × Option Nat) (r : List Nat)
    (h : parseIPv6Finish p = some r) (hp : ∀ b ∈ p.2.1, b < 256) : ∀ b ∈ r, b < 256 := by
  obtain ⟨rest, ip, ell⟩ := p
  simp only [parseIPv6Finish] at h
  split_ifs at h with h1 h2 h3
  · cases ell with
    | none => simp at h
    | some e =>
      simp only [Option.some.injEq] at h
      subst h
      intro b hb
      simp only [List.mem_append, List.mem_replicate] at hb
      rcases hb with (hb | hb) | hb
      · exact hp b (List.mem_of_mem_take hb)
      · omega
      · exact hp b (List.mem_of_mem_drop hb)
  · simp only [Option.some.injEq] at h
    subst h
    exact hp

theorem parseIPv6_bytes (s : Str) (r : List Nat) (h : parseIPv6 s = some r) :
    ∀ b ∈ r, b < 256 := by
  unfold parseIPv6 at h
  split_ifs at h with h1
  have key : ∀ (t : Str) (ell : Option Nat),
      (parseIPv6Loop 8 t [] ell).bind parseIPv6Finish = some r → ∀ b ∈ r, b < 256 := by
    intro t ell ht
    cases hl : parseIPv6Loop 8 t [] ell with
    | none => simp [hl] at ht
    | some p =>
      simp only [hl, Option.some_bind] at ht
      obtain ⟨rest, ip, ell1⟩ := p
      exact parseIPv6Finish_bytes _ r ht
        (parseIPv6Loop_bytes 8 t [] ell rest ip ell1 hl (by simp))
  split at h
  · split_ifs at h with h2
    · simp only [Option.some.injEq] at h
      subst h
      intro b hb
      simp only [List.mem_replicate] at hb
      omega
    · exact key _ _ h
  · exact key _ _ h

/-- The bytes of an address that `net.ParseIP` returns are below 256. -/
theorem ParseIP_bytes (s : Str) (ip : List Nat) (h : ParseIP s = some ip) :
    ∀ b ∈ ip, b < 256 := by
  unfold ParseIP at h
  split at h
  · cases h4 : parseIPv4 s with
    | none => simp [h4] at h
    | some f =>
      simp only [h4, Option.map_some', Option.some.injEq] at h
      subst h
      intro b hb
      simp only [List.mem_append, List.mem_replicate, List.mem_cons, List.mem_singleton,
        List.not_mem_nil, or_false] at hb
      rcases hb with (hb | hb | hb) | hb
      · omega
      · omega
      · omega
      · exact parseIPv4Fields_bytes s none 0 0 0 [] f h4 (by omega) (by simp) b hb
  · exact parseIPv6_bytes s ip h
  · simp at h

theorem To4_bytes (ip m : List Nat) (h : To4 ip = some m) (hip : ∀ b ∈ ip, b < 256) :
    m.length = 4 ∧ ∀ b ∈ m, b < 256 := by
  unfold To4 at h
  split_ifs at h with h1 h2
  · simp only [Option.some.injEq] at h
    subst h
    exact ⟨h1, hip⟩
  · simp only [Option.some.injEq] at h
    subst h
    refine ⟨by simp [h2.1], fun b hb => hip b (List.mem_of_mem_drop hb)⟩

/-! ## Subnet masks -/

theorem isDigit_cases (d : Char) (h : isDigit d = true) :
    d ∈ ['0', '1', '2', '3', '4', '5', '6', '7', '8', '9'] := by
  simp only [isDigit, Bool.and_eq_true, decide_eq_true_eq] at h
  have hd : Char.ofNat d.toNat = d := Char.ofNat_toNat d
  obtain ⟨h1, h2⟩ := h
  generalize d.toNat = m at hd h1 h2
  subst hd
  interval_cases m <;> decide

/-- The strings of `reSubnetPrefixOnly` are `/N` for the decimal numbers `N`
from 0 to 32. -/
theorem mem_lang_reSubnetPrefixOnly (x : Str) :
    x ∈ reSubnetPrefixOnly.lang ↔ ∃ n, n ≤ 32 ∧ x = '/' :: itoa n := by
  constructor
  · intro h
    unfold reSubnetPrefixOnly at h
    simp only [RE.mem_lang_seq, RE.mem_lang_alt, RE.mem_lang_chr, RE.mem_lang_cls] at h
    obtain ⟨t, u, rfl, hu, rfl⟩ := h
    rcases hu with ⟨d, hd, rfl⟩ | ⟨t1, u1, ⟨a, ha, rfl⟩, ⟨d, hd, rfl⟩, rfl⟩ |
      ⟨t1, u1, rfl, ⟨b, hb, rfl⟩, rfl⟩
    · have := isDigit_cases d hd
      simp only [List.mem_cons, List.mem_singleton, List.not_mem_nil, or_false] at this
      rcases this with rfl | rfl | rfl | rfl | rfl | rfl | rfl | rfl | rfl | rfl <;> decide
    · have := isDigit_cases d hd
      simp only [List.mem_cons, List.mem_singleton, List.not_mem_nil, or_false] at this
      simp only [Bool.or_eq_true, beq_iff_eq] at ha
      rcases ha with rfl | rfl <;>
        rcases this with rfl | rfl | rfl | rfl | rfl | rfl | rfl | rfl | rfl | rfl <;> decide
    · simp only [Bool.or_eq_true, beq_iff_eq] at hb
      rcases hb with (rfl | rfl) | rfl <;> decide
  · rintro ⟨n, hn, rfl⟩
    rw [← RE.rmatch_iff]
    interval_cases n <;> decide
/-- The test `x & (x+1) == 0` holds exactly when `x + 1` is a power of two. -/
theorem land_succ_eq_zero_iff (x : Nat) : x &&& (x + 1) = 0 ↔ ∃ j, x + 1 = 2 ^ j := by
  induction x using Nat.strong_induction_on with
  | _ x ih =>
    have hmod : (x &&& (x + 1)) % 2 = 0 := by
      have h := @Nat.and_mod_two_eq_one x (x + 1)
      have h2 := Nat.mod_two_eq_zero_or_one (x &&& (x + 1))
      rcases h2 with h2 | h2
      · exact h2
      · have := h.1 h2
        omega
    have hdiv : (x &&& (x + 1)) / 2 = x / 2 &&& (x + 1) / 2 := Nat.and_div_two
    have hz : x &&& (x + 1) = 0 ↔ x / 2 &&& (x + 1) / 2 = 0 := by
      rw [← hdiv]
      omega
    rw [hz]
    rcases Nat.even_or_odd' x with ⟨y, rfl | rfl⟩
    · have e1 : 2 * y / 2 = y := by omega
      have e2 : (2 * y + 1) / 2 = y := by omega
      rw [e1, e2, Nat.and_self]
      constructor
      · rintro rfl
        exact ⟨0, rfl⟩
      · rintro ⟨j, hj⟩
        cases j with
        | zero => simpa using hj
        | succ j =>
          rw [pow_succ] at hj
          omega
    · have e1 : (2 * y + 1) / 2 = y := by omega
      have e2 : (2 * y + 1 + 1) / 2 = y + 1 := by omega
      rw [e1, e2, ih y (by omega)]
      constructor
      · rintro ⟨j, hj⟩
        exact ⟨j + 1, by rw [pow_succ]; omega⟩
      · rintro ⟨j, hj⟩
        cases j with
        | zero => simp at hj
        | succ j =>
          rw [pow_succ] at hj
          exact ⟨j, by omega⟩

theorem shift_or_eq_be32 (a b c d : Nat) (hb : b < 256) (hc : c < 256) (hd : d < 256) :
    a <<< 24 ||| b <<< 16 ||| c <<< 8 ||| d = be32 a b c d := by
  unfold be32
  simp only [Nat.shiftLeft_eq]
  have h1 : c * 2 ^ 8 ||| d = c * 2 ^ 8 + d := by
    rw [Nat.mul_comm, ← Nat.mul_add_lt_is_or (by omega)]
  have h2 : b * 2 ^ 16 ||| (c * 2 ^ 8 + d) = b * 2 ^ 16 + (c * 2 ^ 8 + d) := by
    rw [Nat.mul_comm, ← Nat.mul_add_lt_is_or (by omega)]
  have h3 : a * 2 ^ 24 ||| (b * 2 ^ 16 + (c * 2 ^ 8 + d)) =
      a * 2 ^ 24 + (b * 2 ^ 16 + (c * 2 ^ 8 + d)) := by
    rw [Nat.mul_comm, ← Nat.mul_add_lt_is_or (by omega)]
  rw [Nat.lor_assoc, Nat.lor_assoc, h1, h2, h3]
  omega

theorem be32_lt (a b c d : Nat) (ha : a < 256) (hb : b < 256) (hc : c < 256) (hd : d < 256) :
    be32 a b c d < 2 ^ 32 := by
  unfold be32
  omega

/-- The complement-and-increment test on a 32-bit value. -/
theorem contiguous_test_iff (v : Nat) (hv : v < 2 ^ 32) :
    (v = 0 ∨ (2 ^ 32 - 1 - v) &&& ((2 ^ 32 - 1 - v + 1) % 2 ^ 32) = 0) ↔ IsOnesThenZeros v := by
  unfold IsOnesThenZeros
  by_cases h0 : v = 0
  · subst h0
    simp only [true_or, true_iff]
    exact ⟨0, by omega, by norm_num⟩
  · have hmod : (2 ^ 32 - 1 - v + 1) % 2 ^ 32 = 2 ^ 32 - 1 - v + 1 := by
      apply Nat.mod_eq_of_lt
      omega
    rw [hmod, land_succ_eq_zero_iff]
    simp only [h0, false_or]
    constructor
    · rintro ⟨j, hj⟩
      have hj32 : j < 32 := by
        by_contra hge
        have : 2 ^ 32 ≤ 2 ^ j := Nat.pow_le_pow_right (by omega) (by omega)
        omega
      refine ⟨32 - j, by omega, ?_⟩
      have : 32 - (32 - j) = j := by omega
      rw [this]
      omega
    · rintro ⟨k, hk, hvk⟩
      have hle : 2 ^ (32 - k) ≤ 2 ^ 32 := Nat.pow_le_pow_right (by omega) (by omega)
      exact ⟨32 - k, by omega⟩

/-- `isContiguousIPv4Mask` on four bytes: true exactly when the 32 bits are
ones followed by zeros. -/
theorem isContiguousIPv4Mask_iff (a b c d : Nat) (ha : a < 256) (hb : b < 256)
    (hc : c < 256) (hd : d < 256) :
    isContiguousIPv4Mask [a, b, c, d] = true ↔ IsOnesThenZeros (be32 a b c d) := by
  have hlt := be32_lt a b c d ha hb hc hd
  rw [← contiguous_test_iff _ hlt]
  simp only [isContiguousIPv4Mask, shift_or_eq_be32 a b c d hb hc hd, Nat.mod_eq_of_lt hlt]
  by_cases h0 : be32 a b c d = 0
  · simp [h0]
  · simp [h0]

/-- The rule of the subnet mask, as the code reads the value: for every string
`s` whose value `t`, once its surrounding white space is removed, is not
empty, `validateSubnetMask` reports no finding if and only if `t` is `/N` with
`N` a decimal number from 0 to 32, or `net.ParseIP` reads `t` and `IP.To4`
gives four bytes whose 32 bits are contiguous ones followed by contiguous
zeros. -/
theorem validateSubnetMask_accepts_iff_To4 :
    (∀ path s : Str, TrimSpace s ≠ [] →
      (validateSubnetMask path (some s) = none ↔
        (∃ n, n ≤ 32 ∧ TrimSpace s = '/' :: itoa n) ∨
        (∃ ip a b c d, ParseIP (TrimSpace s) = some ip ∧ To4 ip = some [a, b, c, d] ∧
          IsOnesThenZeros (be32 a b c d)))) ∧
    validateSubnetMask [] (some "/24".toList) = none ∧
    validateSubnetMask [] (some "255.255.255.0".toList) = none ∧
    validateSubnetMask [] (some "/33".toList) ≠ none ∧
    validateSubnetMask [] (some "255.255.0.255".toList) ≠ none := by
  refine ⟨?_, by decide, by decide, by decide, by decide⟩
  intro path s hne
  simp only [validateSubnetMask, strOrEmpty_some, hne, if_false]
  rw [← mem_lang_reSubnetPrefixOnly, ← RE.rmatch_iff]
  by_cases hre : reSubnetPrefixOnly.rmatch (TrimSpace s) = true
  · simp [hre]
  · simp only [hre, Bool.false_eq_true, if_false, false_or]
    cases hip : ParseIP (TrimSpace s) with
    | none => simp
    | some ip =>
      cases h4 : To4 ip with
      | none =>
        simp only [h4, reduceCtorEq, false_iff, not_exists, not_and]
        intro ip1 a b c d hip1 h41
        simp only [Option.some.injEq] at hip1
        subst hip1
        rw [h4] at h41
        exact absurd h41 (by simp)
      | some mask =>
        obtain ⟨hlen, hbytes⟩ := To4_bytes ip mask h4 (ParseIP_bytes _ ip hip)
        match mask, hlen, hbytes, h4 with
        | [a, b, c, d], _, hbytes, h4 =>
          simp only [h4]
          have hiff := isContiguousIPv4Mask_iff a b c d (hbytes a (by simp)) (hbytes b (by simp))
            (hbytes c (by simp)) (hbytes d (by simp))
          by_cases hc : isContiguousIPv4Mask [a, b, c, d] = true
          · simp only [hc, Bool.not_true, Bool.false_eq_true, if_false, true_iff]
            exact ⟨ip, a, b, c, d, rfl, h4, hiff.1 hc⟩
          · simp only [hc, Bool.not_false, if_true, reduceCtorEq, false_iff, not_exists, not_and]
            intro ip1 a1 b1 c1 d1 hip1 h41 h
            simp only [Option.some.injEq] at hip1
            subst hip1
            rw [h4] at h41
            simp only [Option.some.injEq, List.cons.injEq, and_true] at h41
            obtain ⟨rfl, rfl, rfl, rfl⟩ := h41
            exact hc (hiff.2 h)

/-! ## Decimal indices and paths -/

theorem digitVal_digitChar (d : Nat) (h : d < 10) : digitVal (digitChar d) = d := by
  interval_cases d <;> decide

theorem isDigit_digitChar (d : Nat) (h : d < 10) : isDigit (digitChar d) = true := by
  interval_cases d <;> decide

/-- The worker of `itoa` writes the decimal digits of `n`, most significant
first, in front of `acc`. -/
theorem itoaAux_eq (fuel : Nat) :
    ∀ (n : Nat) (acc : Str), 0 < n → n < fuel →
      itoaAux fuel n acc = ((Nat.digits 10 n).reverse.map digitChar) ++ acc := by
  induction fuel with
  | zero => intro n acc _ h; omega
  | succ f ih =>
    intro n acc hpos hlt
    rw [itoaAux, Nat.digits_def' (by omega) hpos]
    by_cases h0 : n / 10 = 0
    · simp [h0]
    · rw [if_neg h0, ih (n / 10) _ (by omega) (by omega)]
      simp

theorem itoa_eq (n : Nat) :
    itoa n = if n = 0 then ['0'] else (Nat.digits 10 n).reverse.map digitChar := by
  by_cases h : n = 0
  · subst h
    rfl
  · rw [if_neg h, itoa, itoaAux_eq (n + 1) n [] (by omega) (by omega), List.append_nil]

theorem itoa_digits (n : Nat) : ∀ c ∈ itoa n, isDigit c = true := by
  intro c hc
  rw [itoa_eq] at hc
  by_cases h : n = 0
  · rw [if_pos h] at hc
    simp only [List.mem_singleton] at hc
    subst hc
    decide
  · rw [if_neg h] at hc
    obtain ⟨d, hd, rfl⟩ := List.mem_map.1 hc
    exact isDigit_digitChar d (Nat.digits_lt_base (by omega) (List.mem_reverse.1 hd))

theorem itoa_value (n : Nat) : Nat.ofDigits 10 ((itoa n).reverse.map digitVal) = n := by
  rw [itoa_eq]
  by_cases h : n = 0
  · subst h
    decide
  · rw [if_neg h, ← List.map_reverse, List.reverse_reverse, List.map_map]
    have : List.map (digitVal ∘ digitChar) (Nat.digits 10 n) = Nat.digits 10 n := by
      conv_rhs => rw [← List.map_id (Nat.digits 10 n)]
      apply List.map_congr_left
      intro d hd
      exact digitVal_digitChar d (Nat.digits_lt_base (by omega) hd)
    rw [this, Nat.ofDigits_digits]

theorem itoa_injective {i j : Nat} (h : itoa i = itoa j) : i = j := by
  rw [← itoa_value i, ← itoa_value j, h]

theorem append_cons_inj {α : Type} (a : α) :
    ∀ (l1 l2 r1 r2 : List α), a ∉ l1 → a ∉ l2 → l1 ++ a :: r1 = l2 ++ a :: r2 →
      l1 = l2 ∧ r1 = r2 := by
  intro l1
  induction l1 with
  | nil =>
    intro l2 r1 r2 _ h2 h
    cases l2 with
    | nil => simpa using h
    | cons b t =>
      simp only [List.nil_append, List.cons_append, List.cons.injEq] at h
      exact absurd (by simp [h.1]) h2
  | cons c t ih =>
    intro l2 r1 r2 h1 h2 h
    cases l2 with
    | nil =>
      simp only [List.nil_append, List.cons_append, List.cons.injEq] at h
      exact absurd (by simp [h.1]) h1
    | cons b t2 =>
      simp only [List.cons_append, List.cons.injEq] at h
      obtain ⟨h3, h4⟩ := ih t2 r1 r2 (fun hm => h1 (List.mem_cons_of_mem _ hm))
        (fun hm => h2 (List.mem_cons_of_mem _ hm)) h.2
      exact ⟨by rw [h.1, h3], h4⟩

/-- Two paths `…[i]…` that agree from the index on have the same index and the
same rest. -/
theorem itoa_bracket_inj (i j : Nat) (r r1 : Str) :
    itoa i ++ ']' :: r = itoa j ++ ']' :: r1 ↔ i = j ∧ r = r1 := by
  constructor
  · intro h
    have hi : ']' ∉ itoa i := fun hm => absurd (itoa_digits i _ hm) (by decide)
    have hj : ']' ∉ itoa j := fun hm => absurd (itoa_digits j _ hm) (by decide)
    obtain ⟨h1, h3⟩ := append_cons_inj _ _ _ _ _ hi hj h
    exact ⟨itoa_injective h1, h3⟩
  · rintro ⟨rfl, rfl⟩
    rfl

/-! ## The findings of a document -/

theorem pathsOfErrors_append (a b : List ValidationError) :
    pathsOfErrors (a ++ b) = pathsOfErrors a ++ pathsOfErrors b := by
  induction a with
  | nil => simp [pathsOfErrors]
  | cons e es ih => simp [pathsOfErrors, ih]

theorem reportsAt_ToError (m : MultiError) (p : Str) :
    reportsAt (MultiError.ToError m) p ↔ p ∈ pathsOfErrors m := by
  unfold reportsAt MultiError.ToError
  by_cases h : m = []
  · subst h
    simp [pathsOfErrors]
  · simp [h, GoError.paths]

theorem mem_paths_add (m : MultiError) (q : Str) (err : Option GoError) (p : Str) :
    p ∈ pathsOfErrors (m.add q err) ↔
      p ∈ pathsOfErrors m ∨ ∃ e, err = some e ∧ (p = q ∨ p ∈ e.paths) := by
  cases err with
  | none => simp [MultiError.add]
  | some e =>
    simp [MultiError.add, pathsOfErrors_append, pathsOfErrors, ValidationError.paths]

/-- The paths added by a loop of `(*CI).Validate` over a sequence. -/
theorem mem_paths_rangeLoop {α : Type} (validate : α → Str → Option GoError) (pre : Str)
    (xs : List (Option α)) :
    ∀ (k : Nat) (me : MultiError) (p : Str),
      p ∈ pathsOfErrors (rangeLoop (elementBody validate pre) k xs me) ↔
        p ∈ pathsOfErrors me ∨
        ∃ i x err, xs.get? i = some (some x) ∧ validate x (indexPath pre (k + i)) = some err ∧
          (p = [] ∨ p ∈ err.paths) := by
  induction xs with
  | nil =>
    intro k me p
    simp [rangeLoop]
  | cons v vs ih =>
    intro k me p
    rw [rangeLoop, ih]
    have hshift : (∃ i x err, vs.get? i = some (some x) ∧
          validate x (indexPath pre (k + 1 + i)) = some err ∧ (p = [] ∨ p ∈ err.paths)) ↔
        ∃ i x err, (v :: vs).get? (i + 1) = some (some x) ∧
          validate x (indexPath pre (k + (i + 1))) = some err ∧ (p = [] ∨ p ∈ err.paths) := by
      have he : ∀ i, k + 1 + i = k + (i + 1) := fun i => by omega
      constructor
      · rintro ⟨i, x, err, h1, h2, h3⟩
        rw [he] at h2
        exact ⟨i, x, err, by simpa using h1, h2, h3⟩
      · rintro ⟨i, x, err, h1, h2, h3⟩
        rw [← he] at h2
        exact ⟨i, x, err, by simpa using h1, h2, h3⟩
    have hsplit : (∃ i x err, (v :: vs).get? i = some (some x) ∧
          validate x (indexPath pre (k + i)) = some err ∧ (p = [] ∨ p ∈ err.paths)) ↔
        (∃ x err, v = some x ∧ validate x (indexPath pre k) = some err ∧
          (p = [] ∨ p ∈ err.paths)) ∨
        ∃ i x err, (v :: vs).get? (i + 1) = some (some x) ∧
          validate x (indexPath pre (k + (i + 1))) = some err ∧ (p = [] ∨ p ∈ err.paths) := by
      constructor
      · rintro ⟨i, x, err, h1, h2, h3⟩
        cases i with
        | zero =>
          left
          exact ⟨x, err, by simpa using h1, by simpa using h2, h3⟩
        | succ i => exact Or.inr ⟨i, x, err, h1, h2, h3⟩
      · rintro (⟨x, err, h1, h2, h3⟩ | ⟨i, x, err, h1, h2, h3⟩)
        · exact ⟨0, x, err, by simp [h1], by simpa using h2, h3⟩
        · exact ⟨i + 1, x, err, h1, h2, h3⟩
    rw [hshift, hsplit]
    have hbody : p ∈ pathsOfErrors (elementBody validate pre k v me) ↔
        p ∈ pathsOfErrors me ∨ ∃ x err, v = some x ∧ validate x (indexPath pre k) = some err ∧
          (p = [] ∨ p ∈ err.paths) := by
      cases v with
      | none => simp [elementBody]
      | some x =>
        cases hv : validate x (indexPath pre k) with
        | none => simp [elementBody, hv]
        | some err => simp [elementBody, hv, mem_paths_add]
    rw [hbody, or_assoc]

theorem Elem_error_version (c : CI) (i : Nat) (err : GoError) :
    Elem.error c (.version i) = some err ↔
      ∃ v, c.Versions.get? i = some (some v) ∧
        Version.Validate v (indexPath "ci.versions".toList i) = some err := by
  simp only [Elem.error, Elem.path]
  cases h : c.Versions.get? i with
  | none => simp
  | some o =>
    cases o with
    | none => simp
    | some v => simp

theorem Elem_error_auditVersion (c : CI) (i : Nat) (err : GoError) :
    Elem.error c (.auditVersion i) = some err ↔
      ∃ v, c.AuditVersions.get? i = some (some v) ∧
        AuditVersion.Validate v (indexPath "ci.audit_versions".toList i) = some err := by
  simp only [Elem.error, Elem.path]
  cases h : c.AuditVersions.get? i with
  | none => simp
  | some o =>
    cases o with
    | none => simp
    | some v => simp

theorem Elem_error_releaseVersion (c : CI) (i : Nat) (err : GoError) :
    Elem.error c (.releaseVersion i) = some err ↔
      ∃ v, c.ReleaseVersions.get? i = some (some v) ∧
        ReleaseVersion.Validate v (indexPath "ci.release_versions".toList i) = some err := by
  simp only [Elem.error, Elem.path]
  cases h : c.ReleaseVersions.get? i with
  | none => simp
  | some o =>
    cases o with
    | none => simp
    | some v => simp

theorem Elem_error_requirement (c : CI) (i : Nat) (err : GoError) :
    Elem.error c (.requirement i) = some err ↔
      ∃ v, c.Requirements.get? i = some (some v) ∧
        Requirement.Validate v (indexPath "ci.requirements".toList i) = some err := by
  simp only [Elem.error, Elem.path]
  cases h : c.Requirements.get? i with
  | none => simp
  | some o =>
    cases o with
    | none => simp
    | some v => simp

theorem Elem_error_surroundingSystem (c : CI) (i : Nat) (err : GoError) :
    Elem.error c (.surroundingSystem i) = some err ↔
      ∃ v, c.SurroundingSystems.get? i = some (some v) ∧
        SurroundingSystem.Validate v (indexPath "ci.surrounding_systems".toList i) = some err := by
  simp only [Elem.error, Elem.path]
  cases h : c.SurroundingSystems.get? i with
  | none => simp
  | some o =>
    cases o with
    | none => simp
    | some v => simp

theorem Elem_error_interface (c : CI) (i : Nat) (err : GoError) :
    Elem.error c (.interface i) = some err ↔
      ∃ v, c.Interfaces.get? i = some (some v) ∧
        Interface.Validate v (indexPath "ci.interfaces".toList i) = some err := by
  simp only [Elem.error, Elem.path]
  cases h : c.Interfaces.get? i with
  | none => simp
  | some o =>
    cases o with
    | none => simp
    | some v => simp

theorem loop_elem_iff {α : Type} (validate : α → Str → Option GoError) (pre : Str)
    (xs : List (Option α)) (P : GoError → Prop) (f : Nat → Option GoError)
    (hf : ∀ i err, f i = some err ↔
      ∃ v, xs.get? i = some (some v) ∧ validate v (indexPath pre i) = some err) :
    (∃ i x err, xs.get? i = some (some x) ∧ validate x (indexPath pre (0 + i)) = some err ∧
      P err) ↔ ∃ i err, f i = some err ∧ P err := by
  constructor
  · rintro ⟨i, x, err, h1, h2, h3⟩
    rw [Nat.zero_add] at h2
    exact ⟨i, err, (hf i err).2 ⟨x, h1, h2⟩, h3⟩
  · rintro ⟨i, err, h1, h3⟩
    obtain ⟨x, hx, hv⟩ := (hf i err).1 h1
    exact ⟨i, x, err, hx, by rw [Nat.zero_add]; exact hv, h3⟩

/-- The paths that `(*CI).Validate` reports are the empty path, under which the
error of an element is added, and the paths of the errors of the elements. -/
theorem reportsAt_CI_Validate (c : CI) (p : Str) :
    reportsAt c.Validate p ↔ ∃ e err, Elem.error c e = some err ∧ (p = [] ∨ p ∈ err.paths) := by
  have hR : (∃ e err, Elem.error c e = some err ∧ (p = [] ∨ p ∈ err.paths)) ↔
      (∃ i err, Elem.error c (.version i) = some err ∧ (p = [] ∨ p ∈ err.paths)) ∨
      (∃ i err, Elem.error c (.auditVersion i) = some err ∧ (p = [] ∨ p ∈ err.paths)) ∨
      (∃ i err, Elem.error c (.releaseVersion i) = some err ∧ (p = [] ∨ p ∈ err.paths)) ∨
      (∃ i err, Elem.error c (.requirement i) = some err ∧ (p = [] ∨ p ∈ err.paths)) ∨
      (∃ i err, Elem.error c (.surroundingSystem i) = some err ∧ (p = [] ∨ p ∈ err.paths)) ∨
      (∃ err, Elem.error c .description = some err ∧ (p = [] ∨ p ∈ err.paths)) ∨
      (∃ err, Elem.error c .configuration = some err ∧ (p = [] ∨ p ∈ err.paths)) ∨
      (∃ i err, Elem.error c (.interface i) = some err ∧ (p = [] ∨ p ∈ err.paths)) := by
    constructor
    · rintro ⟨e, err, h⟩
      cases e with
      | version i => exact Or.inl ⟨i, err, h⟩
      | auditVersion i => exact Or.inr (Or.inl ⟨i, err, h⟩)
      | releaseVersion i => exact Or.inr (Or.inr (Or.inl ⟨i, err, h⟩))
      | requirement i => exact Or.inr (Or.inr (Or.inr (Or.inl ⟨i, err, h⟩)))
      | surroundingSystem i => exact Or.inr (Or.inr (Or.inr (Or.inr (Or.inl ⟨i, err, h⟩))))
      | description => exact Or.inr (Or.inr (Or.inr (Or.inr (Or.inr (Or.inl ⟨err, h⟩)))))
      | configuration =>
        exact Or.inr (Or.inr (Or.inr (Or.inr (Or.inr (Or.inr (Or.inl ⟨err, h⟩))))))
      | interface i =>
        exact Or.inr (Or.inr (Or.inr (Or.inr (Or.inr (Or.inr (Or.inr ⟨i, err, h⟩))))))
    · rintro (⟨i, err, h⟩ | ⟨i, err, h⟩ | ⟨i, err, h⟩ | ⟨i, err, h⟩ | ⟨i, err, h⟩ | ⟨err, h⟩ |
        ⟨err, h⟩ | ⟨i, err, h⟩)
      · exact ⟨_, err, h⟩
      · exact ⟨_, err, h⟩
      · exact ⟨_, err, h⟩
      · exact ⟨_, err, h⟩
      · exact ⟨_, err, h⟩
      · exact ⟨_, err, h⟩
      · exact ⟨_, err, h⟩
      · exact ⟨_, err, h⟩
  rw [hR]
  unfold CI.Validate
  simp only [reportsAt_ToError, mem_paths_rangeLoop]
  rw [loop_elem_iff Interface.Validate "ci.interfaces".toList c.Interfaces _
    (fun i => Elem.error c (.interface i)) (Elem_error_interface c)]
  have hD : ∀ me : MultiError,
      p ∈ pathsOfErrors
        (pointerBody Description.Validate "ci.description".toList c.Description me) ↔
      p ∈ pathsOfErrors me ∨
        ∃ err, Elem.error c .description = some err ∧ (p = [] ∨ p ∈ err.paths) := by
    intro me
    cases hd : c.Description with
    | none => simp [Elem.error, hd, pointerBody]
    | some d =>
      simp only [Elem.error, hd, Elem.path, pointerBody]
      cases hv : d.Validate "ci.description".toList with
      | none => simp
      | some err => simp [mem_paths_add]
  have hC : ∀ me : MultiError,
      p ∈ pathsOfErrors
        (pointerBody Configuration.Validate "ci.configuration".toList c.Configuration me) ↔
      p ∈ pathsOfErrors me ∨
        ∃ err, Elem.error c .configuration = some err ∧ (p = [] ∨ p ∈ err.paths) := by
    intro me
    cases hd : c.Configuration with
    | none => simp [Elem.error, hd, pointerBody]
    | some d =>
      simp only [Elem.error, hd, Elem.path, pointerBody]
      cases hv : d.Validate "ci.configuration".toList with
      | none => simp
      | some err => simp [mem_paths_add]
  rw [hC, hD]
  simp only [mem_paths_rangeLoop]
  rw [loop_elem_iff SurroundingSystem.Validate "ci.surrounding_systems".toList c.SurroundingSystems _
      (fun i => Elem.error c (.surroundingSystem i)) (Elem_error_surroundingSystem c),
    loop_elem_iff Requirement.Validate "ci.requirements".toList c.Requirements _
      (fun i => Elem.error c (.requirement i)) (Elem_error_requirement c),
    loop_elem_iff ReleaseVersion.Validate "ci.release_versions".toList c.ReleaseVersions _
      (fun i => Elem.error c (.releaseVersion i)) (Elem_error_releaseVersion c),
    loop_elem_iff AuditVersion.Validate "ci.audit_versions".toList c.AuditVersions _
      (fun i => Elem.error c (.auditVersion i)) (Elem_error_auditVersion c),
    loop_elem_iff Version.Validate "ci.versions".toList c.Versions _
      (fun i => Elem.error c (.version i)) (Elem_error_version c)]
  simp only [pathsOfErrors, List.not_mem_nil, false_or, or_assoc]

/-- The path of an element determines the element: two paths under elements
that are equal come from the same element and have the same rest. -/
theorem Elem_path_inj (e e1 : Elem) (r r1 : Str) (h : e.path ++ r = e1.path ++ r1) :
    e = e1 ∧ r = r1 := by
  cases e <;> cases e1 <;>
    simp only [Elem.path, indexPath, String.toList, List.append_assoc, List.cons_append,
      List.nil_append, List.cons.injEq, itoa_bracket_inj, Char.reduceEq, false_and, and_false,
      true_and] at h <;>
    first
      | exact absurd h id
      | (obtain ⟨rfl, rfl⟩ := h; exact ⟨rfl, rfl⟩)

theorem Elem_path_ne_nil (e : Elem) (r : Str) : e.path ++ r ≠ [] := by
  cases e <;> simp [Elem.path, indexPath]

/-! ## The findings of an element -/

/-- A rule whose error, when there is one, is a plain `fmt.Errorf` error. -/
theorem mem_paths_add_leaf (m : MultiError) (q : Str) (err : Option GoError) (p : Str)
    (hleaf : ∀ e, err = some e → e.paths = []) :
    p ∈ pathsOfErrors (m.add q err) ↔ p ∈ pathsOfErrors m ∨ (p = q ∧ err ≠ none) := by
  rw [mem_paths_add]
  cases err with
  | none => simp
  | some e => simp [hleaf e rfl]

theorem validateDate_leaf (q : Str) (v : Option Str) :
    ∀ e, validateDate q v = some e → e.paths = [] := by
  intro e h
  unfold validateDate at h
  try dsimp only at h
  repeat' split at h
  all_goals first | (cases h; done) | (cases h; rfl)

theorem validateVersionNumber_leaf (q : Str) (v : Option Str) :
    ∀ e, validateVersionNumber q v = some e → e.paths = [] := by
  intro e h
  unfold validateVersionNumber at h
  try dsimp only at h
  repeat' split at h
  all_goals first | (cases h; done) | (cases h; rfl)

theorem validateNonNegativeInt_leaf (q : Str) (v : Option Int) :
    ∀ e, validateNonNegativeInt q v = some e → e.paths = [] := by
  intro e h
  unfold validateNonNegativeInt at h
  try dsimp only at h
  repeat' split at h
  all_goals first | (cases h; done) | (cases h; rfl)

theorem validateVLAN_leaf (q : Str) (v : Option Int) :
    ∀ e, validateVLAN q v = some e → e.paths = [] := by
  intro e h
  unfold validateVLAN at h
  try dsimp only at h
  repeat' split at h
  all_goals first | (cases h; done) | (cases h; rfl)

theorem validateIP_leaf (q : Str) (v : Option Str) :
    ∀ e, validateIP q v = some e → e.paths = [] := by
  intro e h
  unfold validateIP at h
  try dsimp only at h
  repeat' split at h
  all_goals first | (cases h; done) | (cases h; rfl)

theorem validateFQDN_leaf (q : Str) (v : Option Str) :
    ∀ e, validateFQDN q v = some e → e.paths = [] := by
  intro e h
  unfold validateFQDN at h
  try dsimp only at h
  repeat' split at h
  all_goals first | (cases h; done) | (cases h; rfl)

theorem validateSubnetMask_leaf (q : Str) (v : Option Str) :
    ∀ e, validateSubnetMask q v = some e → e.paths = [] := by
  intro e h
  unfold validateSubnetMask at h
  try dsimp only at h
  repeat' split at h
  all_goals first | (cases h; done) | (cases h; rfl)

theorem validateHostnameOrIP_leaf (q : Str) (v : Option Str) :
    ∀ e, validateHostnameOrIP q v = some e → e.paths = [] := by
  intro e h
  unfold validateHostnameOrIP at h
  try dsimp only at h
  repeat' split at h
  all_goals first | (cases h; done) | (cases h; rfl)

theorem prefixRangeCheck_leaf (v : Option Str) :
    ∀ e, prefixRangeCheck v = some e → e.paths = [] := by
  intro e h
  unfold prefixRangeCheck at h
  try dsimp only at h
  repeat' split at h
  all_goals first | (cases h; done) | (cases h; rfl)

/-- The paths inside the error of `validateIPList` are paths of entries of the
list. -/
theorem validateIPList_paths (q : Str) (list : List (Option Str)) (e : GoError) (p : Str)
    (h : validateIPList q list = some e) (hp : p ∈ e.paths) : ∃ k, p = indexPath q k := by
  rw [validateIPList_eq] at h
  unfold MultiError.ToError at h
  split_ifs at h
  simp only [Option.some.injEq] at h
  subst h
  simp only [GoError.paths] at hp
  generalize ipFindingsFrom [] list = fs at hp
  induction fs with
  | nil => simp [pathsOfErrors] at hp
  | cons f fs ih =>
    simp only [List.map_cons, pathsOfErrors, ipFindingError, ValidationError.paths,
      GoError.paths, List.mem_append, List.mem_cons, List.not_mem_nil, or_false] at hp
    rcases hp with rfl | hp
    · exact ⟨f.1, rfl⟩
    · exact ih hp

/-- Whether `validateIPList` reports a finding does not depend on the path. -/
theorem validateIPList_none_iff (q q1 : Str) (list : List (Option Str)) :
    validateIPList q list = none ↔ validateIPList q1 list = none := by
  rw [validateIPList_eq, validateIPList_eq]
  unfold MultiError.ToError
  cases ipFindingsFrom [] list <;> simp

theorem reportsAt_Version (v : Version) (path p : Str) :
    reportsAt (v.Validate path) p ↔
      (p = path ++ ".number".toList ∧
        validateVersionNumber (path ++ ".number".toList) v.Number ≠ none) ∨
      (p = path ++ ".date".toList ∧ validateDate (path ++ ".date".toList) v.Date ≠ none) := by
  unfold Version.Validate
  simp only [reportsAt_ToError]
  rw [mem_paths_add_leaf _ _ _ _ (validateDate_leaf _ _),
    mem_paths_add_leaf _ _ _ _ (validateVersionNumber_leaf _ _)]
  simp [pathsOfErrors]

theorem reportsAt_AuditVersion (v : AuditVersion) (path p : Str) :
    reportsAt (v.Validate path) p ↔
      (p = path ++ ".number".toList ∧
        validateVersionNumber (path ++ ".number".toList) v.Number ≠ none) ∨
      (p = path ++ ".date".toList ∧ validateDate (path ++ ".date".toList) v.Date ≠ none) := by
  unfold AuditVersion.Validate
  simp only [reportsAt_ToError]
  rw [mem_paths_add_leaf _ _ _ _ (validateDate_leaf _ _),
    mem_paths_add_leaf _ _ _ _ (validateVersionNumber_leaf _ _)]
  simp [pathsOfErrors]

theorem reportsAt_ReleaseVersion (v : ReleaseVersion) (path p : Str) :
    reportsAt (v.Validate path) p ↔
      (p = path ++ ".number".toList ∧
        validateVersionNumber (path ++ ".number".toList) v.Number ≠ none) ∨
      (p = path ++ ".date".toList ∧ validateDate (path ++ ".date".toList) v.Date ≠ none) := by
  unfold ReleaseVersion.Validate
  simp only [reportsAt_ToError]
  rw [mem_paths_add_leaf _ _ _ _ (validateDate_leaf _ _),
    mem_paths_add_leaf _ _ _ _ (validateVersionNumber_leaf _ _)]
  simp [pathsOfErrors]

theorem reportsAt_Requirement (v : Requirement) (path p : Str) :
    ¬ reportsAt (v.Validate path) p := by
  simp [reportsAt, Requirement.Validate]

theorem reportsAt_SurroundingSystem (v : SurroundingSystem) (path p : Str) :
    reportsAt (v.Validate path) p ↔
      (p = path ++ ".address".toList ∧
        validateHostnameOrIP (path ++ ".address".toList) v.Address ≠ none) := by
  unfold SurroundingSystem.Validate
  simp only [reportsAt_ToError]
  rw [mem_paths_add_leaf _ _ _ _ (validateHostnameOrIP_leaf _ _)]
  simp [pathsOfErrors]

theorem reportsAt_Description (v : Description) (path p : Str) :
    reportsAt (v.Validate path) p ↔
      (p = path ++ ".disaster_lvl".toList ∧
        validateNonNegativeInt (path ++ ".disaster_lvl".toList) v.DisasterLvl ≠ none) := by
  unfold Description.Validate
  simp only [reportsAt_ToError]
  rw [mem_paths_add_leaf _ _ _ _ (validateNonNegativeInt_leaf _ _)]
  simp [pathsOfErrors]

theorem reportsAt_Configuration (v : Configuration) (path p : Str) :
    reportsAt (v.Validate path) p ↔
      (p = path ++ ".fqdn".toList ∧ validateFQDN (path ++ ".fqdn".toList) v.FQDN ≠ none) ∨
      (p = path ++ ".ram".toList ∧
        validateNonNegativeInt (path ++ ".ram".toList) v.RAM ≠ none) ∨
      (p = path ++ ".cpu".toList ∧
        validateNonNegativeInt (path ++ ".cpu".toList) v.CPU ≠ none) ∨
      (p = path ++ ".ntp".toList ∧ validateIPList (path ++ ".ntp".toList) v.NTP ≠ none) ∨
      (∃ e, validateIPList (path ++ ".ntp".toList) v.NTP = some e ∧ p ∈ e.paths) := by
  unfold Configuration.Validate
  simp only [reportsAt_ToError]
  rw [mem_paths_add, mem_paths_add_leaf _ _ _ _ (validateNonNegativeInt_leaf _ _),
    mem_paths_add_leaf _ _ _ _ (validateNonNegativeInt_leaf _ _),
    mem_paths_add_leaf _ _ _ _ (validateFQDN_leaf _ _)]
  simp only [pathsOfErrors, List.not_mem_nil, false_or, or_assoc]
  cases validateIPList (path ++ ".ntp".toList) v.NTP <;> simp

theorem reportsAt_Interface (v : Interface) (path p : Str) :
    reportsAt (v.Validate path) p ↔
      (p = path ++ ".vlan".toList ∧ validateVLAN (path ++ ".vlan".toList) v.VLAN ≠ none) ∨
      (p = path ++ ".ip".toList ∧ validateIP (path ++ ".ip".toList) v.IP ≠ none) ∨
      (p = path ++ ".subnet".toList ∧
        validateSubnetMask (path ++ ".subnet".toList) v.Subnet ≠ none) ∨
      (p = path ++ ".dns".toList ∧ validateIPList (path ++ ".dns".toList) v.DNS ≠ none) ∨
      (∃ e, validateIPList (path ++ ".dns".toList) v.DNS = some e ∧ p ∈ e.paths) ∨
      (p = path ++ ".subnet".toList ∧ prefixRangeCheck v.Subnet ≠ none) := by
  unfold Interface.Validate
  simp only [reportsAt_ToError, ite_self]
  rw [mem_paths_add_leaf _ _ _ _ (prefixRangeCheck_leaf _), mem_paths_add,
    mem_paths_add_leaf _ _ _ _ (validateSubnetMask_leaf _ _),
    mem_paths_add_leaf _ _ _ _ (validateIP_leaf _ _),
    mem_paths_add_leaf _ _ _ _ (validateVLAN_leaf _ _)]
  simp only [pathsOfErrors, List.not_mem_nil, false_or, or_assoc]
  cases validateIPList (path ++ ".dns".toList) v.DNS <;> simp [or_assoc]

/-! ## The subnet prefix check of an interface -/

theorem ParseIP_slash (rest : Str) : ParseIP ('/' :: rest) = none := by
  unfold ParseIP
  split
  · simp [parseIPv4, parseIPv4Fields, isDigit]
  · unfold parseIPv6
    split_ifs
    · rfl
    · simp [parseIPv6Loop, scanHex, hexVal, isDigit]
  · rfl

theorem Atoi_itoa_small (m : Nat) (h : m ≤ 32) : Atoi (itoa m) = some (m : Int) := by
  interval_cases m <;> decide

/-- The last check of `(*Interface).Validate` fires only on a subnet that
`validateSubnetMask` rejects. -/
theorem prefixRangeCheck_imp (q : Str) (s : Option Str) (h : prefixRangeCheck s ≠ none) :
    validateSubnetMask q s ≠ none := by
  unfold prefixRangeCheck at h
  split at h
  · rename_i rest hs
    split_ifs at h with hlen
    · cases ha : Atoi rest with
      | none => simp [ha] at h
      | some n =>
        simp only [ha] at h
        split_ifs at h with hn
        · intro hv
          unfold validateSubnetMask at hv
          simp only [hs, reduceCtorEq, if_false, ParseIP_slash] at hv
          split_ifs at hv with hre
          rw [RE.rmatch_iff, mem_lang_reSubnetPrefixOnly] at hre
          obtain ⟨m, hm, heq⟩ := hre
          simp only [List.cons.injEq, true_and] at heq
          rw [heq, Atoi_itoa_small m hm] at ha
          simp only [Option.some.injEq] at ha
          omega
        · exact absurd rfl h
    · exact absurd rfl h
  · exact absurd rfl h

/-! ## Every field is reported on its own -/

/-- The paths of the error of an element lie under the path of the element. -/
theorem Elem_error_paths (c : CI) (e : Elem) (err : GoError) (p : Str)
    (h : Elem.error c e = some err) (hp : p ∈ err.paths) : ∃ r, p = e.path ++ r := by
  have hrep : reportsAt (Elem.error c e) p := ⟨err, h, hp⟩
  cases e with
  | version i =>
    obtain ⟨v, _, hv⟩ := (Elem_error_version c i err).1 h
    rw [h, ← hv, reportsAt_Version] at hrep
    rcases hrep with ⟨rfl, _⟩ | ⟨rfl, _⟩ <;> exact ⟨_, rfl⟩
  | auditVersion i =>
    obtain ⟨v, _, hv⟩ := (Elem_error_auditVersion c i err).1 h
    rw [h, ← hv, reportsAt_AuditVersion] at hrep
    rcases hrep with ⟨rfl, _⟩ | ⟨rfl, _⟩ <;> exact ⟨_, rfl⟩
  | releaseVersion i =>
    obtain ⟨v, _, hv⟩ := (Elem_error_releaseVersion c i err).1 h
    rw [h, ← hv, reportsAt_ReleaseVersion] at hrep
    rcases hrep with ⟨rfl, _⟩ | ⟨rfl, _⟩ <;> exact ⟨_, rfl⟩
  | requirement i =>
    obtain ⟨v, _, hv⟩ := (Elem_error_requirement c i err).1 h
    rw [h, ← hv] at hrep
    exact absurd hrep (reportsAt_Requirement _ _ _)
  | surroundingSystem i =>
    obtain ⟨v, _, hv⟩ := (Elem_error_surroundingSystem c i err).1 h
    rw [h, ← hv, reportsAt_SurroundingSystem] at hrep
    obtain ⟨rfl, _⟩ := hrep
    exact ⟨_, rfl⟩
  | description =>
    simp only [Elem.error] at h hrep
    cases hd : c.Description with
    | none => simp [hd] at h
    | some d =>
      simp only [hd, reportsAt_Description] at hrep
      obtain ⟨rfl, _⟩ := hrep
      exact ⟨_, rfl⟩
  | configuration =>
    simp only [Elem.error] at h hrep
    cases hd : c.Configuration with
    | none => simp [hd] at h
    | some d =>
      simp only [hd, reportsAt_Configuration] at hrep
      rcases hrep with ⟨rfl, _⟩ | ⟨rfl, _⟩ | ⟨rfl, _⟩ | ⟨rfl, _⟩ | ⟨e1, he1, hp1⟩
      · exact ⟨_, rfl⟩
      · exact ⟨_, rfl⟩
      · exact ⟨_, rfl⟩
      · exact ⟨_, rfl⟩
      · obtain ⟨k, rfl⟩ := validateIPList_paths _ _ _ _ he1 hp1
        exact ⟨".ntp".toList ++ ("[".toList ++ (itoa k ++ "]".toList)),
          by simp only [indexPath, List.append_assoc]⟩
  | interface i =>
    obtain ⟨v, _, hv⟩ := (Elem_error_interface c i err).1 h
    rw [h, ← hv, reportsAt_Interface] at hrep
    rcases hrep with ⟨rfl, _⟩ | ⟨rfl, _⟩ | ⟨rfl, _⟩ | ⟨rfl, _⟩ | ⟨e1, he1, hp1⟩ | ⟨rfl, _⟩
    · exact ⟨_, rfl⟩
    · exact ⟨_, rfl⟩
    · exact ⟨_, rfl⟩
    · exact ⟨_, rfl⟩
    · obtain ⟨k, rfl⟩ := validateIPList_paths _ _ _ _ he1 hp1
      exact ⟨".dns".toList ++ ("[".toList ++ (itoa k ++ "]".toList)),
        by simp only [indexPath, Elem.path, List.append_assoc]⟩
    · exact ⟨_, rfl⟩

/-- A path under an element is reported by `(*CI).Validate` exactly when the
method `Validate` of that element reports it: the other elements add nothing
to it and take nothing from it. -/
theorem reportsAt_CI_elem (c : CI) (e : Elem) (r : Str) :
    reportsAt c.Validate (e.path ++ r) ↔ reportsAt (Elem.error c e) (e.path ++ r) := by
  rw [reportsAt_CI_Validate]
  constructor
  · rintro ⟨e1, err, h1, h2⟩
    rcases h2 with h2 | h2
    · exact absurd h2 (Elem_path_ne_nil e r)
    · obtain ⟨r1, hr1⟩ := Elem_error_paths c e1 err _ h1 h2
      obtain ⟨rfl, _⟩ := Elem_path_inj e e1 r r1 hr1
      exact ⟨err, h1, h2⟩
  · rintro ⟨err, h1, h2⟩
    exact ⟨e, err, h1, Or.inr h2⟩

theorem not_mem_paths_validateIPList (q : Str) (list : List (Option Str)) (path suffix : Str)
    (hne : ∀ k, path ++ suffix ≠ indexPath q k) :
    ¬ ∃ e, validateIPList q list = some e ∧ path ++ suffix ∈ e.paths := by
  rintro ⟨e, he, hp⟩
  obtain ⟨k, hk⟩ := validateIPList_paths q list e _ he hp
  exact hne k hk

theorem Version_fields (v : Version) (path : Str) :
    (reportsAt (v.Validate path) (path ++ ".number".toList) ↔
      validateVersionNumber (path ++ ".number".toList) v.Number ≠ none) ∧
    (reportsAt (v.Validate path) (path ++ ".date".toList) ↔
      validateDate (path ++ ".date".toList) v.Date ≠ none) := by
  constructor <;> rw [reportsAt_Version] <;> simp

theorem AuditVersion_fields (v : AuditVersion) (path : Str) :
    (reportsAt (v.Validate path) (path ++ ".number".toList) ↔
      validateVersionNumber (path ++ ".number".toList) v.Number ≠ none) ∧
    (reportsAt (v.Validate path) (path ++ ".date".toList) ↔
      validateDate (path ++ ".date".toList) v.Date ≠ none) := by
  constructor <;> rw [reportsAt_AuditVersion] <;> simp

theorem ReleaseVersion_fields (v : ReleaseVersion) (path : Str) :
    (reportsAt (v.Validate path) (path ++ ".number".toList) ↔
      validateVersionNumber (path ++ ".number".toList) v.Number ≠ none) ∧
    (reportsAt (v.Validate path) (path ++ ".date".toList) ↔
      validateDate (path ++ ".date".toList) v.Date ≠ none) := by
  constructor <;> rw [reportsAt_ReleaseVersion] <;> simp

theorem Configuration_fields (v : Configuration) (path : Str) :
    (reportsAt (v.Validate path) (path ++ ".fqdn".toList) ↔
      validateFQDN (path ++ ".fqdn".toList) v.FQDN ≠ none) ∧
    (reportsAt (v.Validate path) (path ++ ".ram".toList) ↔
      validateNonNegativeInt (path ++ ".ram".toList) v.RAM ≠ none) ∧
    (reportsAt (v.Validate path) (path ++ ".cpu".toList) ↔
      validateNonNegativeInt (path ++ ".cpu".toList) v.CPU ≠ none) ∧
    (reportsAt (v.Validate path) (path ++ ".ntp".toList) ↔
      validateIPList (path ++ ".ntp".toList) v.NTP ≠ none) := by
  have hno : ∀ suffix : Str, (∀ k, path ++ suffix ≠ indexPath (path ++ ".ntp".toList) k) →
      ¬ ∃ e, validateIPList (path ++ ".ntp".toList) v.NTP = some e ∧ path ++ suffix ∈ e.paths :=
    fun suffix h => not_mem_paths_validateIPList _ _ _ _ h
  refine ⟨?_, ?_, ?_, ?_⟩ <;> rw [reportsAt_Configuration] <;> constructor
  all_goals first
    | (rintro (⟨h, hr⟩ | ⟨h, hr⟩ | ⟨h, hr⟩ | ⟨h, hr⟩ | hex)
       all_goals first
         | exact hr
         | (exfalso; simp at h)
         | (exfalso; exact hno _ (by intro k; simp [indexPath]) hex))
    | (intro hr
       first
         | exact Or.inl ⟨rfl, hr⟩
         | exact Or.inr (Or.inl ⟨rfl, hr⟩)
         | exact Or.inr (Or.inr (Or.inl ⟨rfl, hr⟩))
         | exact Or.inr (Or.inr (Or.inr (Or.inl ⟨rfl, hr⟩))))

theorem Interface_fields (v : Interface) (path : Str) :
    (reportsAt (v.Validate path) (path ++ ".vlan".toList) ↔
      validateVLAN (path ++ ".vlan".toList) v.VLAN ≠ none) ∧
    (reportsAt (v.Validate path) (path ++ ".ip".toList) ↔
      validateIP (path ++ ".ip".toList) v.IP ≠ none) ∧
    (reportsAt (v.Validate path) (path ++ ".subnet".toList) ↔
      validateSubnetMask (path ++ ".subnet".toList) v.Subnet ≠ none) ∧
    (reportsAt (v.Validate path) (path ++ ".dns".toList) ↔
      validateIPList (path ++ ".dns".toList) v.DNS ≠ none) := by
  have hno : ∀ suffix : Str, (∀ k, path ++ suffix ≠ indexPath (path ++ ".dns".toList) k) →
      ¬ ∃ e, validateIPList (path ++ ".dns".toList) v.DNS = some e ∧ path ++ suffix ∈ e.paths :=
    fun suffix h => not_mem_paths_validateIPList _ _ _ _ h
  have hpre := prefixRangeCheck_imp (path ++ ".subnet".toList) v.Subnet
  refine ⟨?_, ?_, ?_, ?_⟩ <;> rw [reportsAt_Interface] <;> constructor
  all_goals first
    | (rintro (⟨h, hr⟩ | ⟨h, hr⟩ | ⟨h, hr⟩ | ⟨h, hr⟩ | hex | ⟨h, hr⟩)
       all_goals first
         | exact hr
         | exact hpre hr
         | (exfalso; simp at h)
         | (exfalso; exact hno _ (by intro k; simp [indexPath]) hex))
    | (intro hr
       first
         | exact Or.inl ⟨rfl, hr⟩
         | exact Or.inr (Or.inl ⟨rfl, hr⟩)
         | exact Or.inr (Or.inr (Or.inl ⟨rfl, hr⟩))
         | exact Or.inr (Or.inr (Or.inr (Or.inl ⟨rfl, hr⟩))))

/-- C1. For every document and every validated field (number and date of each
version, audit version and release version; address of each surrounding
system; description disaster level; configuration fqdn, ram, cpu and ntp;
interface vlan, ip, subnet and dns), `(*Root).Validate` reports a finding for
the path of the field if and only if the value of that field violates its rule,
whatever the other fields hold. -/
theorem Root_Validate_reports_each_field (c : CI) :
    (∀ i v, c.Versions.get? i = some (some v) →
      (reportsAt (Root.Validate (some ⟨some c⟩))
          (indexPath "ci.versions".toList i ++ ".number".toList) ↔
        validateVersionNumber (indexPath "ci.versions".toList i ++ ".number".toList)
          v.Number ≠ none) ∧
      (reportsAt (Root.Validate (some ⟨some c⟩))
          (indexPath "ci.versions".toList i ++ ".date".toList) ↔
        validateDate (indexPath "ci.versions".toList i ++ ".date".toList) v.Date ≠ none)) ∧
    (∀ i v, c.AuditVersions.get? i = some (some v) →
      (reportsAt (Root.Validate (some ⟨some c⟩))
          (indexPath "ci.audit_versions".toList i ++ ".number".toList) ↔
        validateVersionNumber (indexPath "ci.audit_versions".toList i ++ ".number".toList)
          v.Number ≠ none) ∧
      (reportsAt (Root.Validate (some ⟨some c⟩))
          (indexPath "ci.audit_versions".toList i ++ ".date".toList) ↔
        validateDate (indexPath "ci.audit_versions".toList i ++ ".date".toList)
          v.Date ≠ none)) ∧
    (∀ i v, c.ReleaseVersions.get? i = some (some v) →
      (reportsAt (Root.Validate (some ⟨some c⟩))
          (indexPath "ci.release_versions".toList i ++ ".number".toList) ↔
        validateVersionNumber (indexPath "ci.release_versions".toList i ++ ".number".toList)
          v.Number ≠ none) ∧
      (reportsAt (Root.Validate (some ⟨some c⟩))
          (indexPath "ci.release_versions".toList i ++ ".date".toList) ↔
        validateDate (indexPath "ci.release_versions".toList i ++ ".date".toList)
          v.Date ≠ none)) ∧
    (∀ i v, c.SurroundingSystems.get? i = some (some v) →
      (reportsAt (Root.Validate (some ⟨some c⟩))
          (indexPath "ci.surrounding_systems".toList i ++ ".address".toList) ↔
        validateHostnameOrIP (indexPath "ci.surrounding_systems".toList i ++ ".address".toList)
          v.Address ≠ none)) ∧
    (∀ d, c.Description = some d →
      (reportsAt (Root.Validate (some ⟨some c⟩))
          ("ci.description".toList ++ ".disaster_lvl".toList) ↔
        validateNonNegativeInt ("ci.description".toList ++ ".disaster_lvl".toList)
          d.DisasterLvl ≠ none)) ∧
    (∀ g, c.Configuration = some g →
      (reportsAt (Root.Validate (some ⟨some c⟩)) ("ci.configuration".toList ++ ".fqdn".toList) ↔
        validateFQDN ("ci.configuration".toList ++ ".fqdn".toList) g.FQDN ≠ none) ∧
      (reportsAt (Root.Validate (some ⟨some c⟩)) ("ci.configuration".toList ++ ".ram".toList) ↔
        validateNonNegativeInt ("ci.configuration".toList ++ ".ram".toList) g.RAM ≠ none) ∧
      (reportsAt (Root.Validate (some ⟨some c⟩)) ("ci.configuration".toList ++ ".cpu".toList) ↔
        validateNonNegativeInt ("ci.configuration".toList ++ ".cpu".toList) g.CPU ≠ none) ∧
      (reportsAt (Root.Validate (some ⟨some c⟩)) ("ci.configuration".toList ++ ".ntp".toList) ↔
        validateIPList ("ci.configuration".toList ++ ".ntp".toList) g.NTP ≠ none)) ∧
    (∀ i v, c.Interfaces.get? i = some (some v) →
      (reportsAt (Root.Validate (some ⟨some c⟩))
          (indexPath "ci.interfaces".toList i ++ ".vlan".toList) ↔
        validateVLAN (indexPath "ci.interfaces".toList i ++ ".vlan".toList) v.VLAN ≠ none) ∧
      (reportsAt (Root.Validate (some ⟨some c⟩))
          (indexPath "ci.interfaces".toList i ++ ".ip".toList) ↔
        validateIP (indexPath "ci.interfaces".toList i ++ ".ip".toList) v.IP ≠ none) ∧
      (reportsAt (Root.Validate (some ⟨some c⟩))
          (indexPath "ci.interfaces".toList i ++ ".subnet".toList) ↔
        validateSubnetMask (indexPath "ci.interfaces".toList i ++ ".subnet".toList)
          v.Subnet ≠ none) ∧
      (reportsAt (Root.Validate (some ⟨some c⟩))
          (indexPath "ci.interfaces".toList i ++ ".dns".toList) ↔
        validateIPList (indexPath "ci.interfaces".toList i ++ ".dns".toList) v.DNS ≠ none)) := by
  have hroot : Root.Validate (some ⟨some c⟩) = c.Validate := rfl
  rw [hroot]
  refine ⟨?_, ?_, ?_, ?_, ?_, ?_, ?_⟩
  · intro i v h
    have herr : Elem.error c (.version i) = v.Validate (Elem.path (.version i)) := by
      simp only [Elem.error, h]
    have h1 := reportsAt_CI_elem c (.version i) ".number".toList
    have h2 := reportsAt_CI_elem c (.version i) ".date".toList
    rw [herr] at h1 h2
    exact ⟨h1.trans (Version_fields v _).1, h2.trans (Version_fields v _).2⟩
  · intro i v h
    have herr : Elem.error c (.auditVersion i) = v.Validate (Elem.path (.auditVersion i)) := by
      simp only [Elem.error, h]
    have h1 := reportsAt_CI_elem c (.auditVersion i) ".number".toList
    have h2 := reportsAt_CI_elem c (.auditVersion i) ".date".toList
    rw [herr] at h1 h2
    exact ⟨h1.trans (AuditVersion_fields v _).1, h2.trans (AuditVersion_fields v _).2⟩
  · intro i v h
    have herr : Elem.error c (.releaseVersion i) =
        v.Validate (Elem.path (.releaseVersion i)) := by
      simp only [Elem.error, h]
    have h1 := reportsAt_CI_elem c (.releaseVersion i) ".number".toList
    have h2 := reportsAt_CI_elem c (.releaseVersion i) ".date".toList
    rw [herr] at h1 h2
    exact ⟨h1.trans (ReleaseVersion_fields v _).1, h2.trans (ReleaseVersion_fields v _).2⟩
  · intro i v h
    have herr : Elem.error c (.surroundingSystem i) =
        v.Validate (Elem.path (.surroundingSystem i)) := by
      simp only [Elem.error, h]
    have h1 := reportsAt_CI_elem c (.surroundingSystem i) ".address".toList
    rw [herr, reportsAt_SurroundingSystem] at h1
    exact h1.trans ⟨fun hx => hx.2, fun hx => ⟨rfl, hx⟩⟩
  · intro d h
    have herr : Elem.error c .description = d.Validate (Elem.path .description) := by
      simp only [Elem.error, h]
    have h1 := reportsAt_CI_elem c .description ".disaster_lvl".toList
    rw [herr, reportsAt_Description] at h1
    exact h1.trans ⟨fun hx => hx.2, fun hx => ⟨rfl, hx⟩⟩
  · intro g h
    have herr : Elem.error c .configuration = g.Validate (Elem.path .configuration) := by
      simp only [Elem.error, h]
    have h1 := reportsAt_CI_elem c .configuration ".fqdn".toList
    have h2 := reportsAt_CI_elem c .configuration ".ram".toList
    have h3 := reportsAt_CI_elem c .configuration ".cpu".toList
    have h4 := reportsAt_CI_elem c .configuration ".ntp".toList
    rw [herr] at h1 h2 h3 h4
    have hf := Configuration_fields g (Elem.path .configuration)
    exact ⟨h1.trans hf.1, h2.trans hf.2.1, h3.trans hf.2.2.1, h4.trans hf.2.2.2⟩
  · intro i v h
    have herr : Elem.error c (.interface i) = v.Validate (Elem.path (.interface i)) := by
      simp only [Elem.error, h]
    have h1 := reportsAt_CI_elem c (.interface i) ".vlan".toList
    have h2 := reportsAt_CI_elem c (.interface i) ".ip".toList
    have h3 := reportsAt_CI_elem c (.interface i) ".subnet".toList
    have h4 := reportsAt_CI_elem c (.interface i) ".dns".toList
    rw [herr] at h1 h2 h3 h4
    have hf := Interface_fields v (Elem.path (.interface i))
    exact ⟨h1.trans hf.1, h2.trans hf.2.1, h3.trans hf.2.2.1, h4.trans hf.2.2.2⟩

theorem Root_Validate_reports_each_field_witness :
    reportsAt (Root.Validate (some ⟨some sampleCI⟩))
      (indexPath "ci.versions".toList 0 ++ ".number".toList) ∧
    reportsAt (Root.Validate (some ⟨some sampleCI⟩))
      (indexPath "ci.audit_versions".toList 1 ++ ".date".toList) ∧
    ¬ reportsAt (Root.Validate (some ⟨some sampleCI⟩))
      (indexPath "ci.release_versions".toList 0 ++ ".number".toList) ∧
    ¬ reportsAt (Root.Validate (some ⟨some sampleCI⟩))
      (indexPath "ci.surrounding_systems".toList 0 ++ ".address".toList) ∧
    reportsAt (Root.Validate (some ⟨some sampleCI⟩))
      ("ci.description".toList ++ ".disaster_lvl".toList) ∧
    reportsAt (Root.Validate (some ⟨some sampleCI⟩))
      ("ci.configuration".toList ++ ".ntp".toList) ∧
    ¬ reportsAt (Root.Validate (some ⟨some sampleCI⟩))
      (indexPath "ci.interfaces".toList 0 ++ ".ip".toList) :=
  ⟨(((Root_Validate_reports_each_field sampleCI).1 0 sampleVersion rfl).1).2 (by decide),
    (((Root_Validate_reports_each_field sampleCI).2.1 1 sampleAuditVersion rfl).2).2
      (by decide),
    fun h => (((Root_Validate_reports_each_field sampleCI).2.2.1 0
      sampleReleaseVersion rfl).1).1 h (by decide),
    fun h => ((Root_Validate_reports_each_field sampleCI).2.2.2.1 0 sampleSystem rfl).1 h
      (by decide),
    ((Root_Validate_reports_each_field sampleCI).2.2.2.2.1 sampleDescription rfl).2 (by decide),
    (((Root_Validate_reports_each_field sampleCI).2.2.2.2.2.1
      sampleConfiguration rfl).2.2.2).2 (by decide),
    fun h => (((Root_Validate_reports_each_field sampleCI).2.2.2.2.2.2 0
      sampleInterface rfl).2.1).1 h (by decide)⟩

/-! ## The text of the error -/

/-- C2, the code at the failing input. For the document whose NTP list is the
single entry `bad-ip`, the text of the error is one line that starts with the
path of the list, `ci.configuration.ntp: `, before the path of the entry: the
line does not start with `ci.configuration.ntp[0]`, the path of the finding it
reports. With the two entries `bad-ip` and `worse-ip` only the first line gets
the path of the list in front. -/
theorem Root_Validate_ntp_text (quote : Str → Str) :
    (Root.Validate (some ⟨some (ntpCI [some "bad-ip".toList])⟩)).map (GoError.Error quote) =
      some ("ci.configuration.ntp: ci.configuration.ntp[0]: invalid IP address ".toList ++
        quote "bad-ip".toList) ∧
    ¬ List.IsPrefix "ci.configuration.ntp[0]".toList
      ("ci.configuration.ntp: ci.configuration.ntp[0]: invalid IP address ".toList ++
        quote "bad-ip".toList) ∧
    (Root.Validate (some ⟨some (ntpCI [some "bad-ip".toList, some "worse-ip".toList])⟩)).map
        (GoError.Error quote) =
      some ("ci.configuration.ntp: ci.configuration.ntp[0]: invalid IP address ".toList ++
        quote "bad-ip".toList ++
        "\nci.configuration.ntp[1]: invalid IP address ".toList ++ quote "worse-ip".toList) := by
  refine ⟨?_, ?_, ?_⟩
  · rfl
  · rintro ⟨t, ht⟩
    simp at ht
  · have h : (Root.Validate
        (some ⟨some (ntpCI [some "bad-ip".toList, some "worse-ip".toList])⟩)).map
          (GoError.Error quote) =
        some ("ci.configuration.ntp: ci.configuration.ntp[0]: invalid IP address ".toList ++
          quote "bad-ip".toList ++ "\n".toList ++
          ("ci.configuration.ntp[1]: invalid IP address ".toList ++ quote "worse-ip".toList)) :=
      rfl
    rw [h]
    simp [List.append_assoc]

theorem TrimSpace_of_blank (s : Str) (h : ∀ c ∈ s, isSpace c = true) : TrimSpace s = [] := by
  unfold TrimSpace
  have : s.dropWhile isSpace = [] := List.dropWhile_eq_nil_iff.2 h
  rw [this]; rfl

theorem strOrEmpty_of_blank (p : Option Str) (h : IsBlank p) : strOrEmpty p = [] := by
  cases p with
  | none => rfl
  | some s => exact TrimSpace_of_blank s (h s rfl)

theorem validateVersionNumber_blank (path : Str) (p : Option Str) (h : IsBlank p) :
    validateVersionNumber path p = none := by
  simp [validateVersionNumber, strOrEmpty_of_blank p h]

theorem validateDate_blank (path : Str) (p : Option Str) (h : IsBlank p) :
    validateDate path p = none := by
  simp [validateDate, strOrEmpty_of_blank p h]

theorem validateIP_blank (path : Str) (p : Option Str) (h : IsBlank p) :
    validateIP path p = none := by
  simp [validateIP, strOrEmpty_of_blank p h]

theorem validateFQDN_blank (path : Str) (p : Option Str) (h : IsBlank p) :
    validateFQDN path p = none := by
  simp [validateFQDN, strOrEmpty_of_blank p h]

theorem validateSubnetMask_blank (path : Str) (p : Option Str) (h : IsBlank p) :
    validateSubnetMask path p = none := by
  simp [validateSubnetMask, strOrEmpty_of_blank p h]

theorem validateHostnameOrIP_blank (path : Str) (p : Option Str) (h : IsBlank p) :
    validateHostnameOrIP path p = none := by
  simp [validateHostnameOrIP, strOrEmpty_of_blank p h]

theorem prefixRangeCheck_blank (p : Option Str) (h : IsBlank p) :
    prefixRangeCheck p = none := by
  simp [prefixRangeCheck, strOrEmpty_of_blank p h]

theorem isEmpty_of_blank (p : Option Str) (h : IsBlank p) : isEmpty p = true := by
  cases p with
  | none => rfl
  | some s => simp [isEmpty, TrimSpace_of_blank s (h s rfl)]

theorem validateIPList_loop_blank (path : Str) (l : List (Option Str)) (h : IsBlankList l)
    (k : Nat) (st : MultiError × List Str) :
    rangeLoop (validateIPListBody path) k l st = st := by
  induction l generalizing k st with
  | nil => rfl
  | cons e l ih =>
    have he : IsBlank e := h e (List.mem_cons_self _ _)
    have hl : IsBlankList l := fun x hx => h x (List.mem_cons_of_mem _ hx)
    have hb : validateIPListBody path k e st = st := by
      cases e with
      | none => rfl
      | some s => simp [validateIPListBody, TrimSpace_of_blank s (he s rfl)]
    simp only [rangeLoop, hb]
    exact ih hl _ _

theorem validateIPList_blank (path : Str) (l : List (Option Str)) (h : IsBlankList l) :
    validateIPList path l = none := by
  unfold validateIPList
  rw [validateIPList_loop_blank path l h]
  rfl

theorem rangeLoop_elementBody_none {α : Type} (validate : α → Str → Option GoError)
    (pre : Str) (xs : List (Option α)) (h : ∀ x, some x ∈ xs → ∀ p, validate x p = none)
    (k : Nat) (me : MultiError) :
    rangeLoop (elementBody validate pre) k xs me = me := by
  induction xs generalizing k me with
  | nil => rfl
  | cons e xs ih =>
    have hb : elementBody validate pre k e me = me := by
      cases e with
      | none => rfl
      | some x => simp [elementBody, h x (List.mem_cons_self _ _)]
    simp only [rangeLoop, hb]
    exact ih (fun x hx => h x (List.mem_cons_of_mem _ hx)) _ _

theorem pointerBody_none {α : Type} (validate : α → Str → Option GoError)
    (path : Str) (v : Option α) (h : ∀ x, v = some x → validate x path = none)
    (me : MultiError) : pointerBody validate path v me = me := by
  cases v with
  | none => rfl
  | some x => simp [pointerBody, h x rfl]

theorem CI_Validate_unfilled (c : CI) (h : c.Unfilled) : c.Validate = none := by
  obtain ⟨h1, h2, h3, h4, h5, h6, h7⟩ := h
  unfold CI.Validate
  simp only []
  rw [rangeLoop_elementBody_none Version.Validate _ c.Versions (fun v hv p => by
      simp [Version.Validate, MultiError.add, validateVersionNumber_blank _ _ (h1 v hv).1,
        validateDate_blank _ _ (h1 v hv).2, MultiError.ToError]),
    rangeLoop_elementBody_none AuditVersion.Validate _ c.AuditVersions (fun v hv p => by
      simp [AuditVersion.Validate, MultiError.add, validateVersionNumber_blank _ _ (h2 v hv).1,
        validateDate_blank _ _ (h2 v hv).2, MultiError.ToError]),
    rangeLoop_elementBody_none ReleaseVersion.Validate _ c.ReleaseVersions (fun v hv p => by
      simp [ReleaseVersion.Validate, MultiError.add,
        validateVersionNumber_blank _ _ (h3 v hv).1,
        validateDate_blank _ _ (h3 v hv).2, MultiError.ToError]),
    rangeLoop_elementBody_none Requirement.Validate _ c.Requirements (fun v _ p => rfl),
    rangeLoop_elementBody_none SurroundingSystem.Validate _ c.SurroundingSystems
      (fun v hv p => by
        simp [SurroundingSystem.Validate, MultiError.add,
          validateHostnameOrIP_blank _ _ (h4 v hv), MultiError.ToError]),
    pointerBody_none Description.Validate _ c.Description (fun d hd => by
      simp [Description.Validate, MultiError.add, validateNonNegativeInt, h5 d hd,
        MultiError.ToError]),
    pointerBody_none Configuration.Validate _ c.Configuration (fun g hg => by
      obtain ⟨a, b, c1, d⟩ := h6 g hg
      simp [Configuration.Validate, MultiError.add, validateNonNegativeInt, a, b, c1,
        validateFQDN_blank _ _ a, validateIPList_blank _ _ d, MultiError.ToError]),
    rangeLoop_elementBody_none Interface.Validate _ c.Interfaces (fun i hi p => by
      obtain ⟨a, b, c1, d⟩ := h7 i hi
      simp [Interface.Validate, MultiError.add, validateVLAN, a,
        validateIP_blank _ _ b, validateSubnetMask_blank _ _ c1, validateIPList_blank _ _ d,
        prefixRangeCheck_blank _ c1, MultiError.ToError])]
  rfl

theorem unfilledRoot_unfilled :
    ∃ c, unfilledRoot.CI = some c ∧ c.Unfilled := by
  refine ⟨_, rfl, ?_⟩
  simp only [CI.Unfilled, IsBlank, IsBlankList]
  refine ⟨?_, ?_, ?_, ?_, ?_, ?_, ?_⟩ <;> simp <;> decide

/-- C11. Presence is never enforced: for every document whose configuration
item is absent, or in which every field that has a rule is absent or empty
(absent numbers, absent or white-space-only texts, IP lists that are empty or
hold only absent or blank entries), `Root.Validate` returns no finding. -/
theorem Root_Validate_nothing_required (root : Root)
    (h : root.CI = none ∨ ∃ c, root.CI = some c ∧ c.Unfilled) :
    Root.Validate (some root) = none := by
  rcases h with h | ⟨c, hc, hu⟩
  · simp [Root.Validate, h]
  · simp [Root.Validate, hc, CI_Validate_unfilled c hu]

theorem Root_Validate_nothing_required_witness :
    (unfilledRoot.CI = none ∨ ∃ c, unfilledRoot.CI = some c ∧ c.Unfilled) ∧
      Root.Validate (some unfilledRoot) = none :=
  ⟨Or.inr unfilledRoot_unfilled,
    Root_Validate_nothing_required unfilledRoot (Or.inr unfilledRoot_unfilled)⟩

/-- C12. For every interface whose `dhcp` flag is present and false and whose
`ip` and `subnet` are both absent or blank, `Interface.Validate` reports
nothing for that combination: its findings are exactly those of the VLAN rule
and of the DNS list rule, so with a valid VLAN and a valid DNS list it returns
no finding. -/
theorem Interface_Validate_static_without_address (i : Interface) (path : Str)
    (_hd : i.DHCP = some false) (hip : IsBlank i.IP) (hs : IsBlank i.Subnet) :
    i.Validate path =
        MultiError.ToError
          ((MultiError.add [] (path ++ ".vlan".toList)
              (validateVLAN (path ++ ".vlan".toList) i.VLAN)).add
            (path ++ ".dns".toList) (validateIPList (path ++ ".dns".toList) i.DNS)) ∧
      (validateVLAN (path ++ ".vlan".toList) i.VLAN = none →
        validateIPList (path ++ ".dns".toList) i.DNS = none → i.Validate path = none) := by
  have h : i.Validate path =
      MultiError.ToError
        ((MultiError.add [] (path ++ ".vlan".toList)
            (validateVLAN (path ++ ".vlan".toList) i.VLAN)).add
          (path ++ ".dns".toList) (validateIPList (path ++ ".dns".toList) i.DNS)) := by
    unfold Interface.Validate
    simp only [validateIP_blank _ _ hip, validateSubnetMask_blank _ _ hs,
      prefixRangeCheck_blank _ hs, ite_self]
    rfl
  refine ⟨h, fun hv hl => ?_⟩
  rw [h, hv, hl]
  rfl

theorem Interface_Validate_static_without_address_witness :
    staticInterfaceWithoutAddress.Validate "ci.interfaces[0]".toList = none :=
  (Interface_Validate_static_without_address staticInterfaceWithoutAddress
    "ci.interfaces[0]".toList rfl (by simp [IsBlank, staticInterfaceWithoutAddress])
    (by simp [IsBlank, staticInterfaceWithoutAddress]; decide)).2 (by decide) (by decide)

theorem tail_length_le (s : Str) (n : Nat) : (tail s n).length ≤ n := by
  unfold tail
  split_ifs with h
  · exact h
  · rw [List.length_drop]; omega

/-- The failure of the loop of `compileRawEngine` carries a pass number and
the tail of the text combined so far. -/
theorem rawPasses_failure (w : World) (workDir : Str) (engine : Engine) (args : List Str)
    (n i : Nat) (st : Sys) (combined : Str) (err : CompileError)
    (h : (rawPasses w workDir engine args n i st combined).2 = some err) :
    ∃ k e more, i < k ∧ k ≤ i + n ∧
      err = .passFailed engine k e (tail (combined ++ more) 2000) := by
  induction n generalizing i st combined with
  | zero => simp [rawPasses] at h
  | succ n ih =>
    simp only [rawPasses] at h
    cases he : (runCmd w st workDir engine args).2.2 with
    | some e =>
      rw [he] at h
      simp only [Option.some.injEq] at h
      exact ⟨i + 1, e, _, by omega, by omega, h.symm⟩
    | none =>
      rw [he] at h
      obtain ⟨k, e, more, h1, h2, h3⟩ := ih _ _ _ h
      refine ⟨k, e, (runCmd w st workDir engine args).2.1 ++ more, by omega, by omega, ?_⟩
      rw [h3, List.append_assoc]

/-- C18. For every string `s` and every `n`, `tail s n` has at most `n`
characters, is `s` when `s` has at most `n` characters, and is otherwise
exactly the last `n` characters of `s`; the failures of the two compile paths
embed `tail output 2000` — the output of the driver, or the output combined
over the passes made — and so never more than the last 2000 characters. -/
theorem tail_last_characters (s : Str) (n : Nat) :
    (tail s n).length ≤ n ∧
      (s.length ≤ n → tail s n = s) ∧
      (n < s.length → (tail s n).length = n ∧ ∃ front, s = front ++ tail s n) ∧
      (∀ (w : World) (st : Sys) (workDir outDir jobName : Str) (engine : Engine)
          (path : Str) (e : OSError),
        (w.run st workDir "latexmk".toList (latexmkArgs outDir jobName engine path)).err =
            some e →
          (compileWithLatexmk w st workDir outDir jobName engine path).2 =
            some (.latexmkFailed e
              (tail (w.run st workDir "latexmk".toList
                (latexmkArgs outDir jobName engine path)).out 2000))) ∧
      (∀ (w : World) (st : Sys) (workDir outDir jobName : Str) (engine : Engine)
          (path : Str) (err : CompileError),
        (compileRawEngine w st workDir outDir jobName engine path).2 = some err →
          ∃ k e combined, err = .passFailed engine k e (tail combined 2000)) ∧
      (∀ (err : OSError) (out : Str),
        (CompileError.latexmkFailed err (tail out 2000)).Error =
          "latexmk failed: ".toList ++ err ++ "\n".toList ++ tail out 2000) ∧
      (∀ (engine : Engine) (k : Nat) (err : OSError) (out : Str),
        (CompileError.passFailed engine k err (tail out 2000)).Error =
          engine ++ " pass ".toList ++ itoa k ++ " failed: ".toList ++ err ++ "\n".toList ++
            tail out 2000) := by
  refine ⟨tail_length_le s n, ?_, ?_, ?_, ?_, fun _ _ => rfl, fun _ _ _ _ => rfl⟩
  · intro h; simp [tail, h]
  · intro h
    have h1 : ¬ s.length ≤ n := by omega
    refine ⟨?_, s.take (s.length - n), ?_⟩
    · simp only [tail, if_neg h1, List.length_drop]; omega
    · simp only [tail, if_neg h1, List.take_append_drop]
  · intro w st workDir outDir jobName engine path e he
    simp only [compileWithLatexmk, runCmd, he]
  · intro w st workDir outDir jobName engine path err h
    obtain ⟨k, e, more, _, _, h3⟩ := rawPasses_failure w workDir engine _ 3 0 st [] err h
    exact ⟨k, e, more, by simpa using h3⟩

theorem inspected_eq_take (tex : Bytes) :
    (if tex.length > 8192 then tex.take 8192 else tex) = tex.take 8192 := by
  split_ifs with h
  · rfl
  · exact (List.take_of_length_le (by omega)).symm

theorem detectMagicEngine_take (u : Bytes → Bytes) (tex : Bytes) :
    detectMagicEngine u tex = detectMagicEngine u (tex.take 8192) := by
  unfold detectMagicEngine
  simp only [inspected_eq_take, List.take_take, min_self, ite_self]

/-- C14. Engine selection inspects at most the first 8 KiB: two sources whose
first 8192 bytes are equal get the same engine from `detectMagicEngine` (and
from the selection of `CompileTeX`), so whatever follows byte 8192, a
directive included, never changes the selection. -/
theorem detectMagicEngine_first_8192 (u : Bytes → Bytes) (tex1 tex2 : Bytes)
    (h : tex1.take 8192 = tex2.take 8192) :
    detectMagicEngine u tex1 = detectMagicEngine u tex2 ∧
      selectEngine u tex1 = selectEngine u tex2 ∧
      (∀ after : Bytes, 8192 ≤ tex1.length →
        detectMagicEngine u (tex1 ++ after) = detectMagicEngine u tex1) := by
  have h1 : detectMagicEngine u tex1 = detectMagicEngine u tex2 := by
    rw [detectMagicEngine_take u tex1, detectMagicEngine_take u tex2, h]
  refine ⟨h1, ?_, ?_⟩
  · unfold selectEngine
    rw [h1]
  · intro after hlen
    rw [detectMagicEngine_take u (tex1 ++ after), detectMagicEngine_take u tex1,
      List.take_append_of_le_length hlen]

theorem detectMagicEngine_first_8192_witness :
    detectMagicEngine id
        (List.replicate 8192 32 ++ bytesOf "\n%!TEX TS-program = xelatex".toList) =
      detectMagicEngine id
        (List.replicate 8192 32 ++ bytesOf "\n%!TEX TS-program = lualatex".toList) :=
  (detectMagicEngine_first_8192 id _ _ (by
    rw [List.take_append_of_le_length (List.length_replicate 8192 32).ge,
      List.take_append_of_le_length (List.length_replicate 8192 32).ge])).1

theorem invocations_append (a b : List Event) :
    invocations (a ++ b) = invocations a ++ invocations b := by
  induction a with
  | nil => rfl
  | cons e a ih => cases e <;> simp [invocations, ih]

theorem removals_append (a b : List Event) :
    removals (a ++ b) = removals a ++ removals b := by
  induction a with
  | nil => rfl
  | cons e a ih => cases e <;> simp [invocations, removals, ih]

/-- The loop of `compileRawEngine`, pass by pass. -/
theorem rawPasses_succ (w : World) (workDir : Str) (engine : Engine) (args : List Str)
    (n i : Nat) (st : Sys) (combined : Str) :
    rawPasses w workDir engine args (n + 1) i st combined =
      match (runCmd w st workDir engine args).2.2 with
      | some err =>
        ((runCmd w st workDir engine args).1,
          some (.passFailed engine (i + 1) err
            (tail (combined ++ (runCmd w st workDir engine args).2.1) 2000)))
      | none =>
        rawPasses w workDir engine args n (i + 1) (runCmd w st workDir engine args).1
          (combined ++ (runCmd w st workDir engine args).2.1) := rfl

/-- C15. Over an abstract process runner, `compileRawEngine` runs the engine
pass after pass and stops at the first pass that fails: when pass `k` (1, 2 or
3) is the first to fail, exactly `k` processes are run, and the failure names
the pass `k` and carries the last 2000 characters of the outputs of the passes
1 to `k` put together; when no pass fails, exactly three processes are run and
the result is success. In every case at most three processes are run, each
the engine with the same arguments. -/
theorem compileRawEngine_passes (w : World) (st : Sys) (workDir outDir jobName : Str)
    (engine : Engine) (path : Str) :
    let args := rawEngineArgs outDir jobName path
    let p1 := runCmd w st workDir engine args
    let p2 := runCmd w p1.1 workDir engine args
    let p3 := runCmd w p2.1 workDir engine args
    let r := compileRawEngine w st workDir outDir jobName engine path
    (∀ e, p1.2.2 = some e →
      r = (p1.1, some (.passFailed engine 1 e (tail p1.2.1 2000))) ∧
        invocations r.1.log = invocations st.log ++ [(engine, args)]) ∧
    (∀ e, p1.2.2 = none → p2.2.2 = some e →
      r = (p2.1, some (.passFailed engine 2 e (tail (p1.2.1 ++ p2.2.1) 2000))) ∧
        invocations r.1.log = invocations st.log ++ [(engine, args), (engine, args)]) ∧
    (∀ e, p1.2.2 = none → p2.2.2 = none → p3.2.2 = some e →
      r = (p3.1, some (.passFailed engine 3 e (tail (p1.2.1 ++ p2.2.1 ++ p3.2.1) 2000))) ∧
        invocations r.1.log =
          invocations st.log ++ [(engine, args), (engine, args), (engine, args)]) ∧
    (p1.2.2 = none → p2.2.2 = none → p3.2.2 = none →
      r = (p3.1, none) ∧
        invocations r.1.log =
          invocations st.log ++ [(engine, args), (engine, args), (engine, args)]) ∧
    (∃ k, k ≤ 3 ∧ r.1.log = st.log ++ List.replicate k (.run workDir engine args)) ∧
    (∀ (k : Nat) (e : OSError) (out : Str),
      (CompileError.passFailed engine k e out).Error =
        engine ++ " pass ".toList ++ itoa k ++ " failed: ".toList ++ e ++ "\n".toList ++ out) := by
  intro args p1 p2 p3 r
  have hr : r = rawPasses w workDir engine args 3 0 st [] := rfl
  have l1 : p1.1.log = st.log ++ [.run workDir engine args] := rfl
  have l2 : p2.1.log = st.log ++ [.run workDir engine args, .run workDir engine args] := by
    show p1.1.log ++ [.run workDir engine args] = _
    rw [l1]; simp
  have l3 : p3.1.log = st.log ++
      [.run workDir engine args, .run workDir engine args, .run workDir engine args] := by
    show p2.1.log ++ [.run workDir engine args] = _
    rw [l2]; simp
  have c1 : ∀ e, p1.2.2 = some e →
      r = (p1.1, some (.passFailed engine 1 e (tail p1.2.1 2000))) := by
    intro e h1
    rw [hr, rawPasses_succ]
    show (match p1.2.2 with | some err => _ | none => _) = _
    rw [h1]; simp
  have c2 : ∀ e, p1.2.2 = none → p2.2.2 = some e →
      r = (p2.1, some (.passFailed engine 2 e (tail (p1.2.1 ++ p2.2.1) 2000))) := by
    intro e h1 h2
    rw [hr, rawPasses_succ]
    show (match p1.2.2 with | some err => _ | none => _) = _
    rw [h1]
    show rawPasses w workDir engine args 2 1 p1.1 ([] ++ p1.2.1) = _
    rw [rawPasses_succ]
    show (match p2.2.2 with | some err => _ | none => _) = _
    rw [h2]; simp
  have c3 : ∀ o, p1.2.2 = none → p2.2.2 = none → p3.2.2 = o →
      r = (p3.1, o.map (fun e =>
        .passFailed engine 3 e (tail (p1.2.1 ++ p2.2.1 ++ p3.2.1) 2000))) := by
    intro o h1 h2 h3
    rw [hr, rawPasses_succ]
    show (match p1.2.2 with | some err => _ | none => _) = _
    rw [h1]
    show rawPasses w workDir engine args 2 1 p1.1 ([] ++ p1.2.1) = _
    rw [rawPasses_succ]
    show (match p2.2.2 with | some err => _ | none => _) = _
    rw [h2]
    show rawPasses w workDir engine args 1 2 p2.1 ([] ++ p1.2.1 ++ p2.2.1) = _
    rw [rawPasses_succ]
    show (match p3.2.2 with | some err => _ | none => _) = _
    rw [h3]
    cases o <;> simp [rawPasses]
  refine ⟨fun e h1 => ⟨c1 e h1, ?_⟩, fun e h1 h2 => ⟨c2 e h1 h2, ?_⟩,
    fun e h1 h2 h3 => ⟨by simpa using c3 (some e) h1 h2 h3, ?_⟩,
    fun h1 h2 h3 => ⟨by simpa using c3 none h1 h2 h3, ?_⟩, ?_, fun _ _ _ => rfl⟩
  · rw [c1 e h1]; show invocations p1.1.log = _
    rw [l1, invocations_append]; rfl
  · rw [c2 e h1 h2]; show invocations p2.1.log = _
    rw [l2, invocations_append]; rfl
  · rw [c3 (some e) h1 h2 h3]; show invocations p3.1.log = _
    rw [l3, invocations_append]; rfl
  · rw [c3 none h1 h2 h3]; show invocations p3.1.log = _
    rw [l3, invocations_append]; rfl
  · cases h1 : p1.2.2 with
    | some e => exact ⟨1, by omega, by rw [c1 e h1]; exact l1⟩
    | none =>
      cases h2 : p2.2.2 with
      | some e => exact ⟨2, by omega, by rw [c2 e h1 h2]; exact l2⟩
      | none => exact ⟨3, by omega, by rw [c3 _ h1 h2 rfl]; exact l3⟩

/-- The second pass fails in `rawWorld 2`: two processes, and the failure of
pass 2 with the output of both passes. -/
theorem compileRawEngine_passes_witness :
    compileRawEngine (rawWorld 2) emptySys "out".toList "out".toList "doc".toList
        EnginePDFLaTeX "out/doc-123.tex".toList =
      (⟨[("out".toList, "doc.aux".toList), ("out".toList, "doc.aux".toList)],
          List.replicate 2 (.run "out".toList EnginePDFLaTeX
            (rawEngineArgs "out".toList "doc".toList "out/doc-123.tex".toList))⟩,
        some (.passFailed EnginePDFLaTeX 2 "exit status 1".toList "pass 1\npass 2\n".toList)) :=
  ((compileRawEngine_passes (rawWorld 2) emptySys "out".toList "out".toList "doc".toList
    EnginePDFLaTeX "out/doc-123.tex".toList).2.1 "exit status 1".toList (by decide)
      (by decide)).1.trans (by decide)

theorem prefixAndSuffix_tex (j pre suf : Str)
    (h : prefixAndSuffix (j ++ "-*.tex".toList) = some (pre, suf)) :
    pre = j ++ "-".toList ∧ suf = ".tex".toList := by
  unfold prefixAndSuffix at h
  split_ifs at h with hs
  have hrev : (j ++ "-*.tex".toList).reverse = 'x' :: 'e' :: 't' :: '.' :: '*' :: '-' :: j.reverse := by
    simp
  rw [hrev] at h
  simp [List.span, List.span.loop] at h
  obtain ⟨h1, h2⟩ := h
  subst h1; subst h2
  simp

theorem tempName_not_aux (j n : Str) (h : IsTempName j n) (dir : Str) :
    (dir, n) ∉ auxFiles dir j := by
  obtain ⟨r, rfl⟩ := h
  intro hm
  simp only [auxFiles, List.mem_map, Prod.mk.injEq, true_and] at hm
  obtain ⟨ext, hext, he⟩ := hm
  rw [List.append_assoc, List.append_assoc, List.append_cancel_left_eq] at he
  simp [auxExts] at hext
  rcases hext with h | h | h | h | h | h | h | h | h | h | h <;> subst h <;> simp at he

theorem osCreateTemp_spec (w : World) (st : Sys) (dir j : Str) :
    (osCreateTemp w st dir (j ++ "-*.tex".toList)).1.log =
        st.log ++ [.createTemp dir (j ++ "-*.tex".toList)] ∧
      ∀ name, (osCreateTemp w st dir (j ++ "-*.tex".toList)).2 = .ok name → IsTempName j name := by
  unfold osCreateTemp
  cases hp : prefixAndSuffix (j ++ "-*.tex".toList) with
  | none => exact ⟨rfl, fun name h => by simp at h⟩
  | some ps =>
    obtain ⟨pre, suf⟩ := ps
    obtain ⟨rfl, rfl⟩ := prefixAndSuffix_tex j pre suf hp
    simp only []
    cases hc : w.createTemp st dir (j ++ "-".toList) ".tex".toList with
    | error e => exact ⟨rfl, fun name h => by simp at h⟩
    | ok r =>
      refine ⟨rfl, fun name h => ?_⟩
      simp only [Except.ok.injEq] at h
      exact ⟨r, h.symm⟩

theorem not_mem_osRemove_files (st : Sys) (dir name : Str) :
    (dir, name) ∉ (osRemove st dir name).files := by
  simp [osRemove]

theorem prepareSource_spec (w : World) (st : Sys) (tex : Bytes) (outPath : Str) :
    ∃ ev, (prepareSource w st tex outPath).1.log = st.log ++ ev ∧ invocations ev = [] ∧
      (∀ srcName, (prepareSource w st tex outPath).2 = .ok srcName →
        outPath ≠ [] ∧ removals ev = [] ∧
          IsTempName (TrimSuffix (w.Base outPath) (w.Ext outPath)) srcName) ∧
      (∀ err, (prepareSource w st tex outPath).2 = .error err →
        removals ev = [] ∨
          ∃ srcName, IsTempName (TrimSuffix (w.Base outPath) (w.Ext outPath)) srcName ∧
            removals ev = [(w.Dir outPath, srcName)] ∧
            (w.Dir outPath, srcName) ∉ (prepareSource w st tex outPath).1.files) := by
  unfold prepareSource
  by_cases h0 : outPath = []
  · rw [if_pos h0]
    exact ⟨[], by simp, rfl, fun _ h => by simp at h, fun _ _ => Or.inl rfl⟩
  rw [if_neg h0]
  simp only []
  cases hm : (osMkdirAll w st (w.Dir outPath)).2 with
  | some e =>
    exact ⟨[.mkdirAll (w.Dir outPath)], rfl, rfl, fun _ h => by simp at h, fun _ _ => Or.inl rfl⟩
  | none =>
    simp only []
    obtain ⟨hcl, hcn⟩ := osCreateTemp_spec w (osMkdirAll w st (w.Dir outPath)).1 (w.Dir outPath)
      (TrimSuffix (w.Base outPath) (w.Ext outPath))
    generalize osCreateTemp w (osMkdirAll w st (w.Dir outPath)).1 (w.Dir outPath)
      (TrimSuffix (w.Base outPath) (w.Ext outPath) ++ "-*.tex".toList) = c at hcl hcn
    obtain ⟨c1, c2⟩ := c
    simp only at hcl hcn
    have hlog : c1.log = st.log ++ [.mkdirAll (w.Dir outPath), .createTemp (w.Dir outPath)
        (TrimSuffix (w.Base outPath) (w.Ext outPath) ++ "-*.tex".toList)] := by
      rw [hcl]; simp [osMkdirAll, Sys.logged]
    cases c2 with
    | error e =>
      exact ⟨[.mkdirAll (w.Dir outPath), .createTemp (w.Dir outPath)
        (TrimSuffix (w.Base outPath) (w.Ext outPath) ++ "-*.tex".toList)], hlog, rfl,
        fun _ h => by simp at h, fun _ _ => Or.inl rfl⟩
    | ok srcName =>
      have hn := hcn srcName rfl
      simp only []
      cases hw : (osWrite w c1 (w.Dir outPath) srcName tex).2 with
      | some e =>
        simp only []
        refine ⟨[.mkdirAll (w.Dir outPath), .createTemp (w.Dir outPath)
            (TrimSuffix (w.Base outPath) (w.Ext outPath) ++ "-*.tex".toList),
            .write (w.Dir outPath) srcName tex, .close (w.Dir outPath) srcName,
            .remove (w.Dir outPath) srcName], ?_, ?_, fun _ h => by simp at h,
          fun _ _ => Or.inr ⟨srcName, hn, ?_, not_mem_osRemove_files _ _ _⟩⟩
        · simp [osRemove, osClose, osWrite, Sys.logged, hlog]
        · rfl
        · rfl
      | none =>
        simp only []
        cases hc : (osClose w (osWrite w c1 (w.Dir outPath) srcName tex).1 (w.Dir outPath)
            srcName).2 with
        | some e =>
          simp only []
          refine ⟨[.mkdirAll (w.Dir outPath), .createTemp (w.Dir outPath)
              (TrimSuffix (w.Base outPath) (w.Ext outPath) ++ "-*.tex".toList),
              .write (w.Dir outPath) srcName tex, .close (w.Dir outPath) srcName,
              .remove (w.Dir outPath) srcName], ?_, ?_, fun _ h => by simp at h,
            fun _ _ => Or.inr ⟨srcName, hn, ?_, not_mem_osRemove_files _ _ _⟩⟩
          · simp [osRemove, osClose, osWrite, Sys.logged, hlog]
          · rfl
          · rfl
        | none =>
          simp only []
          refine ⟨[.mkdirAll (w.Dir outPath), .createTemp (w.Dir outPath)
            (TrimSuffix (w.Base outPath) (w.Ext outPath) ++ "-*.tex".toList),
            .write (w.Dir outPath) srcName tex, .close (w.Dir outPath) srcName], ?_, ?_,
            fun s h => ?_, fun _ h => by simp at h⟩
          · simp [osClose, osWrite, Sys.logged, hlog]
          · rfl
          · simp only [Except.ok.injEq] at h
            subst h
            exact ⟨h0, rfl, hn⟩

theorem removals_map_remove (l : List (Str × Str)) :
    removals (l.map (fun f => Event.remove f.1 f.2)) = l := by
  induction l with
  | nil => rfl
  | cons f l ih => simp [removals, ih]

theorem invocations_map_remove (l : List (Str × Str)) :
    invocations (l.map (fun f => Event.remove f.1 f.2)) = [] := by
  induction l with
  | nil => rfl
  | cons f l ih => simp [invocations, ih]

theorem invocations_replicate_run (k : Nat) (wd bin : Str) (args : List Str) :
    invocations (List.replicate k (.run wd bin args)) = List.replicate k (bin, args) := by
  induction k with
  | zero => rfl
  | succ k ih => simp [List.replicate_succ, invocations, ih]

theorem removals_replicate_run (k : Nat) (wd bin : Str) (args : List Str) :
    removals (List.replicate k (.run wd bin args)) = [] := by
  induction k with
  | zero => rfl
  | succ k ih => simp [List.replicate_succ, removals, ih]

theorem cleanupAuxFiles_log (st : Sys) (dir j : Str) :
    (cleanupAuxFiles st dir j).log =
      st.log ++ (auxFiles dir j).map (fun f => Event.remove f.1 f.2) := by
  simp [cleanupAuxFiles, rangeLoop, auxExts, osRemove, auxFiles]

theorem cleanupAuxFiles_files (st : Sys) (dir j : Str) (f : Str × Str)
    (hf : f ∈ auxFiles dir j) : f ∉ (cleanupAuxFiles st dir j).files := by
  simp only [auxFiles, auxExts, List.map_cons, List.map_nil, List.mem_cons,
    List.not_mem_nil, or_false] at hf
  simp only [cleanupAuxFiles, rangeLoop, auxExts, osRemove, List.mem_filter, not_and]
  rcases hf with h | h | h | h | h | h | h | h | h | h | h <;> subst h <;> simp

theorem rawPasses_log (w : World) (workDir : Str) (engine : Engine) (args : List Str)
    (n i : Nat) (st : Sys) (combined : Str) :
    ∃ k, k ≤ n ∧
      (rawPasses w workDir engine args n i st combined).1.log =
        st.log ++ List.replicate k (.run workDir engine args) := by
  induction n generalizing i st combined with
  | zero => exact ⟨0, le_refl _, by simp [rawPasses]⟩
  | succ n ih =>
    rw [rawPasses_succ]
    cases he : (runCmd w st workDir engine args).2.2 with
    | some e => exact ⟨1, by omega, rfl⟩
    | none =>
      obtain ⟨k, hk, h⟩ := ih (i + 1) (runCmd w st workDir engine args).1
        (combined ++ (runCmd w st workDir engine args).2.1)
      refine ⟨k + 1, by omega, ?_⟩
      simp only []
      rw [h]
      show (st.log ++ [Event.run workDir engine args]) ++ _ = _
      rw [List.append_assoc, List.replicate_succ]
      rfl

theorem compileWithLatexmk_log (w : World) (st : Sys) (workDir outDir jobName : Str)
    (engine : Engine) (path : Str) :
    (compileWithLatexmk w st workDir outDir jobName engine path).1.log =
      st.log ++ [.run workDir "latexmk".toList (latexmkArgs outDir jobName engine path)] := by
  unfold compileWithLatexmk
  simp only []
  split <;> rfl

/-- The second part of `CompileTeX`: its calls, case by case. -/
theorem compileSource_spec (w : World) (st : Sys) (tex : Bytes) (outDir jobName srcPath : Str) :
    ∃ ev, (compileSource w st tex outDir jobName srcPath).1.log = st.log ++ ev ∧
      ((compileSource w st tex outDir jobName srcPath).2 = none →
        removals ev = auxFiles outDir jobName ∧
          ∀ f ∈ auxFiles outDir jobName,
            f ∉ (compileSource w st tex outDir jobName srcPath).1.files) ∧
      ((compileSource w st tex outDir jobName srcPath).2 ≠ none → removals ev = []) ∧
      (w.lookPath st "latexmk".toList = true →
        invocations ev = [("latexmk".toList,
          latexmkArgs outDir jobName (selectEngine w.unicodeLower tex) srcPath)]) ∧
      (w.lookPath st "latexmk".toList = false →
        (∃ k, k ≤ 3 ∧ invocations ev = List.replicate k
          (selectEngine w.unicodeLower tex, rawEngineArgs outDir jobName srcPath)) ∧
        (w.lookPath (st.logged (.lookPath "latexmk".toList))
            (selectEngine w.unicodeLower tex) = false →
          ev = [.lookPath "latexmk".toList, .lookPath (selectEngine w.unicodeLower tex)] ∧
            (compileSource w st tex outDir jobName srcPath).2 =
              some (.notFound (selectEngine w.unicodeLower tex)))) := by
  unfold compileSource
  simp only []
  cases hl : w.lookPath st "latexmk".toList with
  | true =>
    have h1 : (hasBinary w st "latexmk".toList).2 = true := hl
    rw [if_pos h1]
    cases hr : (compileWithLatexmk w (hasBinary w st "latexmk".toList).1 outDir outDir jobName
        (selectEngine w.unicodeLower tex) srcPath).2 with
    | some e =>
      refine ⟨[.lookPath "latexmk".toList, .run outDir "latexmk".toList
        (latexmkArgs outDir jobName (selectEngine w.unicodeLower tex) srcPath)], ?_,
        fun h => by simp at h, fun _ => rfl, fun _ => rfl, fun h => by simp at h⟩
      simp only []
      rw [compileWithLatexmk_log]
      show (st.log ++ _) ++ _ = _
      rw [List.append_assoc]; rfl
    | none =>
      refine ⟨[.lookPath "latexmk".toList, .run outDir "latexmk".toList
        (latexmkArgs outDir jobName (selectEngine w.unicodeLower tex) srcPath)] ++
          (auxFiles outDir jobName).map (fun f => Event.remove f.1 f.2), ?_,
        fun _ => ⟨?_, fun f hf => cleanupAuxFiles_files _ _ _ f hf⟩, fun h => by simp at h,
        fun _ => ?_, fun h => by simp at h⟩
      · simp only []
        rw [cleanupAuxFiles_log, compileWithLatexmk_log]
        show ((st.log ++ _) ++ _) ++ _ = _
        simp only [List.append_assoc]; rfl
      · rw [removals_append, removals_map_remove]; rfl
      · rw [invocations_append, invocations_map_remove]; rfl
  | false =>
    have h1 : ¬ (hasBinary w st "latexmk".toList).2 = true := by
      show ¬ w.lookPath st "latexmk".toList = true
      rw [hl]; simp
    rw [if_neg h1]
    cases he : w.lookPath (st.logged (.lookPath "latexmk".toList))
        (selectEngine w.unicodeLower tex) with
    | false =>
      have h2 : (!(hasBinary w (hasBinary w st "latexmk".toList).1
          (selectEngine w.unicodeLower tex)).2) = true := by
        show (!w.lookPath (st.logged (.lookPath "latexmk".toList)) _) = true
        rw [he]; rfl
      rw [if_pos h2]
      refine ⟨[.lookPath "latexmk".toList, .lookPath (selectEngine w.unicodeLower tex)], ?_,
        fun h => by simp at h, fun _ => rfl, fun h => by simp at h,
        fun _ => ⟨⟨0, by omega, rfl⟩, fun _ => ⟨rfl, rfl⟩⟩⟩
      simp [hasBinary, Sys.logged]
    | true =>
      have h2 : ¬ (!(hasBinary w (hasBinary w st "latexmk".toList).1
          (selectEngine w.unicodeLower tex)).2) = true := by
        show ¬ (!w.lookPath (st.logged (.lookPath "latexmk".toList)) _) = true
        rw [he]; simp
      rw [if_neg h2]
      obtain ⟨k, hk, hlog⟩ := rawPasses_log w outDir (selectEngine w.unicodeLower tex)
        (rawEngineArgs outDir jobName srcPath) 3 0
        (hasBinary w (hasBinary w st "latexmk".toList).1 (selectEngine w.unicodeLower tex)).1 []
      have hlog1 : (compileRawEngine w (hasBinary w (hasBinary w st "latexmk".toList).1
          (selectEngine w.unicodeLower tex)).1 outDir outDir jobName
          (selectEngine w.unicodeLower tex) srcPath).1.log =
          st.log ++ ([.lookPath "latexmk".toList, .lookPath (selectEngine w.unicodeLower tex)] ++
            List.replicate k (.run outDir (selectEngine w.unicodeLower tex)
              (rawEngineArgs outDir jobName srcPath))) := by
        unfold compileRawEngine
        rw [hlog]
        simp [hasBinary, Sys.logged]
      cases hr : (compileRawEngine w (hasBinary w (hasBinary w st "latexmk".toList).1
          (selectEngine w.unicodeLower tex)).1 outDir outDir jobName
          (selectEngine w.unicodeLower tex) srcPath).2 with
      | some e =>
        refine ⟨_, hlog1, fun h => by simp at h, fun _ => ?_, fun h => by simp at h,
          fun _ => ⟨⟨k, hk, ?_⟩, fun h => by simp at h⟩⟩
        · rw [removals_append, removals_replicate_run]; rfl
        · rw [invocations_append, invocations_replicate_run]; rfl
      | none =>
        refine ⟨[.lookPath "latexmk".toList, .lookPath (selectEngine w.unicodeLower tex)] ++
            List.replicate k (.run outDir (selectEngine w.unicodeLower tex)
              (rawEngineArgs outDir jobName srcPath)) ++
            (auxFiles outDir jobName).map (fun f => Event.remove f.1 f.2), ?_,
          fun _ => ⟨?_, fun f hf => cleanupAuxFiles_files _ _ _ f hf⟩, fun h => by simp at h,
          fun h => by simp at h, fun _ => ⟨⟨k, hk, ?_⟩, fun h => by simp at h⟩⟩
        · simp only []
          rw [cleanupAuxFiles_log, hlog1]
          simp
        · rw [removals_append, removals_map_remove, removals_append, removals_replicate_run]
          rfl
        · rw [invocations_append, invocations_map_remove, invocations_append,
            invocations_replicate_run]
          simp [invocations]

theorem callsOf_eq (st : Sys) (r : Sys × Option CompileError) (ev : List Event)
    (h : r.1.log = st.log ++ ev) : callsOf st r = ev := by
  simp [callsOf, h]

theorem CompileTeX_of_prepared (w : World) (st : Sys) (tex : Bytes) (outPath : Str)
    (st1 : Sys) (srcName : Str) (hp : prepareSource w st tex outPath = (st1, .ok srcName)) :
    CompileTeX w st tex outPath =
      (osRemove (compileSource w st1 tex (w.Dir outPath)
          (TrimSuffix (w.Base outPath) (w.Ext outPath))
          (joinPath (w.Dir outPath) srcName)).1 (w.Dir outPath) srcName,
        (compileSource w st1 tex (w.Dir outPath)
          (TrimSuffix (w.Base outPath) (w.Ext outPath))
          (joinPath (w.Dir outPath) srcName)).2) := by
  unfold CompileTeX
  simp only [hp]

theorem CompileTeX_of_not_prepared (w : World) (st : Sys) (tex : Bytes) (outPath : Str)
    (st1 : Sys) (err : CompileError)
    (hp : prepareSource w st tex outPath = (st1, .error err)) :
    CompileTeX w st tex outPath = (st1, some err) := by
  unfold CompileTeX
  simp only [hp]

/-- The calls of `CompileTeX` when the first part succeeds: the calls of the
two parts, and the deferred removal of the source file. -/
theorem CompileTeX_calls_of_prepared (w : World) (st : Sys) (tex : Bytes) (outPath : Str)
    (st1 : Sys) (srcName : Str) (hp : prepareSource w st tex outPath = (st1, .ok srcName)) :
    ∃ evp evc, st1.log = st.log ++ evp ∧ invocations evp = [] ∧ removals evp = [] ∧
      (compileSource w st1 tex (w.Dir outPath) (TrimSuffix (w.Base outPath) (w.Ext outPath))
        (joinPath (w.Dir outPath) srcName)).1.log = st1.log ++ evc ∧
      callsOf st (CompileTeX w st tex outPath) =
        evp ++ evc ++ [.remove (w.Dir outPath) srcName] := by
  obtain ⟨evp, h1, h2, h3, _⟩ := prepareSource_spec w st tex outPath
  rw [hp] at h1 h3
  obtain ⟨evc, hc, _⟩ := compileSource_spec w st1 tex (w.Dir outPath)
    (TrimSuffix (w.Base outPath) (w.Ext outPath)) (joinPath (w.Dir outPath) srcName)
  refine ⟨evp, evc, h1, h2, (h3 srcName rfl).2.1, hc, ?_⟩
  apply callsOf_eq
  rw [CompileTeX_of_prepared w st tex outPath st1 srcName hp]
  show (compileSource w st1 tex _ _ _).1.log ++ [_] = _
  rw [hc, h1]
  simp

theorem latexmkMode_cases :
    latexmkMode EnginePDFLaTeX = "-pdf".toList ∧ latexmkMode EngineXeLaTeX = "-pdfxe".toList ∧
      latexmkMode EngineLuaLaTeX = "-pdflua".toList := by decide

/-- C16, as the code has it. Over an abstract toolchain probe and process
runner: whenever `CompileTeX` gets as far as the probe — the output path is
not empty and the output directory and the temporary source file are made
without error — and `latexmk` is there, `CompileTeX` runs exactly one process,
`latexmk`, whose first argument is `-pdf` for pdflatex, `-pdfxe` for xelatex
and `-pdflua` for lualatex, and never the engine itself, whether `latexmk`
succeeds or fails. -/
theorem CompileTeX_with_latexmk (w : World) (st : Sys) (tex : Bytes) (outPath : Str)
    (st1 : Sys) (srcName : Str) (hp : prepareSource w st tex outPath = (st1, .ok srcName))
    (hl : w.lookPath st1 "latexmk".toList = true) :
    let engine := selectEngine w.unicodeLower tex
    let outDir := w.Dir outPath
    let jobName := TrimSuffix (w.Base outPath) (w.Ext outPath)
    invocations (callsOf st (CompileTeX w st tex outPath)) =
        [("latexmk".toList,
          latexmkMode engine :: (latexmkArgs outDir jobName engine (joinPath outDir srcName)).tail)] ∧
      (engine = EnginePDFLaTeX → latexmkMode engine = "-pdf".toList) ∧
      (engine = EngineXeLaTeX → latexmkMode engine = "-pdfxe".toList) ∧
      (engine = EngineLuaLaTeX → latexmkMode engine = "-pdflua".toList) := by
  intro engine outDir jobName
  refine ⟨?_, fun h => by rw [h]; exact latexmkMode_cases.1,
    fun h => by rw [h]; exact latexmkMode_cases.2.1,
    fun h => by rw [h]; exact latexmkMode_cases.2.2⟩
  obtain ⟨evp, evc, _, h2, _, hc, hcalls⟩ :=
    CompileTeX_calls_of_prepared w st tex outPath st1 srcName hp
  obtain ⟨ev, hev, _, _, h4, _⟩ := compileSource_spec w st1 tex (w.Dir outPath)
    (TrimSuffix (w.Base outPath) (w.Ext outPath)) (joinPath (w.Dir outPath) srcName)
  have : evc = ev := List.append_cancel_left (hc.symm.trans hev)
  subst this
  rw [hcalls, invocations_append, invocations_append, h2, h4 hl]
  rfl

theorem CompileTeX_with_latexmk_witness :
    invocations (callsOf emptySys
        (CompileTeX brokenWorld emptySys (bytesOf "%!TEX TS-program = xelatex".toList)
          "out/doc.pdf".toList)) =
      [("latexmk".toList,
        ["-pdfxe".toList, "-synctex=1".toList, "-interaction=nonstopmode".toList,
          "-file-line-error".toList, "-halt-on-error".toList, "-outdir=out".toList,
          "-jobname=doc".toList, "out/doc-123.tex".toList])] :=
  (CompileTeX_with_latexmk brokenWorld emptySys (bytesOf "%!TEX TS-program = xelatex".toList)
    "out/doc.pdf".toList
    ⟨[("out".toList, "doc-123.tex".toList)],
      [.mkdirAll "out".toList, .createTemp "out".toList "doc-*.tex".toList,
        .write "out".toList "doc-123.tex".toList (bytesOf "%!TEX TS-program = xelatex".toList),
        .close "out".toList "doc-123.tex".toList]⟩
    "doc-123.tex".toList rfl (by decide)).1.trans (by decide)

/-- C16 as it is written fails: with `latexmk` there, a call with the empty
output path returns before the probe and runs no process at all. -/
theorem CompileTeX_with_latexmk_counterexample :
    (∀ s, readyWorld.lookPath s "latexmk".toList = true) ∧
      invocations (callsOf emptySys (CompileTeX readyWorld emptySys [] [])) = [] ∧
      (CompileTeX readyWorld emptySys [] []).2 = some .emptyOutPath :=
  ⟨fun _ => rfl, by decide, by decide⟩

/-- C17, as the code has it. Over an abstract toolchain probe: whenever
`CompileTeX` gets as far as the probe — the output path is not empty and the
output directory and the temporary source file are made without error — and
neither `latexmk` nor the binary of the selected engine is there, `CompileTeX`
fails with the missing-toolchain error, whose message begins with the name of
the selected engine; no process is run, and the only file removed is the
temporary source file: the cleanup of the auxiliary files is not run. -/
theorem CompileTeX_without_toolchain (w : World) (st : Sys) (tex : Bytes) (outPath : Str)
    (st1 : Sys) (srcName : Str) (hp : prepareSource w st tex outPath = (st1, .ok srcName))
    (hl : w.lookPath st1 "latexmk".toList = false)
    (he : w.lookPath (st1.logged (.lookPath "latexmk".toList))
      (selectEngine w.unicodeLower tex) = false) :
    let engine := selectEngine w.unicodeLower tex
    let outDir := w.Dir outPath
    let jobName := TrimSuffix (w.Base outPath) (w.Ext outPath)
    let r := CompileTeX w st tex outPath
    r.2 = some (.notFound engine) ∧
      (CompileError.notFound engine).Error =
        engine ++ " not found in PATH and latexmk is unavailable".toList ∧
      invocations (callsOf st r) = [] ∧
      removals (callsOf st r) = [(outDir, srcName)] ∧
      (∀ f ∈ auxFiles outDir jobName, f ∉ removals (callsOf st r)) := by
  intro engine outDir jobName r
  obtain ⟨evp, evc, _, h2, h3, hc, hcalls⟩ :=
    CompileTeX_calls_of_prepared w st tex outPath st1 srcName hp
  obtain ⟨ev, hev, _, _, _, h5⟩ := compileSource_spec w st1 tex (w.Dir outPath)
    (TrimSuffix (w.Base outPath) (w.Ext outPath)) (joinPath (w.Dir outPath) srcName)
  have : evc = ev := List.append_cancel_left (hc.symm.trans hev)
  subst this
  obtain ⟨hev2, hres⟩ := (h5 hl).2 he
  obtain ⟨_, _, _, hps, _⟩ := prepareSource_spec w st tex outPath
  rw [hp] at hps
  have hn : IsTempName jobName srcName := (hps srcName rfl).2.2
  have hrm : removals (callsOf st r) = [(outDir, srcName)] := by
    rw [hcalls, removals_append, removals_append, h3, hev2]
    rfl
  refine ⟨?_, rfl, ?_, hrm, ?_⟩
  · show (CompileTeX w st tex outPath).2 = _
    rw [CompileTeX_of_prepared w st tex outPath st1 srcName hp]
    exact hres
  · rw [hcalls, invocations_append, invocations_append, h2, hev2]
    rfl
  · intro f hf hm
    rw [hrm, List.mem_singleton] at hm
    subst hm
    exact tempName_not_aux jobName srcName hn outDir hf

theorem CompileTeX_without_toolchain_witness :
    (CompileTeX bareWorld emptySys (bytesOf "%!TEX TS-program = lualatex\n".toList)
        "out/doc.pdf".toList).2 = some (.notFound EngineLuaLaTeX) :=
  (CompileTeX_without_toolchain bareWorld emptySys
    (bytesOf "%!TEX TS-program = lualatex\n".toList) "out/doc.pdf".toList
    ⟨[("out".toList, "doc-123.tex".toList)],
      [.mkdirAll "out".toList, .createTemp "out".toList "doc-*.tex".toList,
        .write "out".toList "doc-123.tex".toList
          (bytesOf "%!TEX TS-program = lualatex\n".toList),
        .close "out".toList "doc-123.tex".toList]⟩
    "doc-123.tex".toList rfl (by decide) (by decide)).1.trans (by decide)

/-- C17 as it is written fails: with neither `latexmk` nor an engine there, a
call with the empty output path fails with another error, which names no
engine. -/
theorem CompileTeX_without_toolchain_counterexample :
    (∀ s name, bareWorld.lookPath s name = false) ∧
      (CompileTeX bareWorld emptySys [] []).2 = some .emptyOutPath ∧
      (∀ engine, (CompileTeX bareWorld emptySys [] []).2 ≠ some (.notFound engine)) ∧
      CompileError.emptyOutPath.Error = "output path cannot be empty".toList := by
  have h1 : (CompileTeX bareWorld emptySys [] []).2 = some .emptyOutPath := by decide
  refine ⟨fun _ _ => rfl, h1, fun engine h => ?_, rfl⟩
  rw [h1] at h
  cases h

theorem prepareSource_created (w : World) (st : Sys) (tex : Bytes) (outPath : Str)
    (st1 : Sys) (srcName : Str) (h0 : outPath ≠ [])
    (hm : w.mkdirAll st (w.Dir outPath) = none)
    (hc : osCreateTemp w (st.logged (.mkdirAll (w.Dir outPath))) (w.Dir outPath)
      (TrimSuffix (w.Base outPath) (w.Ext outPath) ++ "-*.tex".toList) = (st1, .ok srcName)) :
    (∃ st2, prepareSource w st tex outPath = (st2, .ok srcName)) ∨
      ∃ e ev, (prepareSource w st tex outPath).2 = .error e ∧
        (prepareSource w st tex outPath).1.log = st.log ++ ev ∧
        removals ev = [(w.Dir outPath, srcName)] ∧
        (w.Dir outPath, srcName) ∉ (prepareSource w st tex outPath).1.files := by
  have h1 : (osMkdirAll w st (w.Dir outPath)).2 = none := hm
  have h2 : (osMkdirAll w st (w.Dir outPath)).1 = st.logged (.mkdirAll (w.Dir outPath)) := rfl
  have hlog1 : st1.log = st.log ++ [.mkdirAll (w.Dir outPath), .createTemp (w.Dir outPath)
      (TrimSuffix (w.Base outPath) (w.Ext outPath) ++ "-*.tex".toList)] := by
    have := (osCreateTemp_spec w (st.logged (.mkdirAll (w.Dir outPath))) (w.Dir outPath)
      (TrimSuffix (w.Base outPath) (w.Ext outPath))).1
    rw [hc] at this
    rw [this]
    simp [Sys.logged]
  cases hw : (osWrite w st1 (w.Dir outPath) srcName tex).2 with
  | some e =>
    have hp : prepareSource w st tex outPath =
        (osRemove (osClose w (osWrite w st1 (w.Dir outPath) srcName tex).1 (w.Dir outPath)
          srcName).1 (w.Dir outPath) srcName, .error (.writeFailed e)) := by
      unfold prepareSource
      rw [if_neg h0]
      simp only []
      rw [h1, h2]
      simp only [hc, hw]
    refine Or.inr ⟨.writeFailed e, [.mkdirAll (w.Dir outPath), .createTemp (w.Dir outPath)
      (TrimSuffix (w.Base outPath) (w.Ext outPath) ++ "-*.tex".toList),
      .write (w.Dir outPath) srcName tex, .close (w.Dir outPath) srcName,
      .remove (w.Dir outPath) srcName], ?_, ?_, rfl, ?_⟩
    · rw [hp]
    · rw [hp]; simp [osRemove, osClose, osWrite, Sys.logged, hlog1]
    · rw [hp]; exact not_mem_osRemove_files _ _ _
  | none =>
    cases hcl : (osClose w (osWrite w st1 (w.Dir outPath) srcName tex).1 (w.Dir outPath)
        srcName).2 with
    | some e =>
      have hp : prepareSource w st tex outPath =
          (osRemove (osClose w (osWrite w st1 (w.Dir outPath) srcName tex).1 (w.Dir outPath)
            srcName).1 (w.Dir outPath) srcName, .error (.closeFailed e)) := by
        unfold prepareSource
        rw [if_neg h0]
        simp only []
        rw [h1, h2]
        simp only [hc, hw, hcl]
      refine Or.inr ⟨.closeFailed e, [.mkdirAll (w.Dir outPath), .createTemp (w.Dir outPath)
        (TrimSuffix (w.Base outPath) (w.Ext outPath) ++ "-*.tex".toList),
        .write (w.Dir outPath) srcName tex, .close (w.Dir outPath) srcName,
        .remove (w.Dir outPath) srcName], ?_, ?_, rfl, ?_⟩
      · rw [hp]
      · rw [hp]; simp [osRemove, osClose, osWrite, Sys.logged, hlog1]
      · rw [hp]; exact not_mem_osRemove_files _ _ _
    | none =>
      refine Or.inl ⟨(osClose w (osWrite w st1 (w.Dir outPath) srcName tex).1 (w.Dir outPath)
        srcName).1, ?_⟩
      unfold prepareSource
      rw [if_neg h0]
      simp only []
      rw [h1, h2]
      simp only [hc, hw, hcl]

/-- The files that `CompileTeX` removes: on success the auxiliary files of the
job and then the temporary source file; on failure nothing, or the temporary
source file alone. -/
theorem CompileTeX_removals (w : World) (st : Sys) (tex : Bytes) (outPath : Str) :
    ((CompileTeX w st tex outPath).2 = none →
      (∃ srcName, IsTempName (TrimSuffix (w.Base outPath) (w.Ext outPath)) srcName ∧
        removals (callsOf st (CompileTeX w st tex outPath)) =
          auxFiles (w.Dir outPath) (TrimSuffix (w.Base outPath) (w.Ext outPath)) ++
            [(w.Dir outPath, srcName)]) ∧
        ∀ f ∈ auxFiles (w.Dir outPath) (TrimSuffix (w.Base outPath) (w.Ext outPath)),
          f ∉ (CompileTeX w st tex outPath).1.files) ∧
      ((CompileTeX w st tex outPath).2 ≠ none →
        removals (callsOf st (CompileTeX w st tex outPath)) = [] ∨
          ∃ srcName, IsTempName (TrimSuffix (w.Base outPath) (w.Ext outPath)) srcName ∧
            removals (callsOf st (CompileTeX w st tex outPath)) = [(w.Dir outPath, srcName)]) := by
  obtain ⟨evp, hlog, _, hok, herr⟩ := prepareSource_spec w st tex outPath
  cases hp2 : (prepareSource w st tex outPath).2 with
  | error e =>
    have hp : prepareSource w st tex outPath = ((prepareSource w st tex outPath).1, .error e) := by
      rw [← hp2]
    have hr := CompileTeX_of_not_prepared w st tex outPath _ e hp
    have hcalls : callsOf st (CompileTeX w st tex outPath) = evp := by
      apply callsOf_eq; rw [hr]; exact hlog
    refine ⟨fun h => by rw [hr] at h; simp at h, fun _ => ?_⟩
    rw [hcalls]
    rcases herr e hp2 with h | ⟨s, hs, h, _⟩
    · exact Or.inl h
    · exact Or.inr ⟨s, hs, h⟩
  | ok srcName =>
    have hp : prepareSource w st tex outPath =
        ((prepareSource w st tex outPath).1, .ok srcName) := by
      rw [← hp2]
    obtain ⟨_, hrm0, hn⟩ := hok srcName hp2
    obtain ⟨evp1, evc, h1, _, h3, hc, hcalls⟩ :=
      CompileTeX_calls_of_prepared w st tex outPath _ srcName hp
    obtain ⟨ev, hev, hs, hf, _⟩ := compileSource_spec w (prepareSource w st tex outPath).1 tex
      (w.Dir outPath) (TrimSuffix (w.Base outPath) (w.Ext outPath))
      (joinPath (w.Dir outPath) srcName)
    have : evc = ev := List.append_cancel_left (hc.symm.trans hev)
    subst this
    have hr := CompileTeX_of_prepared w st tex outPath _ srcName hp
    have h2 : (CompileTeX w st tex outPath).2 = (compileSource w
        (prepareSource w st tex outPath).1 tex (w.Dir outPath)
        (TrimSuffix (w.Base outPath) (w.Ext outPath)) (joinPath (w.Dir outPath) srcName)).2 := by
      rw [hr]
    rw [hcalls, removals_append, removals_append, h3, h2]
    refine ⟨fun h => ⟨⟨srcName, hn, ?_⟩, fun f hf1 hm => ?_⟩, fun h => Or.inr ⟨srcName, hn, ?_⟩⟩
    · rw [(hs h).1]; rfl
    · rw [hr] at hm
      have hm1 : f ∈ (compileSource w (prepareSource w st tex outPath).1 tex (w.Dir outPath)
          (TrimSuffix (w.Base outPath) (w.Ext outPath))
          (joinPath (w.Dir outPath) srcName)).1.files := by
        simp only [osRemove, List.mem_filter] at hm
        exact hm.1
      exact (hs h).2 f hf1 hm1
    · rw [hf h]; rfl

/-- C20. Over an explicit model of the output directory: `CompileTeX` runs
the cleanup of the auxiliary files (the removal of the files of the job with
the known extensions) if and only if it returns success, and then none of
them is left; on every failing call `CompileTeX` removes no auxiliary file of
the job; and the temporary source file that it created is removed on every
return path, success or failure: its removal is the last removal of the call
and the file is gone on return. -/
theorem CompileTeX_cleanup_iff_success (w : World) (st : Sys) (tex : Bytes) (outPath : Str) :
    let outDir := w.Dir outPath
    let jobName := TrimSuffix (w.Base outPath) (w.Ext outPath)
    let r := CompileTeX w st tex outPath
    (r.2 = none ↔ ∀ f ∈ auxFiles outDir jobName, f ∈ removals (callsOf st r)) ∧
      (r.2 = none → ∀ f ∈ auxFiles outDir jobName, f ∉ r.1.files) ∧
      (r.2 ≠ none → ∀ f ∈ auxFiles outDir jobName, f ∉ removals (callsOf st r)) ∧
      (∀ st1 srcName, outPath ≠ [] → w.mkdirAll st outDir = none →
        osCreateTemp w (st.logged (.mkdirAll outDir)) outDir (jobName ++ "-*.tex".toList) =
            (st1, .ok srcName) →
          (removals (callsOf st r)).getLast? = some (outDir, srcName) ∧
            (outDir, srcName) ∉ r.1.files) := by
  intro outDir jobName r
  obtain ⟨hs, hf⟩ := CompileTeX_removals w st tex outPath
  have hfail : r.2 ≠ none → ∀ f ∈ auxFiles outDir jobName, f ∉ removals (callsOf st r) := by
    intro h f hfa hm
    rcases hf h with h1 | ⟨s, hn, h1⟩
    · rw [h1] at hm; simp at hm
    · rw [h1, List.mem_singleton] at hm
      subst hm
      exact tempName_not_aux jobName s hn outDir hfa
  refine ⟨⟨fun h f hfa => ?_, fun h => ?_⟩, fun h => (hs h).2, hfail, ?_⟩
  · obtain ⟨⟨s, _, h1⟩, _⟩ := hs h
    rw [h1]
    exact List.mem_append_left _ hfa
  · by_contra hne
    have hmem : (outDir, jobName ++ ".aux".toList) ∈ auxFiles outDir jobName := by
      simp [auxFiles, auxExts]
    exact hfail hne _ hmem (h _ hmem)
  · intro st1 srcName h0 hm hc
    rcases prepareSource_created w st tex outPath st1 srcName h0 hm hc with
      ⟨st2, hp⟩ | ⟨e, ev, hp2, hlog, hrm, hfiles⟩
    · obtain ⟨evp, evc, _, _, _, _, hcalls⟩ :=
        CompileTeX_calls_of_prepared w st tex outPath st2 srcName hp
      refine ⟨?_, ?_⟩
      · rw [hcalls, removals_append]
        simp [removals]
      · show _ ∉ (CompileTeX w st tex outPath).1.files
        rw [CompileTeX_of_prepared w st tex outPath st2 srcName hp]
        exact not_mem_osRemove_files _ _ _
    · have hp : prepareSource w st tex outPath =
          ((prepareSource w st tex outPath).1, .error e) := by
        rw [← hp2]
      have hr : r = ((prepareSource w st tex outPath).1, some e) :=
        CompileTeX_of_not_prepared w st tex outPath _ e hp
      have hcalls : callsOf st r = ev := by
        apply callsOf_eq; rw [hr]; exact hlog
      rw [hcalls, hrm, hr]
      exact ⟨rfl, hfiles⟩

/-- In `brokenWorld` the compiler fails: the temporary source file is
removed, and the log file that the compiler left stays. -/
theorem CompileTeX_cleanup_iff_success_witness :
    (removals (callsOf emptySys (CompileTeX brokenWorld emptySys [] "out/doc.pdf".toList))).getLast? =
        some ("out".toList, "doc-123.tex".toList) ∧
      ("out".toList, "doc-123.tex".toList) ∉
        (CompileTeX brokenWorld emptySys [] "out/doc.pdf".toList).1.files :=
  (CompileTeX_cleanup_iff_success brokenWorld emptySys [] "out/doc.pdf".toList).2.2.2
    ⟨[("out".toList, "doc-123.tex".toList)],
      [.mkdirAll "out".toList, .createTemp "out".toList "doc-*.tex".toList]⟩
    "doc-123.tex".toList (by decide) rfl rfl

theorem dropWhile_append_of_all {α : Type} (p : α → Bool) (a b : List α)
    (h : ∀ x ∈ a, p x = true) : (a ++ b).dropWhile p = b.dropWhile p := by
  induction a with
  | nil => rfl
  | cons x a ih =>
    have hx : p x = true := h x (List.mem_cons_self _ _)
    simp only [List.cons_append, List.dropWhile_cons, hx, if_true]
    exact ih (fun y hy => h y (List.mem_cons_of_mem _ hy))

theorem takeWhile_append_of_all {α : Type} (p : α → Bool) (a b : List α)
    (h : ∀ x ∈ a, p x = true) : (a ++ b).takeWhile p = a ++ b.takeWhile p := by
  induction a with
  | nil => rfl
  | cons x a ih =>
    have hx : p x = true := h x (List.mem_cons_self _ _)
    simp only [List.cons_append, List.takeWhile_cons, hx, if_true]
    rw [ih (fun y hy => h y (List.mem_cons_of_mem _ hy))]

theorem stripForm_sound (forms : List Bytes) (s r : Bytes)
    (h : stripForm forms s = some r) : ∃ f, f ∈ forms ∧ s = f ++ r := by
  induction forms with
  | nil => simp [stripForm] at h
  | cons f fs ih =>
    simp only [stripForm] at h
    split_ifs at h with hp
    · simp only [Option.some.injEq] at h
      subst h
      refine ⟨f, List.mem_cons_self _ _, ?_⟩
      have hp1 : f <+: s := List.isPrefixOf_iff_prefix.1 hp
      obtain ⟨t, rfl⟩ := hp1
      simp
    · obtain ⟨g, hg, hs⟩ := ih h
      exact ⟨g, List.mem_cons_of_mem _ hg, hs⟩

theorem matchLit_sound (lit : Str) (s r : Bytes) (h : matchLit lit s = some r) :
    ∃ l, s = l ++ r ∧ FoldMatches lit l := by
  induction lit generalizing s with
  | nil =>
    simp only [matchLit, Option.some.injEq] at h
    exact ⟨[], by simp [h], rfl⟩
  | cons c cs ih =>
    simp only [matchLit] at h
    cases hs : stripForm (foldForms c) s with
    | none => rw [hs] at h; simp at h
    | some r1 =>
      rw [hs] at h
      obtain ⟨f, hf, hsf⟩ := stripForm_sound _ _ _ hs
      obtain ⟨l, hl, hm⟩ := ih r1 h
      refine ⟨f ++ l, by rw [hsf, hl, List.append_assoc], f, l, hf, rfl, hm⟩

theorem stripForm_complete (forms : List Bytes) (hd : DistinctHeads forms) (f r : Bytes)
    (hf : f ∈ forms) : stripForm forms (f ++ r) = some r := by
  induction forms with
  | nil => simp at hf
  | cons g gs ih =>
    obtain ⟨hne, hpw⟩ := hd
    rw [List.pairwise_cons] at hpw
    simp only [stripForm]
    rcases List.mem_cons.1 hf with rfl | hfg
    · have : f.isPrefixOf (f ++ r) = true := List.isPrefixOf_iff_prefix.2 (List.prefix_append _ _)
      simp [this]
    · have hng : ¬ g.isPrefixOf (f ++ r) = true := by
        intro hp
        obtain ⟨t, ht⟩ := List.isPrefixOf_iff_prefix.1 hp
        have h1 := hpw.1 f hfg
        have hg0 := hne g (List.mem_cons_self _ _)
        have hf0 := hne f (List.mem_cons_of_mem _ hfg)
        cases g with
        | nil => exact hg0 rfl
        | cons a g =>
          cases f with
          | nil => exact hf0 rfl
          | cons b f =>
            simp only [List.cons_append, List.cons.injEq] at ht
            simp only [List.head?_cons, ne_eq, Option.some.injEq] at h1
            exact h1 ht.1
      rw [if_neg hng]
      exact ih ⟨fun x hx => hne x (List.mem_cons_of_mem _ hx), hpw.2⟩ hfg

theorem matchLit_complete (lit : Str) (hd : ∀ c ∈ lit, DistinctHeads (foldForms c))
    (l r : Bytes) (h : FoldMatches lit l) : matchLit lit (l ++ r) = some r := by
  induction lit generalizing l with
  | nil =>
    simp only [FoldMatches] at h
    subst h; rfl
  | cons c cs ih =>
    obtain ⟨f, l1, hf, rfl, hm⟩ := h
    simp only [matchLit]
    rw [List.append_assoc, stripForm_complete _ (hd c (List.mem_cons_self _ _)) f _ hf]
    exact ih (fun x hx => hd x (List.mem_cons_of_mem _ hx)) l1 hm

theorem distinctHeads_TEX : ∀ c ∈ "%!TEX".toList, DistinctHeads (foldForms c) := by decide

theorem distinctHeads_TSprogram : ∀ c ∈ "TS-program".toList, DistinctHeads (foldForms c) := by
  decide

/-- A text that `%!TEX` matches begins with `%`, and one that `TS-program`
matches with `T` or `t`: with a byte that is not white space. -/
theorem FoldMatches_head (lit : Str) (l : Bytes) (h : FoldMatches lit l)
    (hl : lit = "%!TEX".toList ∨ lit = "TS-program".toList) :
    ∃ b rest, l = b :: rest ∧ reSpace b = false := by
  rcases hl with rfl | rfl
  · obtain ⟨f, r, hf, rfl, _⟩ := h
    have : f = [37] := by
      have : foldForms '%' = [[37]] := by decide
      rw [this] at hf; simpa using hf
    subst this
    exact ⟨37, r, rfl, by decide⟩
  · obtain ⟨f, r, hf, rfl, _⟩ := h
    have : f = [84] ∨ f = [116] := by
      have : foldForms 'T' = [[84], [116]] := by decide
      rw [this] at hf; simpa using hf
    rcases this with rfl | rfl
    · exact ⟨84, r, rfl, by decide⟩
    · exact ⟨116, r, rfl, by decide⟩

theorem dropWhile_cons_of_false {α : Type} (p : α → Bool) (x : α) (l : List α)
    (h : p x = false) : (x :: l).dropWhile p = x :: l := by
  simp [List.dropWhile_cons, h]

theorem takeWhile_cons_of_false {α : Type} (p : α → Bool) (x : α) (l : List α)
    (h : p x = false) : (x :: l).takeWhile p = [] := by
  simp [List.takeWhile_cons, h]

/-- A match that starts at the head of `s` is a text of the form of the
directive that ends at the end of the text or before a line feed. -/
theorem matchDirectiveHere_sound (s name : Bytes) (h : matchDirectiveHere s = some name) :
    ∃ t post, s = t ++ post ∧ (post = [] ∨ post.head? = some 10) ∧ IsDirectiveText t name := by
  unfold matchDirectiveHere at h
  cases h1 : matchLit "%!TEX".toList (s.dropWhile reSpace) with
  | none => rw [h1] at h; simp at h
  | some s1 =>
    rw [h1] at h
    simp only [] at h
    split_ifs at h with hw1
    cases h2 : matchLit "TS-program".toList (s1.dropWhile reSpace) with
    | none => rw [h2] at h; simp at h
    | some s2 =>
      rw [h2] at h
      simp only [] at h
      cases h3 : s2.dropWhile reSpace with
      | nil => rw [h3] at h; simp at h
      | cons c s3 =>
        rw [h3] at h
        by_cases hc : c = 61
        · subst hc
          simp only [] at h
          split_ifs at h with hn hend
          simp only [Option.some.injEq] at h
          obtain ⟨l1, e1, m1⟩ := matchLit_sound _ _ _ h1
          obtain ⟨l2, e2, m2⟩ := matchLit_sound _ _ _ h2
          have es : s = s.takeWhile reSpace ++ (l1 ++ (s1.takeWhile reSpace ++
              (l2 ++ (s2.takeWhile reSpace ++ (61 :: (s3.takeWhile reSpace ++
                (name ++ (s3.dropWhile reSpace).dropWhile reNonSpace))))))) := by
            rw [← h, List.takeWhile_append_dropWhile, List.takeWhile_append_dropWhile, ← h3,
              List.takeWhile_append_dropWhile, ← e2, List.takeWhile_append_dropWhile, ← e1,
              List.takeWhile_append_dropWhile]
          have hname : ∀ b ∈ name, reSpace b = false := by
            intro b hb
            rw [← h] at hb
            have := List.mem_takeWhile_imp hb
            simpa [reNonSpace] using this
          rcases hend with hend | hend
          · refine ⟨s, [], by simp, Or.inl rfl, _, _, _, _, _, _, _, es,
              fun b hb => List.mem_takeWhile_imp hb, m1, hw1,
              fun b hb => List.mem_takeWhile_imp hb, m2,
              fun b hb => List.mem_takeWhile_imp hb,
              fun b hb => List.mem_takeWhile_imp hb, by rw [← h]; exact hn, hname,
              List.dropWhile_eq_nil_iff.1 hend⟩
          · obtain ⟨a, b, hab⟩ := List.append_of_mem hend
            have hrest : (s3.dropWhile reSpace).dropWhile reNonSpace =
                a ++ (10 :: (b ++ ((s3.dropWhile reSpace).dropWhile reNonSpace).dropWhile
                  reSpace)) := by
              conv_lhs => rw [← List.takeWhile_append_dropWhile reSpace
                ((s3.dropWhile reSpace).dropWhile reNonSpace), hab]
              simp
            have ha : ∀ x ∈ a, reSpace x = true := by
              intro x hx
              have : x ∈ List.takeWhile reSpace ((s3.dropWhile reSpace).dropWhile reNonSpace) := by
                rw [hab]; exact List.mem_append_left _ hx
              exact List.mem_takeWhile_imp this
            refine ⟨s.takeWhile reSpace ++ (l1 ++ (s1.takeWhile reSpace ++
                (l2 ++ (s2.takeWhile reSpace ++ (61 :: (s3.takeWhile reSpace ++
                  (name ++ a))))))),
              10 :: (b ++ ((s3.dropWhile reSpace).dropWhile reNonSpace).dropWhile reSpace),
              ?_, Or.inr rfl, _, _, _, _, _, _, _, rfl,
              fun b hb => List.mem_takeWhile_imp hb, m1, hw1,
              fun b hb => List.mem_takeWhile_imp hb, m2,
              fun b hb => List.mem_takeWhile_imp hb,
              fun b hb => List.mem_takeWhile_imp hb, by rw [← h]; exact hn, hname, ha⟩
            conv_lhs => rw [es, hrest]
            simp
        · split at h
          · rename_i heq
            simp only [List.cons.injEq] at heq
            exact absurd heq.1 hc
          · simp at h

/-- A text of the form of the directive, at the head of a text and up to its
end or to a line feed, is matched, and the group is its program name. -/
theorem matchDirectiveHere_complete (t post name : Bytes) (ht : IsDirectiveText t name)
    (hp : post = [] ∨ post.head? = some 10) : matchDirectiveHere (t ++ post) = some name := by
  obtain ⟨w0, l1, w1, l2, w2, w3, w4, rfl, hw0, m1, hw1ne, hw1, m2, hw2, hw3, hne, hname, hw4⟩ :=
    ht
  have e0 : w0 ++ (l1 ++ (w1 ++ (l2 ++ (w2 ++ (61 :: (w3 ++ (name ++ w4))))))) ++ post =
      w0 ++ (l1 ++ (w1 ++ (l2 ++ (w2 ++ (61 :: (w3 ++ (name ++ (w4 ++ post)))))))) := by
    simp
  -- the text after the name begins with white space, or is empty
  have hX : w4 ++ post = [] ∨ ∃ x X, w4 ++ post = x :: X ∧ reSpace x = true := by
    cases w4 with
    | nil =>
      rcases hp with rfl | hp
      · exact Or.inl rfl
      · cases post with
        | nil => exact Or.inl rfl
        | cons x X =>
          simp only [List.head?_cons, Option.some.injEq] at hp
          subst hp
          exact Or.inr ⟨10, X, rfl, by decide⟩
    | cons x X => exact Or.inr ⟨x, X ++ post, rfl, hw4 x (List.mem_cons_self _ _)⟩
  have hnameNS : ∀ b ∈ name, reNonSpace b = true := by
    intro b hb; simp [reNonSpace, hname b hb]
  have tnX : (w4 ++ post).takeWhile reNonSpace = [] := by
    rcases hX with h | ⟨x, X, h, hx⟩
    · rw [h]; rfl
    · rw [h]; exact takeWhile_cons_of_false _ _ _ (by simp [reNonSpace, hx])
  have dnX : (w4 ++ post).dropWhile reNonSpace = w4 ++ post := by
    rcases hX with h | ⟨x, X, h, hx⟩
    · rw [h]; rfl
    · rw [h]; exact dropWhile_cons_of_false _ _ _ (by simp [reNonSpace, hx])
  obtain ⟨b1, r1, hl1, hb1⟩ := FoldMatches_head _ l1 m1 (Or.inl rfl)
  obtain ⟨b2, r2, hl2, hb2⟩ := FoldMatches_head _ l2 m2 (Or.inr rfl)
  obtain ⟨n0, nr, hn0⟩ := List.exists_cons_of_ne_nil hne
  obtain ⟨x1, wr1, hx1⟩ := List.exists_cons_of_ne_nil hw1ne
  have d0 : (w0 ++ (l1 ++ (w1 ++ (l2 ++ (w2 ++ (61 :: (w3 ++ (name ++ (w4 ++ post))))))))).dropWhile
      reSpace = l1 ++ (w1 ++ (l2 ++ (w2 ++ (61 :: (w3 ++ (name ++ (w4 ++ post))))))) := by
    rw [dropWhile_append_of_all _ _ _ hw0, hl1]
    exact dropWhile_cons_of_false _ _ _ hb1
  have tw1 : ¬ (w1 ++ (l2 ++ (w2 ++ (61 :: (w3 ++ (name ++ (w4 ++ post))))))).takeWhile reSpace =
      [] := by
    rw [takeWhile_append_of_all _ _ _ hw1, hx1]
    simp
  have d1 : (w1 ++ (l2 ++ (w2 ++ (61 :: (w3 ++ (name ++ (w4 ++ post))))))).dropWhile reSpace =
      l2 ++ (w2 ++ (61 :: (w3 ++ (name ++ (w4 ++ post))))) := by
    rw [dropWhile_append_of_all _ _ _ hw1, hl2]
    exact dropWhile_cons_of_false _ _ _ hb2
  have d2 : (w2 ++ (61 :: (w3 ++ (name ++ (w4 ++ post))))).dropWhile reSpace =
      61 :: (w3 ++ (name ++ (w4 ++ post))) := by
    rw [dropWhile_append_of_all _ _ _ hw2]
    exact dropWhile_cons_of_false _ _ _ (by decide)
  have d3 : (w3 ++ (name ++ (w4 ++ post))).dropWhile reSpace = name ++ (w4 ++ post) := by
    rw [dropWhile_append_of_all _ _ _ hw3, hn0]
    exact dropWhile_cons_of_false _ _ _ (hname n0 (by rw [hn0]; exact List.mem_cons_self _ _))
  have tn : (name ++ (w4 ++ post)).takeWhile reNonSpace = name := by
    rw [takeWhile_append_of_all _ _ _ hnameNS, tnX, List.append_nil]
  have dn : (name ++ (w4 ++ post)).dropWhile reNonSpace = w4 ++ post := by
    rw [dropWhile_append_of_all _ _ _ hnameNS, dnX]
  have cond : (w4 ++ post).dropWhile reSpace = [] ∨ 10 ∈ (w4 ++ post).takeWhile reSpace := by
    rcases hp with rfl | hp
    · left
      rw [List.append_nil]
      exact List.dropWhile_eq_nil_iff.2 hw4
    · right
      cases post with
      | nil => simp at hp
      | cons x X =>
        simp only [List.head?_cons, Option.some.injEq] at hp
        subst hp
        rw [takeWhile_append_of_all _ _ _ hw4]
        apply List.mem_append_right
        simp [List.takeWhile_cons, reSpace]
  unfold matchDirectiveHere
  rw [e0, d0, matchLit_complete _ distinctHeads_TEX l1 _ m1]
  simp only []
  rw [if_neg tw1, d1, matchLit_complete _ distinctHeads_TSprogram l2 _ m2]
  simp only []
  rw [d2]
  simp only []
  rw [d3, tn, dn, if_neg hne, if_pos cond]

theorem findDirectiveFrom_iff (b : Bool) (s name : Bytes) :
    findDirectiveFrom b s = some name ↔
      ∃ i, lineStartAt b s i ∧ matchDirectiveHere (s.drop i) = some name ∧
        ∀ j < i, lineStartAt b s j → matchDirectiveHere (s.drop j) = none := by
  induction s generalizing b with
  | nil =>
    simp only [findDirectiveFrom, List.drop_nil]
    constructor
    · intro h; cases h
    · rintro ⟨i, _, h, _⟩
      have : matchDirectiveHere [] = none := by decide
      rw [this] at h; cases h
  | cons c s ih =>
    have shift : ∀ k, lineStartAt b (c :: s) (k + 1) ↔ lineStartAt (c == 10) s k := by
      intro k
      unfold lineStartAt
      cases k with
      | zero =>
        simp only [zero_add, one_ne_zero, false_and, zero_lt_one, le_refl, tsub_eq_zero_of_le,
          List.get?_cons_zero, Option.some.injEq, true_and, false_or, lt_self_iff_false,
          or_false, beq_iff_eq]
      | succ k =>
        simp only [Nat.add_eq_zero, one_ne_zero, and_false, false_and, Nat.zero_lt_succ,
          Nat.add_sub_cancel, List.get?_cons_succ, true_and, false_or]
    simp only [findDirectiveFrom]
    by_cases h0 : b = true ∧ ∃ n, matchDirectiveHere (c :: s) = some n
    · obtain ⟨hb, n, hn⟩ := h0
      rw [if_pos hb, hn]
      simp only [Option.some.injEq]
      constructor
      · rintro rfl
        exact ⟨0, Or.inl ⟨rfl, hb⟩, hn, fun j hj => absurd hj (Nat.not_lt_zero _)⟩
      · rintro ⟨i, _, hm, hmin⟩
        cases i with
        | zero =>
          rw [List.drop_zero, hn] at hm
          exact Option.some.inj hm
        | succ i =>
          have := hmin 0 (Nat.succ_pos _) (Or.inl ⟨rfl, hb⟩)
          rw [List.drop_zero, hn] at this
          cases this
    · have hnone : (if b = true then matchDirectiveHere (c :: s) else none) = none := by
        by_cases hb : b = true
        · rw [if_pos hb]
          cases hm : matchDirectiveHere (c :: s) with
          | none => rfl
          | some n => exact absurd ⟨hb, n, hm⟩ h0
        · rw [if_neg hb]
      rw [hnone]
      simp only []
      rw [ih]
      constructor
      · rintro ⟨i, hs, hm, hmin⟩
        refine ⟨i + 1, (shift i).2 hs, hm, fun j hj hls => ?_⟩
        cases j with
        | zero =>
          rcases hls with ⟨_, hb⟩ | ⟨h, _⟩
          · rw [List.drop_zero]
            rw [if_pos hb] at hnone
            exact hnone
          · exact absurd h (Nat.lt_irrefl _)
        | succ j => exact hmin j (by omega) ((shift j).1 hls)
      · rintro ⟨i, hs, hm, hmin⟩
        cases i with
        | zero =>
          rcases hs with ⟨_, hb⟩ | ⟨h, _⟩
          · rw [List.drop_zero] at hm
            exact absurd ⟨hb, name, hm⟩ h0
          · exact absurd h (Nat.lt_irrefl _)
        | succ i =>
          exact ⟨i, (shift i).1 hs, hm, fun j hj hls => hmin (j + 1) (by omega) ((shift j).2 hls)⟩

theorem DirectiveAt_iff (s : Bytes) (i : Nat) (name : Bytes) :
    DirectiveAt s i name ↔
      lineStartAt true s i ∧ matchDirectiveHere (s.drop i) = some name := by
  constructor
  · rintro ⟨pre, t, post, rfl, rfl, hpre, hpost, ht⟩
    refine ⟨?_, ?_⟩
    · rcases hpre with rfl | hl
      · exact Or.inl ⟨rfl, rfl⟩
      · right
        have hne : pre ≠ [] := by rintro rfl; simp at hl
        have hpos : 0 < pre.length := List.length_pos.2 hne
        refine ⟨hpos, ?_⟩
        rw [List.get?_eq_getElem?, List.getElem?_append_left (by omega),
          ← List.getLast?_eq_getElem?]
        exact hl
    · rw [List.drop_left]
      exact matchDirectiveHere_complete t post name ht hpost
  · rintro ⟨hls, hm⟩
    obtain ⟨t, post, hd, hpost, ht⟩ := matchDirectiveHere_sound _ _ hm
    have hi : i ≤ s.length := by
      rcases hls with ⟨rfl, _⟩ | ⟨hpos, hg⟩
      · exact Nat.zero_le _
      · have := (List.get?_eq_some.1 hg).1
        omega
    refine ⟨s.take i, t, post, ?_, by simp [hi], ?_, hpost, ht⟩
    · rw [← hd, List.take_append_drop]
    · rcases hls with ⟨rfl, _⟩ | ⟨hpos, hg⟩
      · exact Or.inl rfl
      · right
        rw [List.getLast?_eq_getElem?, List.length_take, Nat.min_eq_left hi,
          List.getElem?_take_of_lt (by omega), ← List.get?_eq_getElem?]
        exact hg

theorem findDirective_eq_some_iff (s name : Bytes) :
    findDirective s = some name ↔
      ∃ i, DirectiveAt s i name ∧ ∀ j < i, ∀ n, ¬ DirectiveAt s j n := by
  unfold findDirective
  rw [findDirectiveFrom_iff]
  constructor
  · rintro ⟨i, hls, hm, hmin⟩
    refine ⟨i, (DirectiveAt_iff s i name).2 ⟨hls, hm⟩, fun j hj n hd => ?_⟩
    obtain ⟨h1, h2⟩ := (DirectiveAt_iff s j n).1 hd
    rw [hmin j hj h1] at h2
    cases h2
  · rintro ⟨i, hd, hmin⟩
    obtain ⟨h1, h2⟩ := (DirectiveAt_iff s i name).1 hd
    refine ⟨i, h1, h2, fun j hj hls => ?_⟩
    cases hm : matchDirectiveHere (s.drop j) with
    | none => rfl
    | some n => exact absurd ((DirectiveAt_iff s j n).2 ⟨hls, hm⟩) (hmin j hj n)

theorem findDirective_eq_none_iff (s : Bytes) :
    findDirective s = none ↔ ∀ i n, ¬ DirectiveAt s i n := by
  constructor
  · intro h i n hd
    classical
    have hex : ∃ j, ∃ m, DirectiveAt s j m := ⟨i, n, hd⟩
    obtain ⟨m, hm⟩ := Nat.find_spec hex
    have : findDirective s = some m :=
      (findDirective_eq_some_iff s m).2
        ⟨Nat.find hex, hm, fun j hj k hk => Nat.find_min hex hj ⟨k, hk⟩⟩
    rw [h] at this
    cases this
  · intro h
    cases hf : findDirective s with
    | none => rfl
    | some n =>
      obtain ⟨i, hd, _⟩ := (findDirective_eq_some_iff s n).1 hf
      exact absurd hd (h i n)

theorem selectEngine_of_none (u : Bytes → Bytes) (tex : Bytes)
    (h : findDirective (tex.take 8192) = none) : selectEngine u tex = EnginePDFLaTeX := by
  unfold selectEngine detectMagicEngine
  simp only [inspected_eq_take, h]
  rfl

theorem selectEngine_of_some (u : Bytes → Bytes) (tex name : Bytes)
    (h : findDirective (tex.take 8192) = some name) :
    selectEngine u tex =
      if ToLower u name = bytesOf "xelatex".toList then EngineXeLaTeX
      else if ToLower u name = bytesOf "lualatex".toList then EngineLuaLaTeX
      else EnginePDFLaTeX := by
  unfold selectEngine detectMagicEngine
  simp only [inspected_eq_take, h]
  by_cases h1 : ToLower u name = bytesOf "xelatex".toList
  · rw [if_pos h1, if_pos h1]; rfl
  · rw [if_neg h1, if_neg h1]
    by_cases h2 : ToLower u name = bytesOf "lualatex".toList
    · rw [if_pos h2, if_pos h2]; rfl
    · rw [if_neg h2, if_neg h2]
      by_cases h3 : ToLower u name = bytesOf "pdflatex".toList
      · rw [if_pos h3]; rfl
      · rw [if_neg h3]; rfl

theorem ToLower_of_ascii (u : Bytes → Bytes) (name lit : Bytes)
    (hlit : ∀ b ∈ lit, b < 128) (h : name.map asciiLower = lit) : ToLower u name = lit := by
  have hall : (name.all fun b => decide (b < 128)) = true := by
    rw [List.all_eq_true]
    intro b hb
    have h1 : asciiLower b ∈ lit := by
      rw [← h]; exact List.mem_map_of_mem _ hb
    have h2 := hlit _ h1
    have h3 : b ≤ asciiLower b := by
      unfold asciiLower; split_ifs <;> omega
    exact decide_eq_true (by omega)
  unfold ToLower
  rw [if_pos hall, h]

theorem matchDirectiveHere_skip (w X : Bytes) (hw : ∀ b ∈ w, reSpace b = true) :
    matchDirectiveHere (w ++ X) = matchDirectiveHere X := by
  unfold matchDirectiveHere
  rw [dropWhile_append_of_all _ _ _ hw]

theorem IsDirectiveText_xelatexLine : IsDirectiveText xelatexLine (bytesOf "xelatex".toList) := by
  have h : matchDirectiveHere xelatexLine = some (bytesOf "xelatex".toList) := by decide
  obtain ⟨t, post, he, hpost, ht⟩ := matchDirectiveHere_sound _ _ h
  have hno : ∀ b ∈ xelatexLine, b ≠ 10 := by decide
  rcases hpost with rfl | hp
  · rw [List.append_nil] at he
    rw [he]; exact ht
  · cases post with
    | nil => simp at hp
    | cons x X =>
      simp only [List.head?_cons, Option.some.injEq] at hp
      subst hp
      exact absurd rfl (hno 10 (by rw [he]; simp))

theorem findDirective_xelatexLine (rest : Bytes) (h : rest = [] ∨ rest.head? = some 10) :
    findDirective (xelatexLine ++ rest) = some (bytesOf "xelatex".toList) :=
  (findDirective_eq_some_iff _ _).2
    ⟨0, ⟨[], xelatexLine, rest, rfl, rfl, Or.inl rfl, h, IsDirectiveText_xelatexLine⟩,
      fun _ hj => absurd hj (Nat.not_lt_zero _)⟩

theorem testBit_of_lt_two_pow_32 (v i : Nat) (hv : v < 2 ^ 32) (hi : 32 ≤ i) :
    v.testBit i = false :=
  Nat.testBit_eq_false_of_lt (lt_of_lt_of_le hv (Nat.pow_le_pow_right (by norm_num) hi))

theorem two_pow_sub_eq_shift (k : Nat) (hk : k ≤ 32) :
    2 ^ 32 - 2 ^ (32 - k) = (2 ^ k - 1) <<< (32 - k) := by
  rw [Nat.shiftLeft_eq, Nat.sub_mul, one_mul, ← pow_add]
  congr 2
  omega

theorem topBitsOnes_two_pow_sub (k : Nat) (hk : k ≤ 32) :
    TopBitsOnes (2 ^ 32 - 2 ^ (32 - k)) k := by
  intro i hi
  rw [two_pow_sub_eq_shift k hk, Nat.testBit_shiftLeft, Nat.testBit_two_pow_sub_one]
  simp only [ge_iff_le, Bool.and_eq_true, decide_eq_true_eq]
  omega

/-- A 32-bit value is `2^32 - 2^(32-k)` exactly when its top `k` bits are ones
and the others zeros. -/
theorem eq_two_pow_sub_iff_topBitsOnes (v k : Nat) (hv : v < 2 ^ 32) (hk : k ≤ 32) :
    v = 2 ^ 32 - 2 ^ (32 - k) ↔ TopBitsOnes v k := by
  constructor
  · rintro rfl
    exact topBitsOnes_two_pow_sub k hk
  · intro h
    have hw : 2 ^ 32 - 2 ^ (32 - k) < 2 ^ 32 :=
      Nat.sub_lt (by norm_num) (Nat.two_pow_pos _)
    apply Nat.eq_of_testBit_eq
    intro i
    by_cases hi : i < 32
    · rw [Bool.eq_iff_iff]
      exact (h i hi).trans (topBitsOnes_two_pow_sub k hk i hi).symm
    · rw [testBit_of_lt_two_pow_32 v i hv (by omega),
        testBit_of_lt_two_pow_32 _ i hw (by omega)]

theorem isOnesThenZeros_iff_topBitsOnes (v : Nat) (hv : v < 2 ^ 32) :
    IsOnesThenZeros v ↔ ∃ k, k ≤ 32 ∧ TopBitsOnes v k := by
  unfold IsOnesThenZeros
  constructor
  · rintro ⟨k, hk, h⟩
    exact ⟨k, hk, (eq_two_pow_sub_iff_topBitsOnes v k hv hk).1 h⟩
  · rintro ⟨k, hk, h⟩
    exact ⟨k, hk, (eq_two_pow_sub_iff_topBitsOnes v k hv hk).2 h⟩

/-- The test `inv & (inv+1) == 0` alone, in 32-bit arithmetic, holds for the
all-zero value too: its complement is all ones and the increment wraps to 0. -/
theorem complement_test_iff (v : Nat) (hv : v < 2 ^ 32) :
    (2 ^ 32 - 1 - v) &&& ((2 ^ 32 - 1 - v + 1) % 2 ^ 32) = 0 ↔ IsOnesThenZeros v := by
  rw [← contiguous_test_iff v hv]
  constructor
  · exact Or.inr
  · rintro (rfl | h)
    · decide
    · exact h

theorem isContiguousIPv4Mask_of_length_ne (m : List Nat) (h : m.length ≠ 4) :
    isContiguousIPv4Mask m = false := by
  unfold isContiguousIPv4Mask
  split
  · simp at h
  · rfl

/-- C21. For every mask of four bytes, read as the 32-bit big-endian value
`v`, `isContiguousIPv4Mask` returns true if and only if there is a `k` from 0
to 32 such that the top `k` bits of `v` are ones and the other `32 - k` bits
are zeros (the all-zero and the all-ones mask included); the test
`inv & (inv+1) == 0` on the complement, in 32-bit wrap-around arithmetic,
decides exactly this; `v` is the value that the shifts of the code build. For
a mask whose length is not 4 the result is false. -/
theorem isContiguousIPv4Mask_top_bits (m : List Nat) (hm : ∀ b ∈ m, b < 256) :
    (m.length ≠ 4 → isContiguousIPv4Mask m = false) ∧
      ∀ a b c d, m = [a, b, c, d] →
        (isContiguousIPv4Mask m = true ↔ ∃ k, k ≤ 32 ∧ TopBitsOnes (be32 a b c d) k) ∧
        ((2 ^ 32 - 1 - be32 a b c d) &&& ((2 ^ 32 - 1 - be32 a b c d + 1) % 2 ^ 32) = 0 ↔
          ∃ k, k ≤ 32 ∧ TopBitsOnes (be32 a b c d) k) ∧
        (a <<< 24 ||| b <<< 16 ||| c <<< 8 ||| d) % 2 ^ 32 = be32 a b c d ∧
        be32 a b c d < 2 ^ 32 := by
  refine ⟨isContiguousIPv4Mask_of_length_ne m, ?_⟩
  rintro a b c d rfl
  have ha : a < 256 := hm a (by simp)
  have hb : b < 256 := hm b (by simp)
  have hc : c < 256 := hm c (by simp)
  have hd : d < 256 := hm d (by simp)
  have hv := be32_lt a b c d ha hb hc hd
  refine ⟨?_, ?_, ?_, hv⟩
  · rw [isContiguousIPv4Mask_iff a b c d ha hb hc hd, isOnesThenZeros_iff_topBitsOnes _ hv]
  · rw [complement_test_iff _ hv, isOnesThenZeros_iff_topBitsOnes _ hv]
  · rw [shift_or_eq_be32 a b c d hb hc hd, Nat.mod_eq_of_lt hv]

/-- The mask `255.255.240.0` has its top 20 bits set, and the masks
`0.0.0.0` and `255.255.255.255` are the cases `k = 0` and `k = 32`; the mask
`255.0.255.0` is no such value. -/
theorem isContiguousIPv4Mask_top_bits_witness :
    (∃ k, k ≤ 32 ∧ TopBitsOnes (be32 255 255 240 0) k) ∧
      isContiguousIPv4Mask [0, 0, 0, 0] = true ∧
      isContiguousIPv4Mask [255, 255, 255, 255] = true ∧
      ¬ ∃ k, k ≤ 32 ∧ TopBitsOnes (be32 255 0 255 0) k :=
  ⟨((isContiguousIPv4Mask_top_bits [255, 255, 240, 0] (by decide)).2 255 255 240 0 rfl).1.1
      (by decide),
    by decide, by decide,
    fun h => absurd
      (((isContiguousIPv4Mask_top_bits [255, 0, 255, 0] (by decide)).2 255 0 255 0 rfl).1.2 h)
      (by decide)⟩

theorem isLeap_eq_gregorianLeap (year : Nat) : isLeap year = gregorianLeap year := by
  unfold isLeap gregorianLeap
  rw [Bool.eq_iff_iff]
  simp only [Bool.and_eq_true, beq_iff_eq, Bool.or_eq_true, bne_iff_ne, ne_eq,
    decide_eq_true_eq]
  omega

theorem daysIn_eq_gregorianDays (month year : Nat) (h1 : 1 ≤ month) (h2 : month ≤ 12) :
    daysIn month year = gregorianDays month year := by
  unfold daysIn gregorianDays
  rw [isLeap_eq_gregorianLeap]
  interval_cases month <;> simp

/-- `time.Parse` on a text of the shape `DD.MM.YYYY`: the month and then the
day are checked against their ranges. -/
theorem parseDate_of_shape (d1 d2 m1 m2 y1 y2 y3 y4 : Char)
    (hd1 : isDigit d1 = true) (hd2 : isDigit d2 = true) (hm1 : isDigit m1 = true)
    (hm2 : isDigit m2 = true) (hy1 : isDigit y1 = true) (hy2 : isDigit y2 = true)
    (hy3 : isDigit y3 = true) (hy4 : isDigit y4 = true) :
    parseDate [d1, d2, '.', m1, m2, '.', y1, y2, y3, y4] =
      if digitVal m1 * 10 + digitVal m2 = 0 ∨ 12 < digitVal m1 * 10 + digitVal m2 then none
      else if digitVal d1 * 10 + digitVal d2 < 1 ∨
          digitVal d1 * 10 + digitVal d2 >
            daysIn (digitVal m1 * 10 + digitVal m2)
              (digitVal y1 * 1000 + digitVal y2 * 100 + digitVal y3 * 10 + digitVal y4) then none
      else some (digitVal d1 * 10 + digitVal d2, digitVal m1 * 10 + digitVal m2,
        digitVal y1 * 1000 + digitVal y2 * 100 + digitVal y3 * 10 + digitVal y4) := by
  simp only [parseDate, getnum2, skipDot, getyear4, hd1, hd2, hm1, hm2, hy1, hy2, hy3, hy4,
    and_self, if_true, ne_eq, not_true_eq_false, if_false]

theorem validateDate_of_shape (path : Str) (d1 d2 m1 m2 y1 y2 y3 y4 : Char)
    (hd1 : isDigit d1 = true) (hd2 : isDigit d2 = true) (hm1 : isDigit m1 = true)
    (hm2 : isDigit m2 = true) (hy1 : isDigit y1 = true) (hy2 : isDigit y2 = true)
    (hy3 : isDigit y3 = true) (hy4 : isDigit y4 = true) :
    validateDate path (some [d1, d2, '.', m1, m2, '.', y1, y2, y3, y4]) = none ↔
      1 ≤ digitVal m1 * 10 + digitVal m2 ∧ digitVal m1 * 10 + digitVal m2 ≤ 12 ∧
      1 ≤ digitVal d1 * 10 + digitVal d2 ∧
      digitVal d1 * 10 + digitVal d2 ≤
        gregorianDays (digitVal m1 * 10 + digitVal m2)
          (digitVal y1 * 1000 + digitVal y2 * 100 + digitVal y3 * 10 + digitVal y4) := by
  have htrim : TrimSpace [d1, d2, '.', m1, m2, '.', y1, y2, y3, y4] =
      [d1, d2, '.', m1, m2, '.', y1, y2, y3, y4] := by
    apply TrimSpace_eq_self
    · intro c hc
      simp only [List.head?_cons, Option.some.injEq] at hc
      subst hc
      exact isDigit_not_isSpace _ hd1
    · intro c hc
      have : c = y4 := by simpa using hc.symm
      subst this
      exact isDigit_not_isSpace _ hy4
  unfold validateDate
  simp only [strOrEmpty_some, htrim]
  rw [if_neg (by simp),
    parseDate_of_shape d1 d2 m1 m2 y1 y2 y3 y4 hd1 hd2 hm1 hm2 hy1 hy2 hy3 hy4]
  by_cases hm : digitVal m1 * 10 + digitVal m2 = 0 ∨ 12 < digitVal m1 * 10 + digitVal m2
  · rw [if_pos hm, if_pos rfl]
    simp only [reduceCtorEq, false_iff]
    intro ⟨h1, h2, _, _⟩
    omega
  · rw [if_neg hm]
    have a1 : 1 ≤ digitVal m1 * 10 + digitVal m2 := by omega
    have a2 : digitVal m1 * 10 + digitVal m2 ≤ 12 := by omega
    rw [← daysIn_eq_gregorianDays _ _ a1 a2]
    by_cases hd : digitVal d1 * 10 + digitVal d2 < 1 ∨
        digitVal d1 * 10 + digitVal d2 >
          daysIn (digitVal m1 * 10 + digitVal m2)
            (digitVal y1 * 1000 + digitVal y2 * 100 + digitVal y3 * 10 + digitVal y4)
    · rw [if_pos hd, if_pos rfl]
      simp only [reduceCtorEq, false_iff]
      intro ⟨_, _, h3, h4⟩
      omega
    · rw [if_neg hd, if_neg (by simp)]
      simp only [true_iff]
      exact ⟨a1, a2, by omega, by omega⟩

/-- C22. `validateDate` checks the calendar, not only the shape: for every
text of the shape `DD.MM.YYYY` (ASCII digits) it reports no finding if and
only if the month is from 1 to 12 and the day is from 1 to the number of days
of that month in that year under the Gregorian leap-year rule; so
`31.02.2024`, `29.02.2023`, `00.01.2024` and `01.13.2024` are rejected
although they have the shape, and `29.02.2024` is accepted. -/
theorem validateDate_checks_calendar (path : Str) (d1 d2 m1 m2 y1 y2 y3 y4 : Char)
    (hd1 : isDigit d1 = true) (hd2 : isDigit d2 = true) (hm1 : isDigit m1 = true)
    (hm2 : isDigit m2 = true) (hy1 : isDigit y1 = true) (hy2 : isDigit y2 = true)
    (hy3 : isDigit y3 = true) (hy4 : isDigit y4 = true) :
    (validateDate path (some [d1, d2, '.', m1, m2, '.', y1, y2, y3, y4]) = none ↔
        1 ≤ digitVal m1 * 10 + digitVal m2 ∧ digitVal m1 * 10 + digitVal m2 ≤ 12 ∧
        1 ≤ digitVal d1 * 10 + digitVal d2 ∧
        digitVal d1 * 10 + digitVal d2 ≤
          gregorianDays (digitVal m1 * 10 + digitVal m2)
            (digitVal y1 * 1000 + digitVal y2 * 100 + digitVal y3 * 10 + digitVal y4)) ∧
      validateDate path (some "31.02.2024".toList) ≠ none ∧
      validateDate path (some "29.02.2023".toList) ≠ none ∧
      validateDate path (some "00.01.2024".toList) ≠ none ∧
      validateDate path (some "01.13.2024".toList) ≠ none ∧
      validateDate path (some "29.02.2024".toList) = none := by
  refine ⟨validateDate_of_shape path d1 d2 m1 m2 y1 y2 y3 y4 hd1 hd2 hm1 hm2 hy1 hy2 hy3 hy4,
    ?_, ?_, ?_, ?_, ?_⟩
  · exact fun h => absurd ((validateDate_of_shape path '3' '1' '0' '2' '2' '0' '2' '4'
      (by decide) (by decide) (by decide) (by decide) (by decide) (by decide) (by decide)
      (by decide)).1 h) (by decide)
  · exact fun h => absurd ((validateDate_of_shape path '2' '9' '0' '2' '2' '0' '2' '3'
      (by decide) (by decide) (by decide) (by decide) (by decide) (by decide) (by decide)
      (by decide)).1 h) (by decide)
  · exact fun h => absurd ((validateDate_of_shape path '0' '0' '0' '1' '2' '0' '2' '4'
      (by decide) (by decide) (by decide) (by decide) (by decide) (by decide) (by decide)
      (by decide)).1 h) (by decide)
  · exact fun h => absurd ((validateDate_of_shape path '0' '1' '1' '3' '2' '0' '2' '4'
      (by decide) (by decide) (by decide) (by decide) (by decide) (by decide) (by decide)
      (by decide)).1 h) (by decide)
  · exact (validateDate_of_shape path '2' '9' '0' '2' '2' '0' '2' '4'
      (by decide) (by decide) (by decide) (by decide) (by decide) (by decide) (by decide)
      (by decide)).2 (by decide)

/-- The 30th of April 1900 is a date, and the 29th of February 1900 is not:
100 divides 1900 and 400 does not. -/
theorem validateDate_checks_calendar_witness :
    validateDate [] (some "30.04.1900".toList) = none ∧
      validateDate [] (some "29.02.1900".toList) ≠ none :=
  ⟨(validateDate_checks_calendar [] '3' '0' '0' '4' '1' '9' '0' '0'
      (by decide) (by decide) (by decide) (by decide) (by decide) (by decide) (by decide)
      (by decide)).1.2 (by decide),
    fun h => absurd ((validateDate_checks_calendar [] '2' '9' '0' '2' '1' '9' '0' '0'
      (by decide) (by decide) (by decide) (by decide) (by decide) (by decide) (by decide)
      (by decide)).1.1 h) (by decide)⟩

theorem isAlnum_of_isDigit (c : Char) (h : isDigit c = true) : isAlnum c = true := by
  simp [isAlnum, h]

theorem isAlnumHyphen_of_isDigit (c : Char) (h : isDigit c = true) :
    isAlnumHyphen c = true := by
  simp [isAlnumHyphen, isAlnum, h]

/-- A label of 1 to 63 digits satisfies the label rules. -/
theorem IsHostLabel_of_digits (l : Str) (h1 : 1 ≤ l.length) (h2 : l.length ≤ 63)
    (hd : ∀ c ∈ l, isDigit c = true) : IsHostLabel l := by
  have hne : l ≠ [] := by
    rintro rfl
    simp at h1
  refine ⟨h1, h2, ?_, ?_, fun c hc => isAlnumHyphen_of_isDigit c (hd c hc)⟩
  · obtain ⟨a, t, rfl⟩ := List.exists_cons_of_ne_nil hne
    exact ⟨a, rfl, isAlnum_of_isDigit a (hd a (List.mem_cons_self _ _))⟩
  · refine ⟨l.getLast hne, List.getLast?_eq_getLast _ hne, ?_⟩
    exact isAlnum_of_isDigit _ (hd _ (List.getLast_mem hne))

theorem not_isDigit_dot : isDigit '.' = false := by decide

/-- The rule on an all-numeric dotted name: every label passes the label
rules, whatever `net.ParseIP` says. -/
theorem validateHostnameOrIP_of_numeric (path t : Str) (ht : IsNumericDottedName t) :
    validateHostnameOrIP path (some t) = none := by
  obtain ⟨labels, hne, hl, rfl, hlen⟩ := ht
  have hsplit : SplitDot (['.'].intercalate labels) = labels := by
    unfold SplitDot
    apply List.splitOn_intercalate
    · intro l hlm hdot
      have := (hl l hlm).2.2 '.' hdot
      rw [not_isDigit_dot] at this
      cases this
    · exact hne
  have hall : ∀ lbl ∈ SplitDot (['.'].intercalate labels),
      1 ≤ lbl.length ∧ lbl.length ≤ 63 ∧ lbl ∈ specHostnameLabel.lang := by
    intro lbl hm
    rw [hsplit] at hm
    obtain ⟨a, b, c⟩ := hl lbl hm
    exact (IsHostLabel_iff lbl).1 (IsHostLabel_of_digits lbl a b c)
  have hchar : ∀ c ∈ ['.'].intercalate labels, isSpace c = false := by
    intro c hc
    rcases mem_SplitDot _ c hc with rfl | ⟨lbl, hm, hcl⟩
    · decide
    · rw [hsplit] at hm
      exact isDigit_not_isSpace c ((hl lbl hm).2.2 c hcl)
  have htrim : TrimSpace (['.'].intercalate labels) = ['.'].intercalate labels :=
    TrimSpace_eq_self _ (fun c hc => hchar c (List.mem_of_mem_head? hc))
      (fun c hc => hchar c (List.mem_of_mem_getLast? hc))
  have hnil : ['.'].intercalate labels ≠ [] := by
    intro h0
    rw [h0] at hsplit
    have h1 : SplitDot [] = [[]] := by decide
    rw [h1] at hsplit
    have := (hl [] (by rw [← hsplit]; simp)).1
    simp at this
  unfold validateHostnameOrIP
  simp only [strOrEmpty_some, htrim]
  rw [if_neg hnil]
  by_cases hip : ParseIP (['.'].intercalate labels) ≠ none
  · rw [if_pos hip]
  · rw [if_neg hip, (firstBadLabel_none_iff _).2 hall]
    simp only []
    rw [goLen_of_labels _ hall, if_neg (by omega)]

/-- C23. `validateHostnameOrIP` accepts every all-numeric dotted name: for
every text of total length at most 253 made of one or more dot-separated
labels of 1 to 63 ASCII digits each, it reports no finding, whether or not
the text is a valid IP literal; so the out-of-range dotted quads
`999.999.999.999` and `256.1.1.1`, which are no IP literals, pass as the
address of a surrounding system. -/
theorem validateHostnameOrIP_numeric_name (path s : Str) (h : IsNumericDottedName s) :
    validateHostnameOrIP path (some s) = none ∧
      (∀ sys : SurroundingSystem, sys.Address = some s → sys.Validate path = none) ∧
      ParseIP "999.999.999.999".toList = none ∧ ParseIP "256.1.1.1".toList = none ∧
      validateHostnameOrIP path (some "999.999.999.999".toList) = none ∧
      validateHostnameOrIP path (some "256.1.1.1".toList) = none := by
  have h999 : IsNumericDottedName "999.999.999.999".toList :=
    ⟨["999".toList, "999".toList, "999".toList, "999".toList], by simp,
      by decide, by decide, by decide⟩
  have h256 : IsNumericDottedName "256.1.1.1".toList :=
    ⟨["256".toList, "1".toList, "1".toList, "1".toList], by simp,
      by decide, by decide, by decide⟩
  refine ⟨validateHostnameOrIP_of_numeric path s h, ?_, by decide, by decide,
    validateHostnameOrIP_of_numeric path _ h999, validateHostnameOrIP_of_numeric path _ h256⟩
  intro sys hs
  unfold SurroundingSystem.Validate
  rw [hs, validateHostnameOrIP_of_numeric _ s h]
  rfl

theorem validateHostnameOrIP_numeric_name_witness :
    validateHostnameOrIP [] (some "300.0400.5".toList) = none :=
  (validateHostnameOrIP_numeric_name [] "300.0400.5".toList
    ⟨["300".toList, "0400".toList, "5".toList], by simp, by decide, by decide, by decide⟩).1

/-! ## Subnet masks: the dotted form -/

/-- A text that the dotted-quad parser reads is made of digits and dots, and
holds a dot when fewer than three octets are stored. -/
theorem parseIPv4Fields_chars (s : Str) :
    ∀ (prev : Option Char) (val pos digLen : Nat) (fields r : List Nat),
      parseIPv4Fields prev s val pos digLen fields = some r → pos ≤ 3 →
        (∀ c ∈ s, isDigit c = true ∨ c = '.') ∧ (pos < 3 → '.' ∈ s) ∧
          r.length = fields.length + 1 + (3 - pos) := by
  induction s with
  | nil =>
    intro prev val pos digLen fields r h hle
    simp only [parseIPv4Fields] at h
    split_ifs at h with hp
    simp only [Option.some.injEq] at h
    subst h
    refine ⟨by simp, fun h3 => absurd h3 hp, ?_⟩
    simp only [List.length_append, List.length_singleton]
    omega
  | cons c cs ih =>
    intro prev val pos digLen fields r h hle
    simp only [parseIPv4Fields] at h
    by_cases hd : isDigit c = true
    · rw [if_pos hd] at h
      split_ifs at h
      obtain ⟨h1, h2, h3⟩ := ih _ _ _ _ _ _ h hle
      refine ⟨?_, fun hp => List.mem_cons_of_mem _ (h2 hp), h3⟩
      intro x hx
      rcases List.mem_cons.1 hx with rfl | hx
      · exact Or.inl hd
      · exact h1 x hx
    · rw [if_neg hd] at h
      by_cases hc : c = '.'
      · rw [if_pos hc] at h
        split_ifs at h with _ hp3
        obtain ⟨h1, _, h3⟩ := ih _ _ _ _ _ _ h (by omega)
        refine ⟨?_, fun _ => by rw [hc]; exact List.mem_cons_self _ _, ?_⟩
        · intro x hx
          rcases List.mem_cons.1 hx with rfl | hx
          · exact Or.inr hc
          · exact h1 x hx
        · rw [h3, List.length_append, List.length_singleton]
          omega
      · rw [if_neg hc] at h
        cases h

theorem ParseIP_of_parseIPv4 (t : Str) (f : List Nat) (h : parseIPv4 t = some f) :
    ParseIP t = some (List.replicate 10 0 ++ [0xff, 0xff] ++ f) := by
  obtain ⟨h1, h2, _⟩ := parseIPv4Fields_chars t none 0 0 0 [] f h (by norm_num)
  have hdot : '.' ∈ t := h2 (by norm_num)
  unfold ParseIP
  cases hf : t.find? (fun c => c == '.' || c == ':' || c == '%') with
  | none =>
    have := List.find?_eq_none.1 hf '.' hdot
    simp at this
  | some c =>
    have hp := List.find?_some hf
    have hm := List.mem_of_find?_eq_some hf
    have hc : c = '.' := by
      rcases h1 c hm with hd | hd
      · simp only [Bool.or_eq_true, beq_iff_eq] at hp
        rcases hp with (rfl | rfl) | rfl <;> exact absurd hd (by decide)
      · exact hd
    subst hc
    simp only [h, Option.map_some']

theorem To4_mapped (f : List Nat) (hf : f.length = 4) :
    To4 (List.replicate 10 0 ++ [0xff, 0xff] ++ f) = some f := by
  match f, hf with
  | [a, b, c, d], _ => simp [To4, List.replicate]

/-- Without a colon, `net.ParseIP` and `IP.To4` read exactly the dotted
quads. -/
theorem To4_ParseIP_iff_parseIPv4 (t : Str) (ht : ¬ IsMappedIPv6 t) (a b c d : Nat) :
    (∃ ip, ParseIP t = some ip ∧ To4 ip = some [a, b, c, d]) ↔
      parseIPv4 t = some [a, b, c, d] := by
  constructor
  · rintro ⟨ip, hip, h4⟩
    have hcolon : ':' ∉ t := fun hc => ht ⟨hc, ip, _, hip, h4⟩
    unfold ParseIP at hip
    split at hip
    · cases hp : parseIPv4 t with
      | none => rw [hp] at hip; simp at hip
      | some f =>
        rw [hp] at hip
        simp only [Option.map_some', Option.some.injEq] at hip
        subst hip
        have hlen : f.length = 4 := by
          have := (parseIPv4Fields_chars t none 0 0 0 [] f hp (by norm_num)).2.2
          simpa using this
        rw [To4_mapped f hlen] at h4
        exact h4
    · rename_i hfind
      exact absurd (List.mem_of_find?_eq_some hfind) hcolon
    · cases hip
  · intro h
    exact ⟨_, ParseIP_of_parseIPv4 t _ h, To4_mapped _ rfl⟩

/-- C4, as the code has it by design. For every string `s` whose value `t`,
once its surrounding white space is removed, is not empty and is no IPv6
literal of an IPv4-mapped address, `validateSubnetMask` reports no finding if
and only if `t` is `/N` with `N` a decimal number from 0 to 32, or `t` is a
dotted IPv4 value whose 32 bits are contiguous ones followed by contiguous
zeros, the all-zero mask included. `/24` and `255.255.255.0` are accepted,
`/33` and `255.255.0.255` are rejected. -/
theorem validateSubnetMask_none_iff (path s : Str) (hne : TrimSpace s ≠ [])
    (hmapped : ¬ IsMappedIPv6 (TrimSpace s)) :
    (validateSubnetMask path (some s) = none ↔
        (∃ n, n ≤ 32 ∧ TrimSpace s = '/' :: itoa n) ∨
        (∃ a b c d, parseIPv4 (TrimSpace s) = some [a, b, c, d] ∧
          IsOnesThenZeros (be32 a b c d))) ∧
      validateSubnetMask path (some "/24".toList) = none ∧
      validateSubnetMask path (some "255.255.255.0".toList) = none ∧
      validateSubnetMask path (some "/33".toList) ≠ none ∧
      validateSubnetMask path (some "255.255.0.255".toList) ≠ none ∧
      validateSubnetMask path (some "0.0.0.0".toList) = none := by
  have hex : ∀ x : Str, validateSubnetMask path (some x) = validateSubnetMask [] (some x) :=
    fun _ => rfl
  refine ⟨?_, by rw [hex]; decide, by rw [hex]; decide, by rw [hex]; decide,
    by rw [hex]; decide, by rw [hex]; decide⟩
  rw [validateSubnetMask_accepts_iff_To4.1 path s hne]
  constructor
  · rintro (h | ⟨ip, a, b, c, d, hip, h4, hones⟩)
    · exact Or.inl h
    · exact Or.inr ⟨a, b, c, d,
        (To4_ParseIP_iff_parseIPv4 _ hmapped a b c d).1 ⟨ip, hip, h4⟩, hones⟩
  · rintro (h | ⟨a, b, c, d, hp, hones⟩)
    · exact Or.inl h
    · obtain ⟨ip, hip, h4⟩ := (To4_ParseIP_iff_parseIPv4 _ hmapped a b c d).2 hp
      exact Or.inr ⟨ip, a, b, c, d, hip, h4, hones⟩

theorem validateSubnetMask_none_iff_witness :
    validateSubnetMask [] (some " 255.255.240.0 ".toList) = none :=
  ((validateSubnetMask_none_iff [] " 255.255.240.0 ".toList (by decide)
    (fun h => absurd h.1 (by decide))).1).2
      (Or.inr ⟨255, 255, 240, 0, by decide, 20, by decide, by decide⟩)

/-- C4 fails as stated at ` /24`, with a leading space: the string is not
blank and is neither `/N` nor a dotted IPv4 value, yet `validateSubnetMask`
reports no finding, because the value is trimmed before it is matched. -/
theorem validateSubnetMask_counterexample :
    TrimSpace " /24".toList ≠ [] ∧ validateSubnetMask [] (some " /24".toList) = none ∧
      ¬ ((∃ n, n ≤ 32 ∧ " /24".toList = '/' :: itoa n) ∨
        (∃ a b c d, parseIPv4 " /24".toList = some [a, b, c, d] ∧
          IsOnesThenZeros (be32 a b c d))) := by
  refine ⟨by decide, by decide, ?_⟩
  rintro (⟨n, _, h⟩ | ⟨a, b, c, d, h, _⟩)
  · simp only [String.toList, List.cons.injEq] at h
    exact absurd h.1 (by decide)
  · have hn : parseIPv4 " /24".toList = none := by decide
    rw [hn] at h
    exact absurd h (by simp)

/-- The values that the amended rule leaves out: `validateSubnetMask` reports
no finding for the IPv6 literals `::ffff:255.255.255.0` and `::ffff:ffff:ff00`
of the IPv4-mapped address 255.255.255.0, which are neither `/N` nor a dotted
IPv4 mask, the two forms that the comment of the function names. -/
theorem validateSubnetMask_mapped_literal :
    IsMappedIPv6 "::ffff:255.255.255.0".toList ∧ IsMappedIPv6 "::ffff:ffff:ff00".toList ∧
      validateSubnetMask [] (some "::ffff:255.255.255.0".toList) = none ∧
      validateSubnetMask [] (some "::ffff:ffff:ff00".toList) = none ∧
      parseIPv4 "::ffff:255.255.255.0".toList = none ∧
      parseIPv4 "::ffff:ffff:ff00".toList = none :=
  ⟨⟨by decide, [0, 0, 0, 0, 0, 0, 0, 0, 0, 0, 255, 255, 255, 255, 255, 0], [255, 255, 255, 0],
      by decide, by decide⟩,
    ⟨by decide, [0, 0, 0, 0, 0, 0, 0, 0, 0, 0, 255, 255, 255, 255, 255, 0], [255, 255, 255, 0],
      by decide, by decide⟩,
    by decide, by decide, by decide, by decide⟩

/-! ## The failure after a run that ends with an error -/

theorem compileSource_latexmk_result (w : World) (st : Sys) (tex : Bytes)
    (outDir jobName srcPath : Str) (hl : w.lookPath st "latexmk".toList = true) :
    (compileSource w st tex outDir jobName srcPath).2 =
      (compileWithLatexmk w (st.logged (.lookPath "latexmk".toList)) outDir outDir jobName
        (selectEngine w.unicodeLower tex) srcPath).2 := by
  unfold compileSource
  simp only []
  have h1 : (hasBinary w st "latexmk".toList).2 = true := hl
  rw [if_pos h1]
  split
  · rename_i err heq
    exact heq.symm
  · rename_i heq
    exact heq.symm

theorem compileSource_raw_result (w : World) (st : Sys) (tex : Bytes)
    (outDir jobName srcPath : Str) (hl : w.lookPath st "latexmk".toList = false)
    (he : w.lookPath (st.logged (.lookPath "latexmk".toList))
      (selectEngine w.unicodeLower tex) = true) :
    (compileSource w st tex outDir jobName srcPath).2 =
      (compileRawEngine w
        ((st.logged (.lookPath "latexmk".toList)).logged
          (.lookPath (selectEngine w.unicodeLower tex)))
        outDir outDir jobName (selectEngine w.unicodeLower tex) srcPath).2 := by
  unfold compileSource
  simp only []
  have h1 : ¬ (hasBinary w st "latexmk".toList).2 = true := by
    show ¬ w.lookPath st "latexmk".toList = true
    rw [hl]; simp
  rw [if_neg h1]
  have h2 : ¬ (!(hasBinary w (hasBinary w st "latexmk".toList).1
      (selectEngine w.unicodeLower tex)).2) = true := by
    show ¬ (!w.lookPath (st.logged (.lookPath "latexmk".toList)) _) = true
    rw [he]; simp
  rw [if_neg h2]
  split
  · rename_i err heq
    exact heq.symm
  · rename_i heq
    exact heq.symm

/-- The result of `compileRawEngine` by the first pass whose run ends with an
error, whatever the error is. -/
theorem compileRawEngine_result (w : World) (st : Sys) (workDir outDir jobName : Str)
    (engine : Engine) (path : Str) :
    (∀ e, (runCmd w st workDir engine (rawEngineArgs outDir jobName path)).2.2 = some e →
      (compileRawEngine w st workDir outDir jobName engine path).2 =
        some (.passFailed engine 1 e
          (tail (runCmd w st workDir engine (rawEngineArgs outDir jobName path)).2.1 2000))) ∧
    (∀ e, (runCmd w st workDir engine (rawEngineArgs outDir jobName path)).2.2 = none →
      (runCmd w (runCmd w st workDir engine (rawEngineArgs outDir jobName path)).1 workDir
        engine (rawEngineArgs outDir jobName path)).2.2 = some e →
      (compileRawEngine w st workDir outDir jobName engine path).2 =
        some (.passFailed engine 2 e
          (tail ((runCmd w st workDir engine (rawEngineArgs outDir jobName path)).2.1 ++
            (runCmd w (runCmd w st workDir engine (rawEngineArgs outDir jobName path)).1
              workDir engine (rawEngineArgs outDir jobName path)).2.1) 2000))) ∧
    (∀ e, (runCmd w st workDir engine (rawEngineArgs outDir jobName path)).2.2 = none →
      (runCmd w (runCmd w st workDir engine (rawEngineArgs outDir jobName path)).1 workDir
        engine (rawEngineArgs outDir jobName path)).2.2 = none →
      (runCmd w (runCmd w (runCmd w st workDir engine (rawEngineArgs outDir jobName path)).1
        workDir engine (rawEngineArgs outDir jobName path)).1 workDir engine
          (rawEngineArgs outDir jobName path)).2.2 = some e →
      (compileRawEngine w st workDir outDir jobName engine path).2 =
        some (.passFailed engine 3 e
          (tail ((runCmd w st workDir engine (rawEngineArgs outDir jobName path)).2.1 ++
            (runCmd w (runCmd w st workDir engine (rawEngineArgs outDir jobName path)).1
              workDir engine (rawEngineArgs outDir jobName path)).2.1 ++
            (runCmd w (runCmd w (runCmd w st workDir engine
              (rawEngineArgs outDir jobName path)).1 workDir engine
                (rawEngineArgs outDir jobName path)).1 workDir engine
                  (rawEngineArgs outDir jobName path)).2.1) 2000))) := by
  refine ⟨fun e h1 => ?_, fun e h1 h2 => ?_, fun e h1 h2 h3 => ?_⟩
  · unfold compileRawEngine
    rw [rawPasses_succ, h1]
    simp
  · unfold compileRawEngine
    rw [rawPasses_succ, h1]
    simp only []
    rw [rawPasses_succ, h2]
    simp
  · unfold compileRawEngine
    rw [rawPasses_succ, h1]
    simp only []
    rw [rawPasses_succ, h2]
    simp only []
    rw [rawPasses_succ, h3]
    simp

/-- C19, as the code has it. When the run of an external program ends with
an error, whatever its cause — an expired deadline of the caller included —
`CompileTeX` returns the failure of that run: `latexmk failed` for the
driver and `<engine> pass k failed` for the pass `k` of the engine, each
wrapping the error of the run unchanged and followed by the tail of the
output. There is no failure kind for a timeout: after the first part of
`CompileTeX` every failure is a latexmk failure, a pass failure or the
missing-toolchain failure, the kind of a failure does not depend on the
wrapped error, and two failures of one pass differ exactly when their wrapped
errors or their output tails differ. -/
theorem CompileTeX_failure_of_run (w : World) (st : Sys) (tex : Bytes) (outPath : Str)
    (st1 : Sys) (srcName : Str) (hp : prepareSource w st tex outPath = (st1, .ok srcName)) :
    let engine := selectEngine w.unicodeLower tex
    let outDir := w.Dir outPath
    let jobName := TrimSuffix (w.Base outPath) (w.Ext outPath)
    let path := joinPath outDir srcName
    let st2 := st1.logged (.lookPath "latexmk".toList)
    let st3 := st2.logged (.lookPath engine)
    let d := w.run st2 outDir "latexmk".toList (latexmkArgs outDir jobName engine path)
    let p1 := runCmd w st3 outDir engine (rawEngineArgs outDir jobName path)
    let p2 := runCmd w p1.1 outDir engine (rawEngineArgs outDir jobName path)
    let p3 := runCmd w p2.1 outDir engine (rawEngineArgs outDir jobName path)
    let r := (CompileTeX w st tex outPath).2
    (w.lookPath st1 "latexmk".toList = true → ∀ e, d.err = some e →
        r = some (.latexmkFailed e (tail d.out 2000))) ∧
      (w.lookPath st1 "latexmk".toList = false → w.lookPath st2 engine = true →
        (∀ e, p1.2.2 = some e → r = some (.passFailed engine 1 e (tail p1.2.1 2000))) ∧
        (∀ e, p1.2.2 = none → p2.2.2 = some e →
          r = some (.passFailed engine 2 e (tail (p1.2.1 ++ p2.2.1) 2000))) ∧
        (∀ e, p1.2.2 = none → p2.2.2 = none → p3.2.2 = some e →
          r = some (.passFailed engine 3 e (tail (p1.2.1 ++ p2.2.1 ++ p3.2.1) 2000)))) ∧
      (∀ err, r = some err →
        err.kind = .latexmkFailed ∨ err.kind = .notFound ∨
          ∃ k, 1 ≤ k ∧ k ≤ 3 ∧ err.kind = .passFailed k) ∧
      (∀ (k : Nat) (e e1 : OSError) (out out1 : Str),
        (CompileError.passFailed engine k e out).kind =
            (CompileError.passFailed engine k e1 out1).kind ∧
          (CompileError.passFailed engine k e out = .passFailed engine k e1 out1 ↔
            e = e1 ∧ out = out1) ∧
          (CompileError.passFailed engine k e out).Error =
            engine ++ " pass ".toList ++ itoa k ++ " failed: ".toList ++ e ++ "\n".toList ++
              out) ∧
      (∀ (e e1 : OSError) (out out1 : Str),
        (CompileError.latexmkFailed e out).kind = (CompileError.latexmkFailed e1 out1).kind ∧
          (CompileError.latexmkFailed e out = .latexmkFailed e1 out1 ↔ e = e1 ∧ out = out1) ∧
          (CompileError.latexmkFailed e out).Error =
            "latexmk failed: ".toList ++ e ++ "\n".toList ++ out) := by
  intro engine outDir jobName path st2 st3 d p1 p2 p3 r
  have hr : r = (compileSource w st1 tex outDir jobName path).2 := by
    show (CompileTeX w st tex outPath).2 = _
    rw [CompileTeX_of_prepared w st tex outPath st1 srcName hp]
  refine ⟨fun hl e he => ?_, fun hl hen => ?_, fun err herr => ?_,
    fun k e e1 out out1 => ⟨rfl, by simp, rfl⟩, fun e e1 out out1 => ⟨rfl, by simp, rfl⟩⟩
  · rw [hr, compileSource_latexmk_result w st1 tex outDir jobName path hl]
    unfold compileWithLatexmk
    simp only [runCmd]
    have he1 : (w.run (st1.logged (.lookPath "latexmk".toList)) outDir "latexmk".toList
        (latexmkArgs outDir jobName (selectEngine w.unicodeLower tex) path)).err = some e := he
    rw [he1]
  · rw [hr, compileSource_raw_result w st1 tex outDir jobName path hl hen]
    exact compileRawEngine_result w st3 outDir outDir jobName engine path
  · rw [hr] at herr
    cases hl : w.lookPath st1 "latexmk".toList with
    | true =>
      rw [compileSource_latexmk_result w st1 tex outDir jobName path hl] at herr
      unfold compileWithLatexmk at herr
      simp only [] at herr
      split at herr
      · simp only [Option.some.injEq] at herr
        subst herr
        exact Or.inl rfl
      · cases herr
    | false =>
      cases hen : w.lookPath st2 engine with
      | false =>
        obtain ⟨_, _, _, _, _, h5⟩ := compileSource_spec w st1 tex outDir jobName path
        have := ((h5 hl).2 hen).2
        rw [this] at herr
        simp only [Option.some.injEq] at herr
        subst herr
        exact Or.inr (Or.inl rfl)
      | true =>
        rw [compileSource_raw_result w st1 tex outDir jobName path hl hen] at herr
        obtain ⟨k, e, more, h1, h2, h3⟩ := rawPasses_failure w outDir engine _ 3 0 _ [] err herr
        subst h3
        exact Or.inr (Or.inr ⟨k, by omega, by omega, rfl⟩)

/-- In `deadlineWorld 1` the deadline ends the first pass: the failure that
`CompileTeX` returns is the failure of pass 1 with the error of the run. -/
theorem CompileTeX_failure_of_run_witness :
    (CompileTeX (deadlineWorld 1) emptySys [] "out/doc.pdf".toList).2 =
      some (.passFailed EnginePDFLaTeX 1 "signal: killed".toList "pass 1\n".toList) :=
  (((CompileTeX_failure_of_run (deadlineWorld 1) emptySys [] "out/doc.pdf".toList
    ⟨[("out".toList, "doc-123.tex".toList)],
      [.mkdirAll "out".toList, .createTemp "out".toList "doc-*.tex".toList,
        .write "out".toList "doc-123.tex".toList [],
        .close "out".toList "doc-123.tex".toList]⟩
    "doc-123.tex".toList rfl).2.1 (by decide) (by decide)).1 "signal: killed".toList
      (by decide)).trans (by decide)

/-- C19 as it is written fails: when the deadline ends the second pass
(`deadlineWorld 2`), the failure that `CompileTeX` returns is the failure of
pass 2, of the same kind and with the same message form as when the compiler
exits with an error in that pass (`rawWorld 2`); the two differ in the
wrapped error of the run only. -/
theorem CompileTeX_failure_of_run_counterexample :
    (CompileTeX (deadlineWorld 2) emptySys [] "out/doc.pdf".toList).2 =
        some (.passFailed EnginePDFLaTeX 2 "signal: killed".toList "pass 1\npass 2\n".toList) ∧
      (CompileTeX (rawWorld 2) emptySys [] "out/doc.pdf".toList).2 =
        some (.passFailed EnginePDFLaTeX 2 "exit status 1".toList "pass 1\npass 2\n".toList) ∧
      ((CompileTeX (deadlineWorld 2) emptySys [] "out/doc.pdf".toList).2.map CompileError.kind =
        (CompileTeX (rawWorld 2) emptySys [] "out/doc.pdf".toList).2.map CompileError.kind) ∧
      (CompileError.passFailed EnginePDFLaTeX 2 "signal: killed".toList
          "pass 1\npass 2\n".toList).Error =
        "pdflatex pass 2 failed: signal: killed\npass 1\npass 2\n".toList := by
  refine ⟨by decide, by decide, by decide, by decide⟩

/-! ## Directive lines -/

theorem IsSpreadDirectiveText.isDirectiveText {t name : Bytes}
    (h : IsSpreadDirectiveText t name) : IsDirectiveText t name := by
  obtain ⟨w0, l1, w1, l2, w2, w3, w4, h1, h2, h3, h4, h5, h6, h7, h8, h9, h10, h11, _⟩ := h
  exact ⟨w0, l1, w1, l2, w2, w3, w4, h1, h2, h3, h4, h5, h6, h7, h8, h9, h10, h11⟩

theorem SpreadDirectiveAt.directiveAt {s : Bytes} {i : Nat} {name : Bytes}
    (h : SpreadDirectiveAt s i name) : DirectiveAt s i name := by
  obtain ⟨pre, t, post, h1, h2, h3, h4, h5⟩ := h
  exact ⟨pre, t, post, h1, h2, h3, h4, h5.isDirectiveText⟩

/-- No piece of a split holds the separator. -/
theorem not_mem_of_mem_splitOnP {α : Type} (p : α → Bool) (xs : List α) :
    ∀ l ∈ xs.splitOnP p, ∀ x ∈ l, p x = false := by
  induction xs with
  | nil =>
    intro l hl x hx
    rw [List.splitOnP_nil, List.mem_singleton] at hl
    subst hl
    cases hx
  | cons a xs ih =>
    intro l hl x hx
    rw [List.splitOnP_cons] at hl
    by_cases ha : p a = true
    · rw [if_pos ha, List.mem_cons] at hl
      rcases hl with rfl | hl
      · cases hx
      · exact ih l hl x hx
    · rw [if_neg ha] at hl
      cases hs : xs.splitOnP p with
      | nil => exact absurd hs (List.splitOnP_ne_nil p xs)
      | cons h t =>
        rw [hs] at hl ih
        simp only [List.modifyHead_cons, List.mem_cons] at hl
        rcases hl with rfl | hl
        · rcases List.mem_cons.1 hx with rfl | hx
          · simpa using ha
          · exact ih h (List.mem_cons_self _ _) x hx
        · exact ih l (List.mem_cons_of_mem _ hl) x hx

theorem not_feed_of_mem_splitOn (s l : Bytes) (hl : l ∈ s.splitOn 10) : (10 : Nat) ∉ l := by
  intro h
  have := not_mem_of_mem_splitOnP (fun x => x == 10) s l hl 10 h
  simp at this

theorem intercalate_feed_cons (l : Bytes) (ls : List Bytes) (h : ls ≠ []) :
    [10].intercalate (l :: ls) = l ++ 10 :: [10].intercalate ls := by
  cases ls with
  | nil => exact absurd rfl h
  | cons a ls => simp [List.intercalate]

/-- The text of lines of which `line` is one: the lines before it, each with
its line feed, the line, and then a line feed when lines follow. -/
theorem intercalate_feed_split (before : List Bytes) (line : Bytes) (after : List Bytes) :
    ∃ post, (post = [] ∨ ∃ R, post = 10 :: R) ∧ (after = [] → post = []) ∧
      [10].intercalate (before ++ line :: after) = feedLines before ++ (line ++ post) := by
  induction before with
  | nil =>
    cases after with
    | nil => exact ⟨[], Or.inl rfl, fun _ => rfl, by simp [List.intercalate, feedLines]⟩
    | cons a as =>
      refine ⟨10 :: [10].intercalate (a :: as), Or.inr ⟨_, rfl⟩, fun h => List.noConfusion h, ?_⟩
      rw [List.nil_append, intercalate_feed_cons _ _ (by simp)]
      simp [feedLines]
  | cons b bs ih =>
    obtain ⟨post, hp, hn, he⟩ := ih
    refine ⟨post, hp, hn, ?_⟩
    rw [List.cons_append, intercalate_feed_cons _ _ (by simp), he]
    simp [feedLines]

theorem length_feedLines (before : List Bytes) : (feedLines before).length = lineOffset before := by
  induction before with
  | nil => rfl
  | cons b bs ih =>
    have e : feedLines (b :: bs) = (b ++ [10]) ++ feedLines bs := by simp [feedLines]
    rw [e, List.length_append, ih]
    simp [lineOffset]

theorem FoldMatches_no_feed (lit : Str) (hlit : ∀ c ∈ lit, ∀ f ∈ foldForms c, (10 : Nat) ∉ f)
    (l : Bytes) (h : FoldMatches lit l) : (10 : Nat) ∉ l := by
  induction lit generalizing l with
  | nil =>
    unfold FoldMatches at h
    subst h
    simp
  | cons c cs ih =>
    unfold FoldMatches at h
    obtain ⟨f, r, hf, rfl, hr⟩ := h
    rw [List.mem_append]
    rintro (h | h)
    · exact hlit c (List.mem_cons_self _ _) f hf h
    · exact ih (fun c hc => hlit c (List.mem_cons_of_mem _ hc)) r hr h

theorem no_feed_TEX : ∀ c ∈ "%!TEX".toList, ∀ f ∈ foldForms c, (10 : Nat) ∉ f := by decide

theorem no_feed_TSprogram : ∀ c ∈ "TS-program".toList, ∀ f ∈ foldForms c, (10 : Nat) ∉ f := by
  decide
/-- A match at the head of a line: the line is blank, or it is a directive
line, or the match is a directive spread over lines. -/
theorem matchDirectiveHere_line (line post name : Bytes) (hl : (10 : Nat) ∉ line)
    (hp : post = [] ∨ ∃ R, post = 10 :: R)
    (h : matchDirectiveHere (line ++ post) = some name) :
    (∀ b ∈ line, reSpace b = true) ∨ IsDirectiveText line name ∨
      ∃ t post1, line ++ post = t ++ post1 ∧ (post1 = [] ∨ post1.head? = some 10) ∧
        IsSpreadDirectiveText t name := by
  obtain ⟨t, post1, he, hp1, ht⟩ := matchDirectiveHere_sound _ _ h
  obtain ⟨w0, l1, w1, l2, w2, w3, w4, rfl, hw0, m1, hw1ne, hw1, m2, hw2, hw3, hne, hname, hw4⟩ :=
    ht
  by_cases hsp : 10 ∈ w1 ∨ 10 ∈ w2 ∨ 10 ∈ w3
  · exact Or.inr (Or.inr ⟨_, post1, he, hp1, w0, l1, w1, l2, w2, w3, w4, rfl, hw0, m1, hw1ne,
      hw1, m2, hw2, hw3, hne, hname, hw4, hsp⟩)
  have e1 : line ++ post =
      (w0 ++ (l1 ++ (w1 ++ (l2 ++ (w2 ++ (61 :: (w3 ++ name))))))) ++ (w4 ++ post1) := by
    rw [he]; simp
  rcases List.append_eq_append_iff.1 e1 with ⟨a, ha, hpa⟩ | ⟨c, hc, hcp⟩
  · -- the line ends before the end of the name
    cases a with
    | nil =>
      rw [List.append_nil] at ha
      exact Or.inr (Or.inl ⟨w0, l1, w1, l2, w2, w3, [], by rw [← ha]; simp, hw0, m1, hw1ne, hw1,
        m2, hw2, hw3, hne, hname, by simp⟩)
    | cons x a =>
      have hx : x = 10 := by
        rcases hp with rfl | ⟨R, rfl⟩
        · cases hpa
        · simp only [List.cons_append, List.cons.injEq] at hpa
          exact hpa.1.symm
      subst hx
      left
      rcases List.append_eq_append_iff.1 ha with ⟨e, he1, _⟩ | ⟨e, he1, _⟩
      · -- the line goes beyond the leading white space: the feed is further on
        exfalso
        have hmem : (10 : Nat) ∈ w0 ++ (l1 ++ (w1 ++ (l2 ++ (w2 ++ (61 :: (w3 ++ name)))))) := by
          rw [ha]; simp
        simp only [List.mem_append, List.mem_cons] at hmem
        rcases hmem with h0 | h0 | h0 | h0 | h0 | h0 | h0 | h0
        · exact hl (by rw [he1]; exact List.mem_append_left _ h0)
        · exact FoldMatches_no_feed _ no_feed_TEX l1 m1 h0
        · exact hsp (Or.inl h0)
        · exact FoldMatches_no_feed _ no_feed_TSprogram l2 m2 h0
        · exact hsp (Or.inr (Or.inl h0))
        · cases h0
        · exact hsp (Or.inr (Or.inr h0))
        · have := hname 10 h0
          revert this; decide
      · intro b hb
        exact hw0 b (by rw [he1]; exact List.mem_append_left _ hb)
  · -- the line holds the name
    have hcs : ∀ b ∈ c, reSpace b = true := by
      rcases List.append_eq_append_iff.1 hcp with ⟨a, ha, hpa⟩ | ⟨a, ha, _⟩
      · -- the line goes on after the white space that follows the name
        have hcl : (10 : Nat) ∉ c := fun h10 => hl (by rw [hc]; exact List.mem_append_right _ h10)
        have ha0 : a = [] := by
          cases a with
          | nil => rfl
          | cons x a =>
            exfalso
            rcases hp1 with rfl | hp1
            · cases hpa
            · cases post1 with
              | nil => simp at hp1
              | cons y Y =>
                simp only [List.head?_cons, Option.some.injEq] at hp1
                subst hp1
                simp only [List.cons_append, List.cons.injEq] at hpa
                exact hcl (by rw [ha, ← hpa.1]; simp)
        subst ha0
        rw [List.append_nil] at ha
        subst ha
        exact hw4
      · intro b hb
        exact hw4 b (by rw [ha]; exact List.mem_append_left _ hb)
    exact Or.inr (Or.inl ⟨w0, l1, w1, l2, w2, w3, c, by rw [hc]; simp, hw0, m1, hw1ne, hw1, m2,
      hw2, hw3, hne, hname, hcs⟩)
theorem findDirectiveFrom_of_match (s name : Bytes) (h : matchDirectiveHere s = some name) :
    findDirectiveFrom true s = some name := by
  cases s with
  | nil =>
    have : matchDirectiveHere [] = none := by decide
    rw [this] at h; cases h
  | cons b s =>
    unfold findDirectiveFrom
    rw [if_pos rfl, h]

theorem findDirectiveFrom_of_no_match (b : Nat) (s : Bytes)
    (h : matchDirectiveHere (b :: s) = none) :
    findDirectiveFrom true (b :: s) = findDirectiveFrom (b == 10) s := by
  conv_lhs => unfold findDirectiveFrom
  rw [if_pos rfl, h]

/-- Inside a line the search goes on to the line feed. -/
theorem findDirectiveFrom_false_line (line R : Bytes) (hl : (10 : Nat) ∉ line) :
    findDirectiveFrom false (line ++ 10 :: R) = findDirectiveFrom true R ∧
      findDirectiveFrom false line = none := by
  induction line with
  | nil =>
    refine ⟨?_, rfl⟩
    rw [List.nil_append]
    conv_lhs => unfold findDirectiveFrom
    simp
  | cons b line ih =>
    have hb : (b == 10) = false := by
      rw [beq_eq_false_iff_ne]
      rintro rfl
      exact hl (List.mem_cons_self _ _)
    obtain ⟨h1, h2⟩ := ih (fun h => hl (List.mem_cons_of_mem _ h))
    constructor
    · rw [List.cons_append]
      conv_lhs => unfold findDirectiveFrom
      simp only [Bool.false_eq_true, if_false]
      rw [hb, h1]
    · conv_lhs => unfold findDirectiveFrom
      simp only [Bool.false_eq_true, if_false]
      rw [hb, h2]

/-- A line without a match at its head is passed over. -/
theorem findDirectiveFrom_next_line (line R : Bytes) (hl : (10 : Nat) ∉ line)
    (h : matchDirectiveHere (line ++ 10 :: R) = none) :
    findDirectiveFrom true (line ++ 10 :: R) = findDirectiveFrom true R := by
  cases line with
  | nil =>
    rw [List.nil_append] at h ⊢
    rw [findDirectiveFrom_of_no_match _ _ h]
    rfl
  | cons b line =>
    have hb : (b == 10) = false := by
      rw [beq_eq_false_iff_ne]
      rintro rfl
      exact hl (List.mem_cons_self _ _)
    rw [List.cons_append] at h ⊢
    rw [findDirectiveFrom_of_no_match _ _ h, hb]
    exact (findDirectiveFrom_false_line line R (fun h => hl (List.mem_cons_of_mem _ h))).1

theorem findDirectiveFrom_last_line (line : Bytes) (hl : (10 : Nat) ∉ line)
    (h : matchDirectiveHere line = none) : findDirectiveFrom true line = none := by
  cases line with
  | nil => rfl
  | cons b line =>
    have hb : (b == 10) = false := by
      rw [beq_eq_false_iff_ne]
      rintro rfl
      exact hl (List.mem_cons_self _ _)
    rw [findDirectiveFrom_of_no_match _ _ h, hb]
    exact (findDirectiveFrom_false_line line [] (fun h => hl (List.mem_cons_of_mem _ h))).2

/-- A line that is no directive line, and at which no directive spread over
lines starts, is passed over. -/
theorem findDirectiveFrom_skip_line (line R : Bytes) (hl : (10 : Nat) ∉ line)
    (hnd : ∀ n, ¬ IsDirectiveText line n)
    (hns : ∀ n t post, line ++ 10 :: R = t ++ post → (post = [] ∨ post.head? = some 10) →
      ¬ IsSpreadDirectiveText t n) :
    findDirectiveFrom true (line ++ 10 :: R) = findDirectiveFrom true R := by
  cases hm : matchDirectiveHere (line ++ 10 :: R) with
  | none => exact findDirectiveFrom_next_line line R hl hm
  | some n =>
    rcases matchDirectiveHere_line line (10 :: R) n hl (Or.inr ⟨R, rfl⟩) hm with hb | hd | hs
    · have hw : ∀ b ∈ line ++ [10], reSpace b = true := by
        intro b hb1
        rcases List.mem_append.1 hb1 with h1 | h1
        · exact hb b h1
        · rw [List.mem_singleton.1 h1]; rfl
      have hR : matchDirectiveHere R = some n := by
        rw [← matchDirectiveHere_skip _ R hw, List.append_assoc]
        exact hm
      rw [findDirectiveFrom_of_match _ _ hm, findDirectiveFrom_of_match _ _ hR]
    · exact absurd hd (hnd n)
    · obtain ⟨t, post, he, hp, ht⟩ := hs
      exact absurd ht (hns n t post he hp)

/-- The last line, when it is no directive line, holds no match. -/
theorem findDirectiveFrom_skip_last (line : Bytes) (hl : (10 : Nat) ∉ line)
    (hnd : ∀ n, ¬ IsDirectiveText line n) : findDirectiveFrom true line = none := by
  apply findDirectiveFrom_last_line line hl
  cases hm : matchDirectiveHere line with
  | none => rfl
  | some n =>
    exfalso
    have hm1 : matchDirectiveHere (line ++ []) = some n := by rw [List.append_nil]; exact hm
    rcases matchDirectiveHere_line line [] n hl (Or.inl rfl) hm1 with hb | hd | hs
    · have h0 := matchDirectiveHere_skip line [] hb
      rw [hm1] at h0
      have : matchDirectiveHere [] = none := by decide
      rw [this] at h0; cases h0
    · exact hnd n hd
    · obtain ⟨t, post, he, hp, ht⟩ := hs
      obtain ⟨w0, l1, w1, l2, w2, w3, w4, rfl, -, -, -, -, -, -, -, -, -, -, hsp⟩ := ht
      apply hl
      have : (10 : Nat) ∈ line ++ [] := by
        rw [he]
        simp only [List.mem_append, List.mem_cons]
        tauto
      simpa using this

/-- A directive line at the head of the text is found. -/
theorem findDirectiveFrom_directive_line (line post name : Bytes)
    (hd : IsDirectiveText line name) (hp : post = [] ∨ ∃ R, post = 10 :: R) :
    findDirectiveFrom true (line ++ post) = some name := by
  apply findDirectiveFrom_of_match
  apply matchDirectiveHere_complete line post name hd
  rcases hp with rfl | ⟨R, rfl⟩
  · exact Or.inl rfl
  · exact Or.inr rfl

/-- The search passes over lines that are no directive lines, when no
directive spread over lines starts in them. -/
theorem findDirectiveFrom_skip_lines (before : List Bytes) (pre X : Bytes)
    (hpre : pre = [] ∨ pre.getLast? = some 10)
    (hl : ∀ l ∈ before, (10 : Nat) ∉ l) (hnd : ∀ l ∈ before, ∀ n, ¬ IsDirectiveText l n)
    (hns : ∀ i n, i < pre.length + lineOffset before →
      ¬ SpreadDirectiveAt (pre ++ (feedLines before ++ X)) i n) :
    findDirectiveFrom true (feedLines before ++ X) = findDirectiveFrom true X := by
  induction before generalizing pre with
  | nil => rfl
  | cons b bs ih =>
    have e : feedLines (b :: bs) ++ X = b ++ 10 :: (feedLines bs ++ X) := by simp [feedLines]
    have eo : lineOffset (b :: bs) = b.length + 1 + lineOffset bs := by simp [lineOffset]
    rw [e] at hns ⊢
    rw [findDirectiveFrom_skip_line b _ (hl b (List.mem_cons_self _ _))
      (hnd b (List.mem_cons_self _ _))]
    · apply ih (pre ++ (b ++ [10])) (Or.inr (by simp))
        (fun l h => hl l (List.mem_cons_of_mem _ h)) (fun l h => hnd l (List.mem_cons_of_mem _ h))
      intro i n hi
      have := hns i n (by
        rw [eo]
        simp only [List.length_append, List.length_singleton] at hi
        omega)
      simpa using this
    · intro n t post he hp ht
      exact hns pre.length n (by rw [eo]; omega) ⟨pre, t, post, by rw [he], rfl, hpre, hp, ht⟩
/-- The first directive line is found, when no directive spread over lines
starts before it. -/
theorem findDirective_first_line (s : Bytes) (before : List Bytes) (line : Bytes)
    (after : List Bytes) (name : Bytes) (hs : s.splitOn 10 = before ++ line :: after)
    (hnd : ∀ l ∈ before, ∀ n, ¬ IsDirectiveText l n) (hd : IsDirectiveText line name)
    (hns : ∀ i n, i < lineOffset before → ¬ SpreadDirectiveAt s i n) :
    findDirective s = some name := by
  obtain ⟨post, hp, -, he⟩ := intercalate_feed_split before line after
  rw [← hs, List.intercalate_splitOn] at he
  have hl : ∀ l ∈ before, (10 : Nat) ∉ l := fun l h =>
    not_feed_of_mem_splitOn s l (by rw [hs]; exact List.mem_append_left _ h)
  unfold findDirective
  rw [he, findDirectiveFrom_skip_lines before [] _ (Or.inl rfl) hl hnd (fun i n hi => by
    rw [List.nil_append, ← he]
    exact hns i n (by simpa using hi))]
  exact findDirectiveFrom_directive_line line post name hd hp

/-- A text without a directive line and without a directive spread over
lines holds no match. -/
theorem findDirective_no_line (s : Bytes) (hnd : ¬ HasDirectiveLine s)
    (hns : ∀ i n, ¬ SpreadDirectiveAt s i n) : findDirective s = none := by
  have hne : s.splitOn 10 ≠ [] := List.splitOnP_ne_nil _ s
  have hs := (List.dropLast_append_getLast hne).symm
  obtain ⟨post, -, hpost, he⟩ := intercalate_feed_split (s.splitOn 10).dropLast
    ((s.splitOn 10).getLast hne) []
  rw [← hs, List.intercalate_splitOn] at he
  have hpost := hpost rfl
  subst hpost
  rw [List.append_nil] at he
  have hall : ∀ l ∈ s.splitOn 10, ∀ n, ¬ IsDirectiveText l n := fun l hl n hd =>
    hnd ⟨l, hl, n, hd⟩
  unfold findDirective
  rw [he, findDirectiveFrom_skip_lines _ [] _ (Or.inl rfl)
    (fun l h => not_feed_of_mem_splitOn s l (List.mem_of_mem_dropLast h))
    (fun l h => hall l (List.mem_of_mem_dropLast h)) (fun i n _ => by
      rw [List.nil_append, ← he]
      exact hns i n)]
  exact findDirectiveFrom_skip_last _ (not_feed_of_mem_splitOn s _ (List.getLast_mem hne))
    (hall _ (List.getLast_mem hne))
theorem splitOn_of_no_feed (s : Bytes) (h : (10 : Nat) ∉ s) : s.splitOn 10 = [s] := by
  have := List.splitOn_intercalate [s] 10 (by simpa using h) (by simp)
  simpa [List.intercalate] using this

/-- A line at whose head the pattern matches is a directive line. -/
theorem IsDirectiveText_of_match (line name : Bytes) (hl : (10 : Nat) ∉ line)
    (h : matchDirectiveHere line = some name) : IsDirectiveText line name := by
  obtain ⟨t, post, he, hpost, ht⟩ := matchDirectiveHere_sound _ _ h
  rcases hpost with rfl | hp
  · rw [List.append_nil] at he
    rw [he]; exact ht
  · cases post with
    | nil => simp at hp
    | cons x X =>
      simp only [List.head?_cons, Option.some.injEq] at hp
      subst hp
      exact absurd (by rw [he]; simp) hl

/-- A line at whose head the pattern does not match is no directive line. -/
theorem not_IsDirectiveText_of_no_match (line : Bytes) (h : matchDirectiveHere line = none)
    (n : Bytes) : ¬ IsDirectiveText line n := by
  intro hd
  have hm := matchDirectiveHere_complete line [] n hd (Or.inl rfl)
  rw [List.append_nil, h] at hm
  cases hm

/-- C13, as the code has it by design. The engine that `CompileTeX` selects
(`detectMagicEngine`, then the default pdflatex) is always one of pdflatex,
xelatex and lualatex; it is xelatex for every source that begins with the line
`%!TEX TS-program = xelatex`. The first 8192 bytes of the source are read as
lines, the texts between their line feeds, and a directive line is a line of
the form of `IsDirectiveText`: the key words in any case, white space around
them and around the name. When these bytes hold no directive line, and no
directive spread over lines, the engine is pdflatex. When `line` is the first
directive line, and no directive spread over lines starts before it, its
program name decides: xelatex, lualatex or pdflatex when it is that name in
any case of the letters, pdflatex when its lower case is none of the three.
Nothing is said of a source with a directive spread over lines. -/
theorem selectEngine_by_first_directive (u : Bytes → Bytes) (tex : Bytes) :
    (selectEngine u tex = EnginePDFLaTeX ∨ selectEngine u tex = EngineXeLaTeX ∨
        selectEngine u tex = EngineLuaLaTeX) ∧
      (∀ rest, tex = xelatexLine ∨ tex = xelatexLine ++ 10 :: rest →
        selectEngine u tex = EngineXeLaTeX) ∧
      (¬ HasDirectiveLine (tex.take 8192) →
        (∀ i n, ¬ SpreadDirectiveAt (tex.take 8192) i n) → selectEngine u tex = EnginePDFLaTeX) ∧
      (∀ before line after name, (tex.take 8192).splitOn 10 = before ++ line :: after →
        (∀ l ∈ before, ∀ n, ¬ IsDirectiveText l n) → IsDirectiveText line name →
        (∀ i n, i < lineOffset before → ¬ SpreadDirectiveAt (tex.take 8192) i n) →
          (name.map asciiLower = bytesOf "xelatex".toList → selectEngine u tex = EngineXeLaTeX) ∧
          (name.map asciiLower = bytesOf "lualatex".toList →
            selectEngine u tex = EngineLuaLaTeX) ∧
          (name.map asciiLower = bytesOf "pdflatex".toList →
            selectEngine u tex = EnginePDFLaTeX) ∧
          (ToLower u name ≠ bytesOf "xelatex".toList →
            ToLower u name ≠ bytesOf "lualatex".toList →
            ToLower u name ≠ bytesOf "pdflatex".toList →
              selectEngine u tex = EnginePDFLaTeX)) := by
  refine ⟨?_, ?_, ?_, ?_⟩
  · cases hf : findDirective (tex.take 8192) with
    | none => exact Or.inl (selectEngine_of_none u tex hf)
    | some name =>
      rw [selectEngine_of_some u tex name hf]
      split_ifs
      · exact Or.inr (Or.inl rfl)
      · exact Or.inr (Or.inr rfl)
      · exact Or.inl rfl
  · intro rest h
    have hf : findDirective (tex.take 8192) = some (bytesOf "xelatex".toList) := by
      rcases h with rfl | rfl
      · have : xelatexLine.take 8192 = xelatexLine ++ [] := by decide
        rw [this]
        exact findDirective_xelatexLine [] (Or.inl rfl)
      · have hlen : xelatexLine.length = 26 := by decide
        rw [List.take_append_eq_append_take, hlen, List.take_of_length_le (by omega)]
        show findDirective (xelatexLine ++ List.take 8166 (10 :: rest)) = _
        exact findDirective_xelatexLine _ (Or.inr rfl)
    rw [selectEngine_of_some u tex _ hf,
      ToLower_of_ascii u (bytesOf "xelatex".toList) (bytesOf "xelatex".toList) (by decide)
        (by decide)]
    rfl
  · intro hnd hns
    exact selectEngine_of_none u tex (findDirective_no_line _ hnd hns)
  · intro before line after name hs hnd hd hns
    have hf : findDirective (tex.take 8192) = some name :=
      findDirective_first_line _ before line after name hs hnd hd hns
    rw [selectEngine_of_some u tex name hf]
    refine ⟨fun h => ?_, fun h => ?_, fun h => ?_, fun h1 h2 _ => ?_⟩
    · rw [ToLower_of_ascii u _ _ (by decide) h]; rfl
    · rw [ToLower_of_ascii u _ _ (by decide) h]; rfl
    · rw [ToLower_of_ascii u _ _ (by decide) h]; rfl
    · rw [if_neg h1, if_neg h2]

/-- C13 as it is written fails where the text is cut. `cutDirectiveSource` is
one line of 8199 bytes, and a remark follows the name on it: the source holds
no directive line, and no text of the form of the directive that runs from a
line start to a line end, whatever the white space. The words
`%!TEX TS-program = xelatex` end at the byte 8192, where the text that is
searched is cut, and the engine is xelatex. -/
theorem selectEngine_counterexample :
    ¬ HasDirectiveLine cutDirectiveSource ∧
      (∀ i name, ¬ DirectiveAt cutDirectiveSource i name) ∧
      selectEngine id cutDirectiveSource = EngineXeLaTeX := by
  have hno : (10 : Nat) ∉ cutDirectiveSource := by
    unfold cutDirectiveSource
    rw [List.mem_append, List.mem_replicate]
    rintro (⟨_, h⟩ | h)
    · cases h
    · revert h; decide
  have hnone : ∀ i name, ¬ DirectiveAt cutDirectiveSource i name := by
    intro i name hd
    obtain ⟨hls, hm⟩ := (DirectiveAt_iff _ _ _).1 hd
    rcases hls with ⟨rfl, _⟩ | ⟨_, hg⟩
    · rw [List.drop_zero] at hm
      unfold cutDirectiveSource at hm
      rw [matchDirectiveHere_skip _ _ (fun b hb => by
        rw [List.eq_of_mem_replicate hb]; rfl)] at hm
      have : matchDirectiveHere (xelatexLine ++ bytesOf " % note".toList) = none := by decide
      rw [this] at hm; cases hm
    · exact hno (List.get?_mem hg)
  refine ⟨?_, hnone, ?_⟩
  · rintro ⟨line, hl, name, ht⟩
    rw [splitOn_of_no_feed _ hno, List.mem_singleton] at hl
    subst hl
    exact hnone 0 name ⟨[], _, [], by simp, rfl, Or.inl rfl, Or.inl rfl, ht⟩
  · have htake : cutDirectiveSource.take 8192 = List.replicate 8166 32 ++ xelatexLine := by
      unfold cutDirectiveSource
      rw [← List.append_assoc]
      exact List.take_left' (by rw [List.length_append, List.length_replicate]; rfl)
    have hf : findDirective (cutDirectiveSource.take 8192) = some (bytesOf "xelatex".toList) := by
      rw [htake]
      refine (findDirective_eq_some_iff _ _).2
        ⟨0, (DirectiveAt_iff _ _ _).2 ⟨Or.inl ⟨rfl, rfl⟩, ?_⟩,
          fun _ hj => absurd hj (Nat.not_lt_zero _)⟩
      rw [List.drop_zero, matchDirectiveHere_skip _ _ (fun b hb => by
        rw [List.eq_of_mem_replicate hb]; rfl)]
      decide
    rw [selectEngine_of_some id _ _ hf]
    decide

/-- The lines of `mixedCaseSource` are `\documentclass{article}`, the
directive line that names `LuaLaTeX`, and `\begin{document}`; no directive
spread over lines starts in the first line: the engine is lualatex. -/
theorem selectEngine_by_first_directive_witness :
    selectEngine id mixedCaseSource = EngineLuaLaTeX :=
  ((selectEngine_by_first_directive id mixedCaseSource).2.2.2
    [bytesOf "\\documentclass{article}".toList]
    (bytesOf "  %!tex   TS-Program=\tLuaLaTeX \r".toList)
    [bytesOf "\\begin{document}".toList] (bytesOf "LuaLaTeX".toList)
    (by decide)
    (fun l hl n => by
      rw [List.mem_singleton] at hl
      subst hl
      exact not_IsDirectiveText_of_no_match _ (by decide) n)
    (IsDirectiveText_of_match _ _ (by decide) (by decide))
    (fun i n hi hd => by
      have h := (DirectiveAt_iff _ _ _).1 hd.directiveAt
      have hall : ∀ k < 24, lineStartAt true (mixedCaseSource.take 8192) k →
          matchDirectiveHere ((mixedCaseSource.take 8192).drop k) = none := by decide
      rw [hall i hi h.1] at h
      cases h.2)).2.1 (by decide)

/-- The white space of the pattern holds the line feed, so the pattern also
matches a directive spread over lines. `splitDirectiveSource` has no directive line, and the
directive spread over its two lines selects xelatex. The only directive line
of `brokenDirectiveSource` is its third line, which names xelatex; its first
line breaks off after the `=`, the directive spread over the first two lines
names `foo`, and the engine is pdflatex. -/
theorem selectEngine_spread_directive :
    (¬ HasDirectiveLine splitDirectiveSource ∧
        SpreadDirectiveAt splitDirectiveSource 0 (bytesOf "xelatex".toList) ∧
        selectEngine id splitDirectiveSource = EngineXeLaTeX) ∧
      (brokenDirectiveSource.splitOn 10 =
          [bytesOf "%!TEX TS-program =".toList, bytesOf "foo".toList, xelatexLine] ∧
        (∀ n, ¬ IsDirectiveText (bytesOf "%!TEX TS-program =".toList) n) ∧
        (∀ n, ¬ IsDirectiveText (bytesOf "foo".toList) n) ∧
        IsDirectiveText xelatexLine (bytesOf "xelatex".toList) ∧
        SpreadDirectiveAt brokenDirectiveSource 0 (bytesOf "foo".toList) ∧
        selectEngine id brokenDirectiveSource = EnginePDFLaTeX) := by
  refine ⟨⟨?_, ?_, by decide⟩, by decide, ?_, ?_, IsDirectiveText_xelatexLine, ?_, by decide⟩
  · rintro ⟨line, hl, name, ht⟩
    have hs : splitDirectiveSource.splitOn 10 =
        [bytesOf "%!TEX".toList, bytesOf "TS-program = xelatex".toList] := by decide
    rw [hs] at hl
    simp only [List.mem_cons, List.not_mem_nil, or_false] at hl
    rcases hl with rfl | rfl
    · exact not_IsDirectiveText_of_no_match _ (by decide) name ht
    · exact not_IsDirectiveText_of_no_match _ (by decide) name ht
  · rcases matchDirectiveHere_line (bytesOf "%!TEX".toList)
        (10 :: bytesOf "TS-program = xelatex".toList) (bytesOf "xelatex".toList) (by decide)
        (Or.inr ⟨_, rfl⟩) (by decide) with hb | hd | ⟨t, post, he, hp, ht⟩
    · exact absurd (hb 37 (by decide)) (by decide)
    · exact absurd hd (not_IsDirectiveText_of_no_match _ (by decide) _)
    · exact ⟨[], t, post, he, rfl, Or.inl rfl, hp, ht⟩
  · exact not_IsDirectiveText_of_no_match _ (by decide)
  · exact not_IsDirectiveText_of_no_match _ (by decide)
  · rcases matchDirectiveHere_line (bytesOf "%!TEX TS-program =".toList)
        (10 :: bytesOf "foo\n%!TEX TS-program = xelatex".toList) (bytesOf "foo".toList)
        (by decide) (Or.inr ⟨_, rfl⟩) (by decide) with hb | hd | ⟨t, post, he, hp, ht⟩
    · exact absurd (hb 37 (by decide)) (by decide)
    · exact absurd hd (not_IsDirectiveText_of_no_match _ (by decide) _)
    · exact ⟨[], t, post, he, rfl, Or.inl rfl, hp, ht⟩

end ServerCI
